import Mathlib

/-!
# diskbst: a binary search tree serialised into one append-only file

A shallow embedding of `writer.go` (`OpenWriter`, `writer.Put`, `writer.findPos`)
over an in-memory model of the store file, together with the record codec and
the reader's lookup, and the properties of the store they establish.

Conventions of the embedding.

* A byte is a `Nat`; every byte produced by the encoder is below 256. A byte
  slice is a `List Nat`, a file is the list of its bytes.
* File offsets are Go `int64` values: a positioned write that would end beyond
  `maxInt64` fails. Lengths and offsets are `Nat`; 64-bit fields are encoded
  with an explicit reduction modulo `2 ^ 64`.
* The loop of `findPos` (`for { ... }`) has no bound in the source. The embedding
  gives it a fuel argument: the result `none` means that the fuel ran out,
  `some r` is the result `r` of a run that returned.
-/

namespace diskbst

/-! ## Definitions -/

/-! ### The embedding: bytes, files and the record codec -/

/-- A byte slice (`[]byte`). -/
abbrev Bytes := List Nat

/-- The contents of a file, byte by byte. -/
abbrev File := List Nat

/-- The error values that the operations return. -/
inductive Error where
  /-- The error `io.EOF` of a positioned read that got fewer bytes than asked for. -/
  | eof
  /-- The error of a positioned write that would end beyond the largest offset. -/
  | fileTooLarge
  /-- The error `failed writing new node` of `Put`. -/
  | failedWritingNewNode
  /-- The error `failed writing new node offset to parent` of `Put`. -/
  | failedWritingParent
  /-- The error `failed reading node size` of `findPos`. -/
  | failedReadingNodeSize
  /-- The error `failed reading node` of `findPos`. -/
  | failedReadingNode
  /-- The corruption error of the record decoder. -/
  | corruption
  /-- The error `errInvalidMagicNumber`. -/
  | errInvalidMagicNumber
  /-- The error `errKeyNotFound`. -/
  | errKeyNotFound
  /-- The error `os.ErrNotExist`. -/
  | errNotExist
  deriving DecidableEq, Repr

/-- The variable `magicNumber` of `writer.go`: the three header bytes. -/
def magicNumber : Bytes := [0xD, 0xB, 0xD]

/-- The largest file offset, `math.MaxInt64`. -/
def maxInt64 : Nat := 2 ^ 63 - 1

/-- The `c` low-order bytes of `n`, least significant first. -/
def leBytes : Nat → Nat → Bytes
  | 0, _ => []
  | c + 1, n => n % 256 :: leBytes c (n / 256)

/-- The number whose little-endian digits are the given bytes. -/
def leVal : Bytes → Nat
  | [] => 0
  | b :: bs => b + 256 * leVal bs

/-- The function `binary.LittleEndian.PutUint64` on a fresh 8-byte buffer. -/
def putUint64 (n : Nat) : Bytes := leBytes 8 (n % 2 ^ 64)

/-- The function `binary.LittleEndian.Uint64` on the first 8 bytes of a slice. -/
def uint64 (b : Bytes) : Nat := leVal (b.take 8)

/-- The function `bytes.Compare`: lexicographic order, result `-1`, `0` or `1`. -/
def Compare : Bytes → Bytes → Int
  | [], [] => 0
  | [], _ :: _ => -1
  | _ :: _, [] => 1
  | a :: as, b :: bs => if a < b then -1 else if b < a then 1 else Compare as bs

/-- The method `(*os.File).ReadAt` with a buffer of `len` bytes: the bytes read,
and `io.EOF` when fewer than `len` bytes were available at `off`. -/
def ReadAt (f : File) (len off : Nat) : Bytes × Option Error :=
  let b := (f.drop off).take len
  (b, if b.length < len then some Error.eof else none)

/-- The bytes of `f` with `b` written at `off`; a gap between the end of the file
and `off` reads as zeros. -/
def overwrite (f : File) (b : Bytes) (off : Nat) : File :=
  f.take off ++ List.replicate (off - f.length) 0 ++ b ++ f.drop (off + b.length)

/-- The method `(*os.File).WriteAt`: the file afterwards, the number of bytes
written and the error. Only the bytes that end at or below `maxInt64` are
written; when that is not all of them the write reports an error. -/
def WriteAt (f : File) (b : Bytes) (off : Nat) : File × Nat × Option Error :=
  if off + b.length ≤ maxInt64 then (overwrite f b off, b.length, none)
  else
    let n := maxInt64 - off
    (if n = 0 then f else overwrite f (b.take n) off, n, some Error.fileTooLarge)

/-- The struct `node`: a key, a value and the offsets of the two children
(`0` for no child). -/
structure node where
  key : Bytes
  value : Bytes
  leftChild : Nat
  rightChild : Nat
  deriving DecidableEq, Repr

/-- Modelled from the spec: the method `node.serialize`, which is not in
`writer.go`. The record is `recordSize(8) keyLen(8) key valueLen(8) value
leftChild(8) rightChild(8)`, every integer little-endian, with
`recordSize = 16 + len(key) + len(value) + 16` (section 4.1). -/
def node.serialize (n : node) : Bytes :=
  putUint64 (16 + n.key.length + n.value.length + 16) ++
    (putUint64 n.key.length ++ n.key ++ putUint64 n.value.length ++ n.value ++
      putUint64 n.leftChild ++ putUint64 n.rightChild)

/-- Modelled from the spec: the method `node.deserialize`, which is not in
`writer.go`. It decodes the bytes that follow the size field and fails with a
corruption error when the slice is shorter than the lengths it encodes
(section 4.1). -/
def node.deserialize (b : Bytes) : Except Error node :=
  if b.length < 8 then .error Error.corruption
  else
    let kl := uint64 b
    let b1 := b.drop 8
    if b1.length < kl + 8 then .error Error.corruption
    else
      let k := b1.take kl
      let b2 := b1.drop kl
      let vl := uint64 b2
      let b3 := b2.drop 8
      if b3.length < vl + 16 then .error Error.corruption
      else
        let v := b3.take vl
        let b4 := b3.drop vl
        .ok { key := k, value := v, leftChild := uint64 b4, rightChild := uint64 (b4.drop 8) }

/-! ### The embedding: the writer of `writer.go` -/

/-- The struct `writer`: the file behind `cursor` and the offset `tail` at which
the next record is appended. -/
structure writer where
  cursor : File
  tail : Nat
  deriving DecidableEq, Repr

/-- The loop of `writer.findPos`, one iteration per unit of fuel, entered with
`currPos` the offset of the record to visit. A decoding failure of
`deserialize`, which the source does not handle, ends the run with the
decoder's error. A child offset of `2 ^ 63` or more, which is negative as an
`int64`, lies beyond the end of every file, so that the read at it fails here
as it does in the source. -/
def findPosLoop (cursor : File) (key : Bytes) : Nat → Nat → Option (Except Error Nat)
  | 0, _ => none
  | fuel + 1, currPos =>
    let (nodeSize, err) := ReadAt cursor 8 currPos
    if err ≠ none then some (.error (err.getD Error.eof))
    else if nodeSize.length < 8 then some (.error Error.failedReadingNodeSize)
    else
      let currPos := currPos + 8
      let s := uint64 nodeSize
      let (nd, err) := ReadAt cursor s currPos
      if err ≠ none then some (.error (err.getD Error.eof))
      else if nd.length < s then some (.error Error.failedReadingNode)
      else
        match node.deserialize nd with
        | .error e => some (.error e)
        | .ok currNode =>
          let currPos := currPos + (8 + currNode.key.length + 8 + currNode.value.length)
          if Compare key currNode.key ≤ 0 then
            if currNode.leftChild = 0 then some (.ok currPos)
            else findPosLoop cursor key fuel currNode.leftChild
          else
            if currNode.rightChild = 0 then some (.ok (currPos + 8))
            else findPosLoop cursor key fuel currNode.rightChild

/-- The method `writer.findPos`: the location in the parent record where the
offset of the new record is to be written, or the tail for an empty tree. -/
def writer.findPos (fuel : Nat) (w : writer) (key : Bytes) : Option (Except Error Nat) :=
  if w.tail = magicNumber.length then some (.ok w.tail)
  else findPosLoop w.cursor key fuel magicNumber.length

/-- The method `writer.Put`: the writer after the call and the error returned
(`none` for `nil`); the result is `none` when the descent ran out of fuel. -/
def writer.Put (fuel : Nat) (w : writer) (key value : Bytes) : Option (writer × Option Error) :=
  let newNode : node := { key := key, value := value, leftChild := 0, rightChild := 0 }
  let data := newNode.serialize
  let (c1, n, err) := WriteAt w.cursor data w.tail
  let w1 : writer := { cursor := c1, tail := w.tail }
  if err ≠ none then some (w1, err)
  else if n < data.length then some (w1, some Error.failedWritingNewNode)
  else
    let newTail := w.tail + n
    match w1.findPos fuel key with
    | none => none
    | some (.error e) => some (w1, some e)
    | some (.ok pos) =>
      if pos = magicNumber.length then some ({ cursor := c1, tail := newTail }, none)
      else
        let nt := putUint64 w.tail
        let (c2, n2, err2) := WriteAt c1 nt pos
        let w2 : writer := { cursor := c2, tail := w.tail }
        if err2 ≠ none then some (w2, err2)
        else if n2 < nt.length then some (w2, some Error.failedWritingParent)
        else some ({ cursor := c2, tail := newTail }, none)

/-- The function `OpenWriter` on a path that holds the file `existing` (`none`
when no file exists there): the file at the path afterwards, and the writer or
the error. -/
def OpenWriter (existing : Option File) : Option File × Except Error writer :=
  match existing with
  | none =>
    -- create file, write the magic number at the start of it
    let (c, _, err) := WriteAt [] magicNumber 0
    if err ≠ none then (some c, .error (err.getD Error.eof))
    else (some c, .ok { cursor := c, tail := c.length })
  | some f =>
    -- `cursor.Read(mn)`: up to three bytes into a zeroed buffer, `io.EOF` at end of file
    let got := f.take magicNumber.length
    if got.length = 0 then (some f, .error Error.eof)
    else
      let mn := got ++ List.replicate (magicNumber.length - got.length) 0
      if Compare mn magicNumber ≠ 0 then (some f, .error Error.errInvalidMagicNumber)
      else (some f, .ok { cursor := f, tail := f.length })

/-- The method `writer.Close`: the file that is left at the path. -/
def writer.Close (w : writer) : File := w.cursor

/-! ### The embedding: the reader -/

/-- Modelled from the spec: the struct `reader`, which is not in `writer.go`; it
holds the file it was opened on. -/
structure reader where
  cursor : File
  deriving DecidableEq, Repr

/-- Modelled from the spec: the function `OpenReader`, which is not in
`writer.go`. It fails when no file exists and validates the header as the
writer does (section 4.3). -/
def OpenReader (existing : Option File) : Except Error reader :=
  match existing with
  | none => .error Error.errNotExist
  | some f =>
    let got := f.take magicNumber.length
    if got.length = 0 then .error Error.eof
    else
      let mn := got ++ List.replicate (magicNumber.length - got.length) 0
      if Compare mn magicNumber ≠ 0 then .error Error.errInvalidMagicNumber
      else .ok { cursor := f }

/-- Modelled from the spec: the descent of `Get`, which is not in `writer.go`.
It reads and decodes the record at `currPos` as the writer's descent does and
compares three ways: an equal key returns the value, a smaller key goes to the
left child, a greater key to the right child, and a child offset `0` is
`errKeyNotFound`; a short read is a corruption error (section 4.3). -/
def getLoop (cursor : File) (key : Bytes) : Nat → Nat → Option (Except Error Bytes)
  | 0, _ => none
  | fuel + 1, currPos =>
    let (nodeSize, err) := ReadAt cursor 8 currPos
    if err ≠ none ∨ nodeSize.length < 8 then some (.error Error.corruption)
    else
      let s := uint64 nodeSize
      let (nd, err) := ReadAt cursor s (currPos + 8)
      if err ≠ none ∨ nd.length < s then some (.error Error.corruption)
      else
        match node.deserialize nd with
        | .error e => some (.error e)
        | .ok currNode =>
          let c := Compare key currNode.key
          if c = 0 then some (.ok currNode.value)
          else
            let next := if c < 0 then currNode.leftChild else currNode.rightChild
            if next = 0 then some (.error Error.errKeyNotFound)
            else getLoop cursor key fuel next

/-- Modelled from the spec: the method `Get` of the reader, which is not in
`writer.go`. A file with no record after the header has no key; otherwise the
descent starts at the root offset (section 4.3). -/
def reader.Get (fuel : Nat) (r : reader) (key : Bytes) : Option (Except Error Bytes) :=
  if r.cursor.length ≤ magicNumber.length then some (.error Error.errKeyNotFound)
  else getLoop r.cursor key fuel magicNumber.length

/-! ### Runs of the writer and the stores of the test -/

/-- The writer after the given `Put` calls in order, when every one of them
returned `nil`; `none` when one failed or ran out of fuel. -/
def putAll (fuel : Nat) (w : writer) : List (Bytes × Bytes) → Option writer
  | [] => some w
  | (k, v) :: ops =>
    match w.Put fuel k v with
    | some (w1, none) => putAll fuel w1 ops
    | _ => none

/-- The writer that `OpenWriter` returns for a path with no file. -/
def newWriter : writer := { cursor := magicNumber, tail := 3 }

/-- The bytes of an ASCII string. -/
def str (s : String) : Bytes := s.toList.map Char.toNat

/-- The four `Put` calls of `TestBST`. -/
def testOps : List (Bytes × Bytes) :=
  [(str "hello", str "world"), (str "helloo", str "worldd"),
   (str "hell", str "worl"), (str "hellooo", str "worlddd")]

/-! ### Notions used to state the properties -/

/-- The encoded size of the store holding the given pairs: the header and, for
each pair, a record of `40 + len(key) + len(value)` bytes. -/
def storeSize : List (Bytes × Bytes) → Nat
  | [] => 3
  | (k, v) :: ops => 40 + k.length + v.length + storeSize ops

/-- The record that a descent reads at offset `off`: the size field, then that
many bytes, decoded; `none` when a read is short or the decoding fails. -/
def recordAt (f : File) (off : Nat) : Option node :=
  let (nodeSize, err) := ReadAt f 8 off
  if err ≠ none then none
  else
    let (nd, err) := ReadAt f (uint64 nodeSize) (off + 8)
    if err ≠ none then none
    else
      match node.deserialize nd with
      | .error _ => none
      | .ok n => some n

/-- The `len` bytes of `f` that start at `off` (fewer at the end of the file). -/
def slice (f : File) (off len : Nat) : Bytes := (f.drop off).take len

/-! ### The store as a sequence of records -/

/-- The bytes of a record after its size field. -/
def node.body (n : node) : Bytes :=
  putUint64 n.key.length ++ (n.key ++ (putUint64 n.value.length ++ (n.value ++
    (putUint64 n.leftChild ++ putUint64 n.rightChild))))

/-- The encoded size of a record. -/
def node.size (n : node) : Nat := 40 + n.key.length + n.value.length

/-- The node with one child offset replaced: the left one when `left` is true. -/
def node.setChild (n : node) (left : Bool) (x : Nat) : node :=
  if left then { n with leftChild := x } else { n with rightChild := x }

/-- The bytes of a sequence of records laid out one after the other. -/
def flat : List node → Bytes
  | [] => []
  | n :: ns => n.serialize ++ flat ns

/-- The record that starts at offset `off` when the records are laid out from
offset `base` on. -/
def nodeAt : List node → Nat → Nat → Option node
  | [], _, _ => none
  | n :: ns, base, off => if off = base then some n else nodeAt ns (base + n.size) off

/-- The records with a child offset of the record at `off` replaced by `x`. -/
def patch : List node → Nat → Nat → Bool → Nat → List node
  | [], _, _, _, _ => []
  | n :: ns, base, off, left, x =>
    if off = base then n.setChild left x :: ns else n :: patch ns (base + n.size) off left x

/-- The position of a child field within the record at `off`. -/
def node.slotAt (n : node) (off : Nat) (left : Bool) : Nat :=
  off + 24 + n.key.length + n.value.length + (if left then 0 else 8)

/-- The bytes of a record before its two child fields. -/
def node.front (n : node) : Bytes :=
  putUint64 (32 + n.key.length + n.value.length) ++
    (putUint64 n.key.length ++ (n.key ++ (putUint64 n.value.length ++ n.value)))

/-! ### The tree that a store represents -/

/-- A binary tree of records; every node carries the offset of its record. -/
inductive Tree where
  | nil
  | node (off : Nat) (key value : Bytes) (left right : Tree)
  deriving DecidableEq, Repr

/-- The offset of the root record, `0` for the empty tree. -/
def Tree.off : Tree → Nat
  | .nil => 0
  | .node off _ _ _ _ => off

/-- The offsets of all records of the tree. -/
def Tree.offs : Tree → List Nat
  | .nil => []
  | .node off _ _ l r => off :: (l.offs ++ r.offs)

/-- The keys of all records of the tree. -/
def Tree.keys : Tree → List Bytes
  | .nil => []
  | .node _ k _ l r => k :: (l.keys ++ r.keys)

/-- The number of records of the tree. -/
def Tree.size : Tree → Nat
  | .nil => 0
  | .node _ _ _ l r => 1 + l.size + r.size

/-- The tree with a new leaf at offset `x`, placed by the writer's rule: a key
that is not greater than the key of a node goes to the left of it. -/
def Tree.ins : Tree → Nat → Bytes → Bytes → Tree
  | .nil, x, k, v => .node x k v .nil .nil
  | .node off k0 v0 l r, x, k, v =>
    if Compare k k0 ≤ 0 then .node off k0 v0 (l.ins x k v) r
    else .node off k0 v0 l (r.ins x k v)

/-- The value found by the three-way descent. -/
def Tree.get : Tree → Bytes → Option Bytes
  | .nil, _ => none
  | .node _ k0 v0 l r, k =>
    if Compare k k0 = 0 then some v0
    else if Compare k k0 < 0 then l.get k else r.get k

/-- The insertion parent of a key: the offset of the record at which the
writer's descent stops, and whether the left child field was chosen. -/
def Tree.parent : Tree → Bytes → Nat × Bool
  | .nil, _ => (0, true)
  | .node off k0 _ l r, k =>
    if Compare k k0 ≤ 0 then (if l.off = 0 then (off, true) else l.parent k)
    else (if r.off = 0 then (off, false) else r.parent k)

/-- The position of the child field at which the writer's descent stops. -/
def Tree.slot : Tree → Bytes → Nat
  | .nil, _ => 0
  | .node off k0 v0 l r, k =>
    if Compare k k0 ≤ 0 then
      (if l.off = 0 then off + 8 + (8 + k0.length + 8 + v0.length) else l.slot k)
    else (if r.off = 0 then off + 8 + (8 + k0.length + 8 + v0.length) + 8 else r.slot k)

/-- The number of records that the writer's descent visits. -/
def Tree.depth : Tree → Bytes → Nat
  | .nil, _ => 0
  | .node _ k0 _ l r, k =>
    if Compare k k0 ≤ 0 then (if l.off = 0 then 1 else 1 + l.depth k)
    else (if r.off = 0 then 1 else 1 + r.depth k)

/-- The number of records that the reader's descent visits. -/
def Tree.getDepth : Tree → Bytes → Nat
  | .nil, _ => 0
  | .node _ k0 _ l r, k =>
    if Compare k k0 = 0 then 1
    else if Compare k k0 < 0 then (if l.off = 0 then 1 else 1 + l.getDepth k)
    else (if r.off = 0 then 1 else 1 + r.getDepth k)

/-- The records represent the tree: every node of the tree is the record at its
offset, with the offsets of its subtrees in the child fields. -/
def Rep (recs : List node) : Tree → Prop
  | .nil => True
  | .node off k v l r =>
    nodeAt recs 3 off = some { key := k, value := v, leftChild := l.off, rightChild := r.off } ∧
      Rep recs l ∧ Rep recs r

/-- The reads of one step of a descent at `off` succeed and decode to `n`. -/
structure Reads (f : File) (off : Nat) (n : node) : Prop where
  size : ReadAt f 8 off = (putUint64 (32 + n.key.length + n.value.length), none)
  body : ReadAt f (32 + n.key.length + n.value.length) (off + 8) = (n.body, none)
  dec : node.deserialize n.body = .ok n
  lt : 32 + n.key.length + n.value.length < 2 ^ 64

/-! ### The invariant of the writer -/

/-- The writer `w` holds the records `recs`, which represent the tree `t`. -/
structure Inv (w : writer) (recs : List node) (t : Tree) : Prop where
  file : w.cursor = magicNumber ++ flat recs
  tail : w.tail = 3 + (flat recs).length
  bound : w.tail ≤ maxInt64
  rep : Rep recs t
  root : recs ≠ [] → t.off = 3
  size : t.size = recs.length
  nodup : t.offs.Nodup

/-- The leaf record that `Put` appends. -/
def leaf (k v : Bytes) : node := { key := k, value := v, leftChild := 0, rightChild := 0 }

/-- The records after a `Put`: the child field of the insertion parent is
patched with the old tail and the new leaf is appended. -/
def putRecs (recs : List node) (t : Tree) (k v : Bytes) : List node :=
  patch recs 3 (t.parent k).1 (t.parent k).2 (3 + (flat recs).length) ++ [leaf k v]

/-- The writer after a successful `Put` on a writer that holds `recs`. -/
def putWriter (recs : List node) (t : Tree) (k v : Bytes) : writer :=
  { cursor := magicNumber ++ flat (putRecs recs t k v),
    tail := 3 + (flat (putRecs recs t k v)).length }

/-- The records and the tree after the given insertions, starting from records
`recs` that represent `t`. -/
def run : List node → Tree → List (Bytes × Bytes) → List node × Tree
  | recs, t, [] => (recs, t)
  | recs, t, (k, v) :: ops => run (putRecs recs t k v) (t.ins (3 + (flat recs).length) k v) ops

/-- The value of the first pair with the given key. -/
def firstValue : List (Bytes × Bytes) → Bytes → Option Bytes
  | [], _ => none
  | (k, v) :: ops, key => if key = k then some v else firstValue ops key

/-- The store of `TestBST` after its four `Put` calls. -/
def testStore : writer :=
  { cursor := [13, 11, 13,
      42, 0, 0, 0, 0, 0, 0, 0, 5, 0, 0, 0, 0, 0, 0, 0, 104, 101, 108, 108, 111,
      5, 0, 0, 0, 0, 0, 0, 0, 119, 111, 114, 108, 100,
      105, 0, 0, 0, 0, 0, 0, 0, 53, 0, 0, 0, 0, 0, 0, 0,
      44, 0, 0, 0, 0, 0, 0, 0, 6, 0, 0, 0, 0, 0, 0, 0, 104, 101, 108, 108, 111, 111,
      6, 0, 0, 0, 0, 0, 0, 0, 119, 111, 114, 108, 100, 100,
      0, 0, 0, 0, 0, 0, 0, 0, 153, 0, 0, 0, 0, 0, 0, 0,
      40, 0, 0, 0, 0, 0, 0, 0, 4, 0, 0, 0, 0, 0, 0, 0, 104, 101, 108, 108,
      4, 0, 0, 0, 0, 0, 0, 0, 119, 111, 114, 108,
      0, 0, 0, 0, 0, 0, 0, 0, 0, 0, 0, 0, 0, 0, 0, 0,
      46, 0, 0, 0, 0, 0, 0, 0, 7, 0, 0, 0, 0, 0, 0, 0, 104, 101, 108, 108, 111, 111, 111,
      7, 0, 0, 0, 0, 0, 0, 0, 119, 111, 114, 108, 100, 100, 100,
      0, 0, 0, 0, 0, 0, 0, 0, 0, 0, 0, 0, 0, 0, 0, 0],
    tail := 207 }

/-- Two `Put` calls with the same key and different values. -/
def dupOps : List (Bytes × Bytes) := [(str "k", str "a"), (str "k", str "b")]

/-- The store after the two `Put` calls of `dupOps`. -/
def dupStore : writer :=
  { cursor := [13, 11, 13,
      34, 0, 0, 0, 0, 0, 0, 0, 1, 0, 0, 0, 0, 0, 0, 0, 107, 1, 0, 0, 0, 0, 0, 0, 0, 97,
      45, 0, 0, 0, 0, 0, 0, 0, 0, 0, 0, 0, 0, 0, 0, 0,
      34, 0, 0, 0, 0, 0, 0, 0, 1, 0, 0, 0, 0, 0, 0, 0, 107, 1, 0, 0, 0, 0, 0, 0, 0, 98,
      0, 0, 0, 0, 0, 0, 0, 0, 0, 0, 0, 0, 0, 0, 0, 0],
    tail := 87 }

/-- Every child field of every record is `0` or the start offset of a record. -/
def Closed (recs : List node) : Prop :=
  ∀ n ∈ recs, (n.leftChild = 0 ∨ ∃ m, nodeAt recs 3 n.leftChild = some m) ∧
    (n.rightChild = 0 ∨ ∃ m, nodeAt recs 3 n.rightChild = some m)

/-- The record at offset `b` belongs to the subtree whose root is the record at
offset `a`: it is reached from `a` along child fields that are not `0`. -/
inductive Reach (f : File) : Nat → Nat → Prop
  | root {a : Nat} : a ≠ 0 → Reach f a a
  | left {a b : Nat} {n : node} :
      a ≠ 0 → recordAt f a = some n → Reach f n.leftChild b → Reach f a b
  | right {a b : Nat} {n : node} :
      a ≠ 0 → recordAt f a = some n → Reach f n.rightChild b → Reach f a b

/-- The ordering of a tree: at every node the keys of the left subtree are not
greater than the key of the node and the keys of the right subtree are
greater. -/
def Tree.Ordered : Tree → Prop
  | .nil => True
  | .node _ k _ l r =>
    (∀ k1 ∈ l.keys, Compare k1 k ≤ 0) ∧ (∀ k1 ∈ r.keys, 0 < Compare k1 k) ∧
      l.Ordered ∧ r.Ordered

/-- The subtrees of a tree that are not empty. -/
def Tree.subs : Tree → List Tree
  | .nil => []
  | .node off k v l r => .node off k v l r :: (l.subs ++ r.subs)

/-- The writer's descent for the key `K` visits a node that has the offset `o`
and the key `K`. -/
def Tree.onPath : Tree → Bytes → Nat → Prop
  | .nil, _, _ => False
  | .node off k0 _ l r, K, o =>
    (off = o ∧ k0 = K) ∨ (if Compare K k0 ≤ 0 then l.onPath K o else r.onPath K o)

/-- The left subtree of the node with offset `o1` has a node with offset `o2`. -/
def Tree.leftHas : Tree → Nat → Nat → Prop
  | .nil, _, _ => False
  | .node off _ _ l r, o1, o2 => (off = o1 ∧ o2 ∈ l.offs) ∨ l.leftHas o1 o2 ∨ r.leftHas o1 o2

/-- The store after `Put(k, a)` on a newly created store. -/
def oneStore : writer :=
  { cursor := [13, 11, 13,
      34, 0, 0, 0, 0, 0, 0, 0, 1, 0, 0, 0, 0, 0, 0, 0, 107, 1, 0, 0, 0, 0, 0, 0, 0, 97,
      0, 0, 0, 0, 0, 0, 0, 0, 0, 0, 0, 0, 0, 0, 0, 0],
    tail := 45 }

/-! ### Damaged stores, reopening and traversals -/

/-- The file of the store after `Put(hello, world)` without its last 8 bytes,
the `rightChild` field of the record: it ends in the middle of the root record. -/
def truncFile : File :=
  [13, 11, 13,
    42, 0, 0, 0, 0, 0, 0, 0, 5, 0, 0, 0, 0, 0, 0, 0, 104, 101, 108, 108, 111,
    5, 0, 0, 0, 0, 0, 0, 0, 119, 111, 114, 108, 100,
    0, 0, 0, 0, 0, 0, 0, 0]

/-- The writer that `OpenWriter` returns on `truncFile`. -/
def truncWriter : writer := { cursor := truncFile, tail := 45 }

/-- The writer after `Put(abc, v)` on `truncWriter`. -/
def truncPatched : writer :=
  { cursor := [13, 11, 13,
      42, 0, 0, 0, 0, 0, 0, 0, 5, 0, 0, 0, 0, 0, 0, 0, 104, 101, 108, 108, 111,
      5, 0, 0, 0, 0, 0, 0, 0, 119, 111, 114, 108, 100,
      45, 0, 0, 0, 0, 0, 0, 0,
      36, 0, 0, 0, 0, 0, 0, 0, 3, 0, 0, 0, 0, 0, 0, 0, 97, 98, 99,
      1, 0, 0, 0, 0, 0, 0, 0, 118,
      0, 0, 0, 0, 0, 0, 0, 0, 0, 0, 0, 0, 0, 0, 0, 0],
    tail := 89 }

/-- The writer after the failed `Put(zzz, v)` on `truncWriter`. -/
def truncFailed : writer :=
  { cursor := [13, 11, 13,
      42, 0, 0, 0, 0, 0, 0, 0, 5, 0, 0, 0, 0, 0, 0, 0, 104, 101, 108, 108, 111,
      5, 0, 0, 0, 0, 0, 0, 0, 119, 111, 114, 108, 100,
      0, 0, 0, 0, 0, 0, 0, 0,
      36, 0, 0, 0, 0, 0, 0, 0, 3, 0, 0, 0, 0, 0, 0, 0, 122, 122, 122,
      1, 0, 0, 0, 0, 0, 0, 0, 118,
      0, 0, 0, 0, 0, 0, 0, 0, 0, 0, 0, 0, 0, 0, 0, 0],
    tail := 45 }

/-- The writer after the given `Put` calls in order when, before every call
that is marked `true`, the writer is closed and the file is opened again with
`OpenWriter`; `none` when a call or an opening failed or ran out of fuel. -/
def putAllReopen (fuel : Nat) (w : writer) : List (Bool × Bytes × Bytes) → Option writer
  | [] => some w
  | (again, k, v) :: ops =>
    match (if again then (OpenWriter (some w.Close)).2 else .ok w) with
    | .error _ => none
    | .ok w0 =>
      match w0.Put fuel k v with
      | some (w1, none) => putAllReopen fuel w1 ops
      | _ => none

/-- The descent in the words of the specification: start at `off`; at a record
go to the `leftChild` if `key <= node.key` and to the `rightChild` otherwise;
stop at the first record whose chosen child is 0. The result is the offset of
that record and the record, `none` when a record cannot be read or the fuel
runs out. -/
def descend (f : File) (key : Bytes) : Nat → Nat → Option (Nat × node)
  | 0, _ => none
  | fuel + 1, off =>
    match recordAt f off with
    | none => none
    | some n =>
      if (if Compare key n.key ≤ 0 then n.leftChild else n.rightChild) = 0 then some (off, n)
      else descend f key fuel (if Compare key n.key ≤ 0 then n.leftChild else n.rightChild)

/-- The store after `Put(hello, world)` on a newly created store. -/
def helloStore : writer :=
  { cursor := [13, 11, 13,
      42, 0, 0, 0, 0, 0, 0, 0, 5, 0, 0, 0, 0, 0, 0, 0, 104, 101, 108, 108, 111,
      5, 0, 0, 0, 0, 0, 0, 0, 119, 111, 114, 108, 100,
      0, 0, 0, 0, 0, 0, 0, 0, 0, 0, 0, 0, 0, 0, 0, 0],
    tail := 53 }

/-- Every child field that is not `0` holds an offset above the start of its
own record. -/
def Forward (recs : List node) : Prop :=
  ∀ o n, nodeAt recs 3 o = some n →
    (n.leftChild = 0 ∨ o < n.leftChild) ∧ (n.rightChild = 0 ∨ o < n.rightChild)

/-- Every record of the store is a node of the tree. -/
def AllIn (recs : List node) (t : Tree) : Prop :=
  ∀ o n, nodeAt recs 3 o = some n → o ∈ t.offs

/-- The offset of the record reached from the offset `o` along a path of child
fields, `true` for `leftChild` and `false` for `rightChild`; `none` when the
path leaves the tree through a child field that is 0 or a record cannot be
read. -/
def walk (f : File) : List Bool → Nat → Option Nat
  | [], o => if o = 0 then none else (recordAt f o).map (fun _ => o)
  | d :: ds, o =>
    if o = 0 then none
    else
      match recordAt f o with
      | none => none
      | some n => walk f ds (if d then n.leftChild else n.rightChild)

/-- The pairs of key and value of the records of the on-disk tree under the
offset `o`: the record at `o`, then those under its `leftChild`, then those
under its `rightChild`, to a depth of `fuel` records. -/
def collect (f : File) : Nat → Nat → List (Bytes × Bytes)
  | 0, _ => []
  | fuel + 1, o =>
    if o = 0 then []
    else
      match recordAt f o with
      | none => []
      | some n => (n.key, n.value) :: (collect f fuel n.leftChild ++ collect f fuel n.rightChild)

/-- The offset of the node of the tree at the end of a path. -/
def Tree.walk : Tree → List Bool → Option Nat
  | .nil, _ => none
  | .node off _ _ _ _, [] => some off
  | .node _ _ _ l r, d :: ds => if d then l.walk ds else r.walk ds

/-- The pairs of key and value of the nodes of the tree. -/
def Tree.pairs : Tree → List (Bytes × Bytes)
  | .nil => []
  | .node _ k v l r => (k, v) :: (l.pairs ++ r.pairs)

/-! ## Lemmas -/

/-! ### The integer codec and the comparison -/

theorem leBytes_length (c n : Nat) : (leBytes c n).length = c := by
  induction c generalizing n with
  | zero => rfl
  | succ c ih => simp [leBytes, ih]

theorem leVal_leBytes (c n : Nat) : leVal (leBytes c n) = n % 256 ^ c := by
  induction c generalizing n with
  | zero => simp [leBytes, leVal, Nat.mod_one]
  | succ c ih =>
    simp only [leBytes, leVal, ih]
    rw [pow_succ', Nat.mod_mul]

theorem putUint64_length (n : Nat) : (putUint64 n).length = 8 := by
  simp [putUint64, leBytes_length]

theorem uint64_putUint64 (n : Nat) (rest : Bytes) :
    uint64 (putUint64 n ++ rest) = n % 2 ^ 64 := by
  unfold uint64
  rw [List.take_left' (putUint64_length n)]
  unfold putUint64
  rw [leVal_leBytes]
  norm_num

theorem uint64_putUint64_of_lt {n : Nat} (h : n < 2 ^ 64) (rest : Bytes) :
    uint64 (putUint64 n ++ rest) = n := by
  rw [uint64_putUint64, Nat.mod_eq_of_lt h]

theorem Compare_eq_zero_iff (a b : Bytes) : Compare a b = 0 ↔ a = b := by
  induction a generalizing b with
  | nil => cases b <;> simp [Compare]
  | cons x xs ih =>
    cases b with
    | nil => simp [Compare]
    | cons y ys =>
      simp only [Compare]
      split_ifs with h1 h2
      · simp; omega
      · simp; omega
      · rw [ih]
        have : x = y := by omega
        simp [this]

theorem Compare_self (a : Bytes) : Compare a a = 0 := (Compare_eq_zero_iff a a).2 rfl

/-! ### The file operations and the record codec -/

theorem ReadAt_append (a b c : Bytes) :
    ReadAt (a ++ b ++ c) b.length a.length = (b, none) := by
  simp [ReadAt, List.append_assoc]

theorem ReadAt_of_eq {f : File} {a b c : Bytes} {len off : Nat} (hf : f = a ++ b ++ c)
    (hoff : off = a.length) (hlen : len = b.length) : ReadAt f len off = (b, none) := by
  subst hf hoff hlen
  exact ReadAt_append a b c

theorem overwrite_append (a b b1 c : Bytes) (h : b1.length = b.length) :
    overwrite (a ++ b ++ c) b1 a.length = a ++ b1 ++ c := by
  simp [overwrite, List.append_assoc, h]

theorem overwrite_end (f b : Bytes) : overwrite f b f.length = f ++ b := by
  simp [overwrite]

theorem node.serialize_length (n : node) :
    n.serialize.length = 40 + n.key.length + n.value.length := by
  simp [node.serialize, putUint64_length]
  omega

theorem node.serialize_eq (n : node) :
    n.serialize = putUint64 (32 + n.key.length + n.value.length) ++ n.body := by
  simp [node.serialize, node.body, List.append_assoc]
  congr 1
  omega

theorem node.body_length (n : node) : n.body.length = 32 + n.key.length + n.value.length := by
  simp [node.body, putUint64_length]
  omega

theorem node.deserialize_body (n : node) (hk : n.key.length < 2 ^ 64)
    (hv : n.value.length < 2 ^ 64) (hl : n.leftChild < 2 ^ 64) (hr : n.rightChild < 2 ^ 64) :
    node.deserialize n.body = .ok n := by
  have h8 (x : Nat) (rest : Bytes) : (putUint64 x ++ rest).drop 8 = rest :=
    List.drop_left' (putUint64_length x)
  have hlen := n.body_length
  unfold node.deserialize
  simp only [node.body] at hlen ⊢
  rw [if_neg (by omega)]
  simp only [h8, uint64_putUint64_of_lt hk, List.drop_left, List.take_left,
    uint64_putUint64_of_lt hv, uint64_putUint64_of_lt hl]
  rw [if_neg (by simp [putUint64_length]), if_neg (by simp [putUint64_length])]
  have : uint64 (putUint64 n.rightChild) = n.rightChild := by
    have := uint64_putUint64_of_lt hr []
    simpa using this
  rw [this]

@[simp] theorem node.setChild_size (n : node) (l : Bool) (x : Nat) :
    (n.setChild l x).size = n.size := by
  cases l <;> rfl

@[simp] theorem node.setChild_key (n : node) (l : Bool) (x : Nat) :
    (n.setChild l x).key = n.key := by
  cases l <;> rfl

@[simp] theorem node.setChild_value (n : node) (l : Bool) (x : Nat) :
    (n.setChild l x).value = n.value := by
  cases l <;> rfl

theorem node.serialize_length_eq_size (n : node) : n.serialize.length = n.size := by
  rw [n.serialize_length, node.size]

/-! ### The store as a sequence of records -/

theorem flat_append (a b : List node) : flat (a ++ b) = flat a ++ flat b := by
  induction a with
  | nil => rfl
  | cons n ns ih => simp [flat, ih]

theorem nodeAt_bounds {recs : List node} {base off : Nat} {n : node}
    (h : nodeAt recs base off = some n) :
    base ≤ off ∧ off + n.size ≤ base + (flat recs).length := by
  induction recs generalizing base with
  | nil => simp [nodeAt] at h
  | cons m ms ih =>
    simp only [nodeAt] at h
    simp only [flat, List.length_append, m.serialize_length_eq_size]
    split_ifs at h with h1
    · cases h
      omega
    · have := ih h
      omega

theorem nodeAt_split {recs : List node} {base off : Nat} {n : node}
    (h : nodeAt recs base off = some n) :
    ∃ pre post, flat recs = pre ++ n.serialize ++ post ∧ base + pre.length = off := by
  induction recs generalizing base with
  | nil => simp [nodeAt] at h
  | cons m ms ih =>
    simp only [nodeAt] at h
    split_ifs at h with h1
    · cases h
      exact ⟨[], flat ms, by simp [flat], by simp [h1]⟩
    · obtain ⟨pre, post, h2, h3⟩ := ih h
      refine ⟨m.serialize ++ pre, post, by simp [flat, h2], ?_⟩
      simp [m.serialize_length_eq_size]
      omega

theorem nodeAt_patch (recs : List node) (base p o : Nat) (l : Bool) (x : Nat) :
    nodeAt (patch recs base p l x) base o =
      if o = p then (nodeAt recs base p).map (fun n => n.setChild l x) else nodeAt recs base o := by
  induction recs generalizing base with
  | nil => simp [patch, nodeAt]
  | cons m ms ih =>
    simp only [patch]
    by_cases hp : p = base
    · subst hp
      by_cases ho : o = p
      · subst ho
        simp [nodeAt]
      · simp [nodeAt, ho]
    · by_cases ho : o = base
      · subst ho
        have : ¬ o = p := fun h => hp h.symm
        simp [nodeAt, hp, this]
      · simp only [if_neg hp, nodeAt, if_neg ho, ih]

theorem nodeAt_append_left {recs : List node} {base off : Nat} {n : node}
    (h : nodeAt recs base off = some n) (more : List node) :
    nodeAt (recs ++ more) base off = some n := by
  induction recs generalizing base with
  | nil => simp [nodeAt] at h
  | cons m ms ih =>
    simp only [nodeAt, List.cons_append] at h ⊢
    split_ifs at h ⊢ with h1
    · exact h
    · exact ih h

theorem nodeAt_append_end (recs : List node) (base : Nat) (n : node) :
    nodeAt (recs ++ [n]) base (base + (flat recs).length) = some n := by
  induction recs generalizing base with
  | nil => simp [nodeAt, flat]
  | cons m ms ih =>
    have hm : 0 < m.size := by unfold node.size; omega
    simp only [nodeAt, List.cons_append, flat, List.length_append, m.serialize_length_eq_size]
    rw [if_neg (by omega)]
    have := ih (base + m.size)
    rwa [Nat.add_assoc] at this

theorem patch_append {recs : List node} {base p : Nat} {n : node}
    (h : nodeAt recs base p = some n) (l : Bool) (x : Nat) (more : List node) :
    patch (recs ++ more) base p l x = patch recs base p l x ++ more := by
  induction recs generalizing base with
  | nil => simp [nodeAt] at h
  | cons m ms ih =>
    simp only [nodeAt] at h
    simp only [patch, List.cons_append]
    split_ifs at h ⊢ with h1
    · rfl
    · have := ih h
      simp only [List.append_eq] at this ⊢
      rw [this]
      rfl

theorem patch_map_kv (recs : List node) (base p : Nat) (l : Bool) (x : Nat) :
    (patch recs base p l x).map (fun n => (n.key, n.value)) =
      recs.map (fun n => (n.key, n.value)) := by
  induction recs generalizing base with
  | nil => rfl
  | cons m ms ih =>
    simp only [patch]
    split_ifs
    · simp
    · simp [ih]

theorem node.front_length (n : node) : n.front.length = 24 + n.key.length + n.value.length := by
  simp [node.front, putUint64_length]
  omega

theorem node.serialize_split (n : node) :
    n.serialize = n.front ++ putUint64 n.leftChild ++ putUint64 n.rightChild := by
  simp [node.serialize_eq, node.body, node.front, List.append_assoc]

theorem node.front_setChild (n : node) (l : Bool) (x : Nat) : (n.setChild l x).front = n.front := by
  cases l <;> rfl

theorem overwrite_serialize (hd tl : Bytes) (n : node) (l : Bool) (x : Nat) :
    overwrite (hd ++ (n.serialize ++ tl)) (putUint64 x) (n.slotAt hd.length l) =
      hd ++ ((n.setChild l x).serialize ++ tl) := by
  rw [node.serialize_split, node.serialize_split, node.front_setChild]
  cases l
  · have h := overwrite_append (hd ++ n.front ++ putUint64 n.leftChild) (putUint64 n.rightChild)
      (putUint64 x) tl (by simp [putUint64_length])
    have hl : (hd ++ n.front ++ putUint64 n.leftChild).length = n.slotAt hd.length false := by
      simp [node.slotAt, node.front_length, putUint64_length]
      omega
    rw [hl] at h
    simpa [node.setChild, List.append_assoc] using h
  · have h := overwrite_append (hd ++ n.front) (putUint64 n.leftChild)
      (putUint64 x) (putUint64 n.rightChild ++ tl) (by simp [putUint64_length])
    have hl : (hd ++ n.front).length = n.slotAt hd.length true := by
      simp [node.slotAt, node.front_length]
      omega
    rw [hl] at h
    simpa [node.setChild, List.append_assoc] using h

theorem overwrite_flat_patch {recs : List node} {base p : Nat} {n : node}
    (h : nodeAt recs base p = some n) (l : Bool) (x : Nat) (hd : Bytes)
    (hhd : hd.length = base) :
    overwrite (hd ++ flat recs) (putUint64 x) (n.slotAt p l) =
      hd ++ flat (patch recs base p l x) := by
  induction recs generalizing base hd with
  | nil => simp [nodeAt] at h
  | cons m ms ih =>
    simp only [nodeAt] at h
    simp only [patch, flat]
    split_ifs at h ⊢ with h1
    · cases h
      subst h1
      rw [← hhd]
      exact overwrite_serialize hd (flat ms) _ l x
    · have := ih h (hd ++ m.serialize) (by simp [hhd, m.serialize_length_eq_size])
      simpa [flat, List.append_assoc] using this

theorem flat_patch_length (recs : List node) (base p : Nat) (l : Bool) (x : Nat) :
    (flat (patch recs base p l x)).length = (flat recs).length := by
  induction recs generalizing base with
  | nil => rfl
  | cons m ms ih =>
    simp only [patch]
    split_ifs
    · simp [flat, node.serialize_length_eq_size]
    · simp [flat, ih]

theorem maxInt64_lt : maxInt64 < 2 ^ 64 := by
  unfold maxInt64
  norm_num

/-! ### One step of a descent -/

theorem reads_of_nodeAt {f : File} {recs : List node} {off : Nat} {n : node}
    (hf : f = magicNumber ++ flat recs) (hb : f.length ≤ maxInt64)
    (h : nodeAt recs 3 off = some n) (hl : n.leftChild < 2 ^ 64) (hr : n.rightChild < 2 ^ 64) :
    Reads f off n := by
  obtain ⟨pre, post, h1, h2⟩ := nodeAt_split h
  have hlen : f.length = 3 + pre.length + n.size + post.length := by
    rw [hf, h1]
    simp [magicNumber, node.serialize_length_eq_size]
    omega
  have hm := maxInt64_lt
  have hsz : n.size = 40 + n.key.length + n.value.length := rfl
  have hf1 : f = (magicNumber ++ pre) ++ putUint64 (32 + n.key.length + n.value.length) ++
      (n.body ++ post) := by
    rw [hf, h1, node.serialize_eq]
    simp [List.append_assoc]
  have hf2 : f = (magicNumber ++ pre ++ putUint64 (32 + n.key.length + n.value.length)) ++
      n.body ++ post := by
    rw [hf1]
    simp [List.append_assoc]
  refine ⟨?_, ?_, ?_, by omega⟩
  · exact ReadAt_of_eq hf1 (by simp [magicNumber]; omega) (putUint64_length _).symm
  · exact ReadAt_of_eq hf2 (by simp [magicNumber, putUint64_length]; omega) n.body_length.symm
  · exact n.deserialize_body (by omega) (by omega) hl hr

theorem recordAt_of_reads {f : File} {off : Nat} {n : node} (h : Reads f off n) :
    recordAt f off = some n := by
  unfold recordAt
  simp [h.size, uint64_putUint64_of_lt h.lt [] |> (by simpa using ·), h.body, h.dec]

theorem findPosLoop_step {f : File} {off : Nat} {n : node} (h : Reads f off n)
    (key : Bytes) (fuel : Nat) :
    findPosLoop f key (fuel + 1) off =
      if Compare key n.key ≤ 0 then
        if n.leftChild = 0 then some (.ok (off + 8 + (8 + n.key.length + 8 + n.value.length)))
        else findPosLoop f key fuel n.leftChild
      else
        if n.rightChild = 0 then
          some (.ok (off + 8 + (8 + n.key.length + 8 + n.value.length) + 8))
        else findPosLoop f key fuel n.rightChild := by
  have hu : uint64 (putUint64 (32 + n.key.length + n.value.length)) =
      32 + n.key.length + n.value.length := by
    simpa using uint64_putUint64_of_lt h.lt []
  rw [findPosLoop]
  simp [h.size, hu, h.body, h.dec, putUint64_length, node.body_length]

theorem getLoop_step {f : File} {off : Nat} {n : node} (h : Reads f off n)
    (key : Bytes) (fuel : Nat) :
    getLoop f key (fuel + 1) off =
      if Compare key n.key = 0 then some (.ok n.value)
      else if (if Compare key n.key < 0 then n.leftChild else n.rightChild) = 0 then
        some (.error Error.errKeyNotFound)
      else getLoop f key fuel (if Compare key n.key < 0 then n.leftChild else n.rightChild) := by
  have hu : uint64 (putUint64 (32 + n.key.length + n.value.length)) =
      32 + n.key.length + n.value.length := by
    simpa using uint64_putUint64_of_lt h.lt []
  rw [getLoop]
  simp [h.size, hu, h.body, h.dec, putUint64_length, node.body_length]

/-! ### The descents on a represented tree -/

theorem rep_off_lt {recs : List node} {t : Tree} (h : Rep recs t) :
    t.off < 3 + (flat recs).length := by
  cases t with
  | nil => simp [Tree.off]
  | node off k v l r =>
    have := nodeAt_bounds h.1
    simp only [Tree.off, node.size] at this ⊢
    omega

theorem rep_off_ge {recs : List node} {off : Nat} {k v : Bytes} {l r : Tree}
    (h : Rep recs (.node off k v l r)) : 3 ≤ off :=
  (nodeAt_bounds h.1).1

theorem rep_reads {f : File} {recs : List node} {off : Nat} {k v : Bytes} {l r : Tree}
    (hf : f = magicNumber ++ flat recs) (hb : f.length ≤ maxInt64)
    (h : Rep recs (.node off k v l r)) :
    Reads f off { key := k, value := v, leftChild := l.off, rightChild := r.off } := by
  have hlen : f.length = 3 + (flat recs).length := by
    rw [hf]
    simp [magicNumber]
    omega
  have hm := maxInt64_lt
  have h1 := rep_off_lt h.2.1
  have h2 := rep_off_lt h.2.2
  exact reads_of_nodeAt hf hb h.1 (by simp only; omega) (by simp only; omega)

theorem findPosLoop_rep {f : File} {recs : List node}
    (hf : f = magicNumber ++ flat recs) (hb : f.length ≤ maxInt64)
    (t : Tree) (hrep : Rep recs t) (ht : t.off ≠ 0) (key : Bytes) (fuel : Nat) :
    findPosLoop f key fuel t.off =
      if fuel < t.depth key then none else some (.ok (t.slot key)) := by
  induction t generalizing fuel with
  | nil => exact absurd rfl ht
  | node off k0 v0 l r ihl ihr =>
    cases fuel with
    | zero =>
      simp only [findPosLoop, Tree.depth]
      split_ifs <;> first | rfl | omega
    | succ fuel =>
      rw [Tree.off, findPosLoop_step (rep_reads hf hb hrep)]
      simp only [Tree.depth, Tree.slot]
      by_cases hc : Compare key k0 ≤ 0
      · simp only [if_pos hc]
        by_cases hl : l.off = 0
        · simp [hl]
        · simp only [if_neg hl, ihl hrep.2.1 hl]
          congr 1
          simp only [eq_iff_iff]
          omega
      · simp only [if_neg hc]
        by_cases hr : r.off = 0
        · simp [hr]
        · simp only [if_neg hr, ihr hrep.2.2 hr]
          congr 1
          simp only [eq_iff_iff]
          omega

theorem getLoop_rep {f : File} {recs : List node}
    (hf : f = magicNumber ++ flat recs) (hb : f.length ≤ maxInt64)
    (t : Tree) (hrep : Rep recs t) (ht : t.off ≠ 0) (key : Bytes) (fuel : Nat) :
    getLoop f key fuel t.off =
      if fuel < t.getDepth key then none
      else some (match t.get key with
        | some v => .ok v
        | none => .error Error.errKeyNotFound) := by
  induction t generalizing fuel with
  | nil => exact absurd rfl ht
  | node off k0 v0 l r ihl ihr =>
    cases fuel with
    | zero =>
      simp only [getLoop, Tree.getDepth]
      split_ifs <;> first | rfl | omega
    | succ fuel =>
      rw [Tree.off, getLoop_step (rep_reads hf hb hrep)]
      simp only [Tree.getDepth, Tree.get]
      by_cases hc : Compare key k0 = 0
      · simp [hc]
      · simp only [if_neg hc]
        by_cases hlt : Compare key k0 < 0
        · simp only [if_pos hlt]
          by_cases hl : l.off = 0
          · have : l = .nil := by
              cases l with
              | nil => rfl
              | node o _ _ _ _ =>
                have := rep_off_ge hrep.2.1
                simp only [Tree.off] at hl
                omega
            subst this
            simp [Tree.off, Tree.get]
          · simp only [if_neg hl, ihl hrep.2.1 hl]
            congr 1
            simp only [eq_iff_iff]
            omega
        · simp only [if_neg hlt]
          by_cases hr : r.off = 0
          · have : r = .nil := by
              cases r with
              | nil => rfl
              | node o _ _ _ _ =>
                have := rep_off_ge hrep.2.2
                simp only [Tree.off] at hr
                omega
            subst this
            simp [Tree.off, Tree.get]
          · simp only [if_neg hr, ihr hrep.2.2 hr]
            congr 1
            simp only [eq_iff_iff]
            omega

/-! ### Insertion into a represented tree -/

theorem Tree.ins_off (t : Tree) (ht : t.off ≠ 0) (x : Nat) (k v : Bytes) :
    (t.ins x k v).off = t.off := by
  cases t with
  | nil => exact absurd rfl ht
  | node off k0 v0 l r =>
    simp only [Tree.ins]
    split_ifs <;> rfl

theorem Tree.ins_size (t : Tree) (x : Nat) (k v : Bytes) : (t.ins x k v).size = t.size + 1 := by
  induction t with
  | nil => rfl
  | node off k0 v0 l r ihl ihr =>
    simp only [Tree.ins]
    split_ifs
    · simp only [Tree.size, ihl]
      omega
    · simp only [Tree.size, ihr]
      omega

theorem Tree.depth_le_size (t : Tree) (k : Bytes) : t.depth k ≤ t.size := by
  induction t with
  | nil => simp [Tree.depth]
  | node off k0 v0 l r ihl ihr =>
    simp only [Tree.depth, Tree.size]
    split_ifs <;> omega

theorem Tree.getDepth_le_size (t : Tree) (k : Bytes) : t.getDepth k ≤ t.size := by
  induction t with
  | nil => simp [Tree.getDepth]
  | node off k0 v0 l r ihl ihr =>
    simp only [Tree.getDepth, Tree.size]
    split_ifs <;> omega

theorem Tree.ins_offs_perm (t : Tree) (x : Nat) (k v : Bytes) :
    (t.ins x k v).offs.Perm (x :: t.offs) := by
  induction t with
  | nil => simp [Tree.ins, Tree.offs]
  | node off k0 v0 l r ihl ihr =>
    simp only [Tree.ins]
    split_ifs
    · simp only [Tree.offs]
      refine List.Perm.trans ?_ (List.Perm.swap _ _ _)
      exact List.Perm.cons _ (List.Perm.append_right _ ihl)
    · simp only [Tree.offs]
      refine List.Perm.trans ?_ (List.Perm.swap _ _ _)
      refine List.Perm.cons _ ?_
      refine List.Perm.trans (List.Perm.append_left _ ihr) ?_
      exact List.perm_middle

theorem Tree.parent_mem (t : Tree) (ht : t.off ≠ 0) (k : Bytes) : (t.parent k).1 ∈ t.offs := by
  induction t with
  | nil => exact absurd rfl ht
  | node off k0 v0 l r ihl ihr =>
    simp only [Tree.parent, Tree.offs]
    split_ifs with h1 h2 h3
    · simp
    · have := ihl h2
      simp [this]
    · simp
    · have := ihr h3
      simp [this]

theorem rep_nil_of_off {recs : List node} {t : Tree} (h : Rep recs t) (h0 : t.off = 0) :
    t = .nil := by
  cases t with
  | nil => rfl
  | node o _ _ _ _ =>
    have := rep_off_ge h
    simp only [Tree.off] at h0
    omega

theorem rep_append {recs : List node} {t : Tree} (h : Rep recs t) (more : List node) :
    Rep (recs ++ more) t := by
  induction t with
  | nil => trivial
  | node off k0 v0 l r ihl ihr =>
    exact ⟨nodeAt_append_left h.1 more, ihl h.2.1, ihr h.2.2⟩

theorem rep_patch_frame {recs : List node} {t : Tree} (h : Rep recs t) {p : Nat}
    (hp : p ∉ t.offs) (s : Bool) (x : Nat) : Rep (patch recs 3 p s x) t := by
  induction t with
  | nil => trivial
  | node off k0 v0 l r ihl ihr =>
    simp only [Tree.offs, List.mem_cons, List.mem_append, not_or] at hp
    refine ⟨?_, ihl h.2.1 hp.2.1, ihr h.2.2 hp.2.2⟩
    rw [nodeAt_patch, if_neg (fun e => hp.1 e.symm)]
    exact h.1

theorem rep_ins {recs : List node} {t : Tree} (hrep : Rep recs t) (ht : t.off ≠ 0)
    (hnd : t.offs.Nodup) (k v : Bytes) :
    Rep (patch recs 3 (t.parent k).1 (t.parent k).2 (3 + (flat recs).length) ++
        [{ key := k, value := v, leftChild := 0, rightChild := 0 }])
      (t.ins (3 + (flat recs).length) k v) := by
  have hleaf : ∀ (p : Nat) (s : Bool),
      Rep (patch recs 3 p s (3 + (flat recs).length) ++
        [{ key := k, value := v, leftChild := 0, rightChild := 0 }])
        (.node (3 + (flat recs).length) k v .nil .nil) := by
    intro p s
    refine ⟨?_, trivial, trivial⟩
    have := nodeAt_append_end (patch recs 3 p s (3 + (flat recs).length)) 3
      { key := k, value := v, leftChild := 0, rightChild := 0 }
    rw [flat_patch_length] at this
    exact this
  induction t with
  | nil => exact absurd rfl ht
  | node off k0 v0 l r ihl ihr =>
    simp only [Tree.offs, List.nodup_cons, List.mem_append, not_or, List.nodup_append] at hnd
    obtain ⟨⟨hol, hor⟩, hndl, hndr, hdisj⟩ := hnd
    simp only [Tree.parent, Tree.ins]
    by_cases hc : Compare k k0 ≤ 0
    · simp only [if_pos hc]
      by_cases hl : l.off = 0
      · have hnil := rep_nil_of_off hrep.2.1 hl
        subst hnil
        simp only [Tree.off, if_true, Tree.ins]
        refine ⟨?_, hleaf _ _, rep_append (rep_patch_frame hrep.2.2 hor _ _) _⟩
        apply nodeAt_append_left
        rw [nodeAt_patch, if_pos rfl, hrep.1]
        rfl
      · simp only [if_neg hl]
        have hmem := Tree.parent_mem l hl k
        refine ⟨?_, ihl hrep.2.1 hl hndl, rep_append (rep_patch_frame hrep.2.2 ?_ _ _) _⟩
        · apply nodeAt_append_left
          rw [nodeAt_patch, if_neg (fun (e : off = (l.parent k).1) => hol (by rw [e]; exact hmem)), Tree.ins_off l hl]
          exact hrep.1
        · exact fun hr => hdisj hmem hr
    · simp only [if_neg hc]
      by_cases hr : r.off = 0
      · have hnil := rep_nil_of_off hrep.2.2 hr
        subst hnil
        simp only [Tree.off, if_true, Tree.ins]
        refine ⟨?_, rep_append (rep_patch_frame hrep.2.1 hol _ _) _, hleaf _ _⟩
        apply nodeAt_append_left
        rw [nodeAt_patch, if_pos rfl, hrep.1]
        rfl
      · simp only [if_neg hr]
        have hmem := Tree.parent_mem r hr k
        refine ⟨?_, rep_append (rep_patch_frame hrep.2.1 ?_ _ _) _, ihr hrep.2.2 hr hndr⟩
        · apply nodeAt_append_left
          rw [nodeAt_patch, if_neg (fun (e : off = (r.parent k).1) => hor (by rw [e]; exact hmem)), Tree.ins_off r hr]
          exact hrep.1
        · exact fun hl => hdisj hl hmem

theorem rep_slot {recs : List node} {t : Tree} (hrep : Rep recs t) (ht : t.off ≠ 0)
    (k : Bytes) :
    ∃ n, nodeAt recs 3 (t.parent k).1 = some n ∧
      t.slot k = n.slotAt (t.parent k).1 (t.parent k).2 ∧
      (if (t.parent k).2 then n.leftChild else n.rightChild) = 0 ∧
      ((t.parent k).2 = true ↔ Compare k n.key ≤ 0) := by
  induction t with
  | nil => exact absurd rfl ht
  | node off k0 v0 l r ihl ihr =>
    simp only [Tree.parent, Tree.slot]
    by_cases hc : Compare k k0 ≤ 0
    · simp only [if_pos hc]
      by_cases hl : l.off = 0
      · simp only [if_pos hl]
        refine ⟨_, hrep.1, ?_, by simpa using hl, by simpa using hc⟩
        simp only [node.slotAt]
        simp only [if_true]
        omega
      · simp only [if_neg hl]
        exact ihl hrep.2.1 hl
    · simp only [if_neg hc]
      by_cases hr : r.off = 0
      · simp only [if_pos hr]
        refine ⟨_, hrep.1, ?_, by simpa using hr, by simpa using hc⟩
        simp only [node.slotAt]
        simp only [Bool.false_eq_true, if_false]
        omega
      · simp only [if_neg hr]
        exact ihr hrep.2.2 hr

/-! ### The effect of `Put` -/

theorem WriteAt_ok (f : File) (b : Bytes) (off : Nat) (h : off + b.length ≤ maxInt64) :
    WriteAt f b off = (overwrite f b off, b.length, none) := by
  simp [WriteAt, h]

theorem inv_newWriter : Inv newWriter [] .nil where
  file := rfl
  tail := rfl
  bound := by simp [newWriter, maxInt64]
  rep := trivial
  root := fun h => absurd rfl h
  size := rfl
  nodup := List.nodup_nil

theorem Tree.size_eq_zero {t : Tree} (h : t.size = 0) : t = .nil := by
  cases t with
  | nil => rfl
  | node _ _ _ _ _ =>
    simp only [Tree.size] at h
    omega

theorem flat_length_pos {recs : List node} (h : recs ≠ []) : 40 ≤ (flat recs).length := by
  cases recs with
  | nil => exact absurd rfl h
  | cons n ns =>
    simp only [flat, List.length_append, n.serialize_length]
    omega

theorem leaf_serialize_length (k v : Bytes) : (leaf k v).serialize.length = 40 + k.length + v.length :=
  (leaf k v).serialize_length

theorem flat_putRecs_length (recs : List node) (t : Tree) (k v : Bytes) :
    (flat (putRecs recs t k v)).length = (flat recs).length + (40 + k.length + v.length) := by
  simp [putRecs, flat_append, flat_patch_length, flat, leaf_serialize_length]

theorem inv_append_file {w : writer} {recs : List node} {t : Tree} (h : Inv w recs t)
    (k v : Bytes) :
    overwrite w.cursor (leaf k v).serialize w.tail = magicNumber ++ flat (recs ++ [leaf k v]) := by
  have : w.tail = w.cursor.length := by
    rw [h.tail, h.file]
    simp [magicNumber]
    omega
  rw [this, overwrite_end, h.file, flat_append]
  simp [flat]

theorem inv_nil {w : writer} {recs : List node} {t : Tree} (h : Inv w recs t)
    (h3 : w.tail = 3) : recs = [] ∧ t = .nil := by
  have hr : recs = [] := by
    by_contra hne
    have := flat_length_pos hne
    have := h.tail
    omega
  refine ⟨hr, Tree.size_eq_zero ?_⟩
  rw [h.size, hr]
  rfl

theorem inv_root {w : writer} {recs : List node} {t : Tree} (h : Inv w recs t)
    (h3 : w.tail ≠ 3) : t.off = 3 := by
  apply h.root
  intro hr
  have := h.tail
  rw [hr] at this
  exact h3 this

theorem Put_ok {w : writer} {recs : List node} {t : Tree} (h : Inv w recs t) (k v : Bytes)
    (fuel : Nat) (hsz : w.tail + (40 + k.length + v.length) ≤ maxInt64)
    (hfuel : t.depth k ≤ fuel) :
    w.Put fuel k v = some (putWriter recs t k v, none) := by
  have hlen := leaf_serialize_length k v
  have hw1 := WriteAt_ok w.cursor (leaf k v).serialize w.tail
    (by rw [hlen]; exact hsz)
  have hc1 := inv_append_file h k v
  have htl : w.tail + (leaf k v).serialize.length = 3 + (flat (putRecs recs t k v)).length := by
    rw [flat_putRecs_length, h.tail, hlen]
    omega
  by_cases h3 : w.tail = 3
  · obtain ⟨hr, ht⟩ := inv_nil h h3
    have hfp : writer.findPos fuel (writer.mk (magicNumber ++ flat (recs ++ [leaf k v])) w.tail) k = some (.ok 3) := by
      simp [writer.findPos, h3, magicNumber]
    unfold writer.Put
    rw [show ({ key := k, value := v, leftChild := 0, rightChild := 0 } : node) = leaf k v from rfl]
    simp only [hw1, hc1, hfp]
    simp only [magicNumber, List.length_cons, List.length_nil, ne_eq, not_true_eq_false,
      if_false, lt_self_iff_false, if_true]
    simp only [putWriter, htl]
    subst hr ht
    rfl
  · have hroot := inv_root h h3
    have ht0 : t.off ≠ 0 := by omega
    have hrep1 : Rep (recs ++ [leaf k v]) t := rep_append h.rep _
    have hb1 : (magicNumber ++ flat (recs ++ [leaf k v])).length ≤ maxInt64 := by
      have := h.tail
      simp only [List.length_append, flat_append, flat, List.append_nil, hlen, magicNumber,
        List.length_cons, List.length_nil]
      omega
    have hloop := findPosLoop_rep rfl hb1 t hrep1 ht0 k fuel
    rw [if_neg (by omega), hroot] at hloop
    have hfp : writer.findPos fuel (writer.mk (magicNumber ++ flat (recs ++ [leaf k v])) w.tail) k = some (.ok (t.slot k)) := by
      simp only [writer.findPos]
      rw [if_neg (by simpa [magicNumber] using h3)]
      exact hloop
    obtain ⟨n, hn, hslot, -, -⟩ := rep_slot hrep1 ht0 k
    have hnb := nodeAt_bounds hn
    have hslot3 : t.slot k ≠ 3 ∧ t.slot k + 8 ≤ (t.parent k).1 + n.size := by
      rw [hslot]
      simp only [node.slotAt, node.size]
      split_ifs <;> omega
    have hw2 := WriteAt_ok (magicNumber ++ flat (recs ++ [leaf k v]))
      (putUint64 w.tail) (t.slot k) (by
        simp only [List.length_append, magicNumber, List.length_cons, List.length_nil] at hb1
        rw [putUint64_length]
        omega)
    have hc2 : overwrite (magicNumber ++ flat (recs ++ [leaf k v])) (putUint64 w.tail) (t.slot k) =
        magicNumber ++ flat (putRecs recs t k v) := by
      rw [hslot, overwrite_flat_patch hn _ _ magicNumber rfl]
      obtain ⟨n0, hn0, -⟩ := rep_slot h.rep ht0 k
      rw [patch_append hn0, putRecs, h.tail]
    unfold writer.Put
    rw [show ({ key := k, value := v, leftChild := 0, rightChild := 0 } : node) = leaf k v from rfl]
    simp only [hw1, hc1, hfp]
    simp only [ne_eq, not_true_eq_false, if_false, lt_self_iff_false]
    rw [if_neg (by simpa [magicNumber] using hslot3.1)]
    simp only [hw2, hc2, ne_eq, not_true_eq_false, if_false, lt_self_iff_false, putWriter, htl]

theorem patch_length (recs : List node) (base p : Nat) (l : Bool) (x : Nat) :
    (patch recs base p l x).length = recs.length := by
  induction recs generalizing base with
  | nil => rfl
  | cons m ms ih =>
    simp only [patch]
    split_ifs
    · rfl
    · simp [ih]

theorem rep_offs_lt {recs : List node} {t : Tree} (h : Rep recs t) :
    ∀ o ∈ t.offs, o < 3 + (flat recs).length := by
  induction t with
  | nil => simp [Tree.offs]
  | node off k0 v0 l r ihl ihr =>
    intro o ho
    simp only [Tree.offs, List.mem_cons, List.mem_append] at ho
    rcases ho with rfl | ho | ho
    · exact rep_off_lt (t := .node o k0 v0 l r) h
    · exact ihl h.2.1 o ho
    · exact ihr h.2.2 o ho

theorem inv_put {w : writer} {recs : List node} {t : Tree} (h : Inv w recs t) (k v : Bytes)
    (hsz : w.tail + (40 + k.length + v.length) ≤ maxInt64) :
    Inv (putWriter recs t k v) (putRecs recs t k v) (t.ins w.tail k v) := by
  have htail := h.tail
  refine ⟨rfl, rfl, ?_, ?_, ?_, ?_, ?_⟩
  · simp only [putWriter, flat_putRecs_length]
    omega
  · by_cases h0 : t.off = 0
    · have ht := rep_nil_of_off h.rep h0
      subst ht
      have hr : recs = [] := List.length_eq_zero.1 (by rw [← h.size]; rfl)
      subst hr
      rw [htail]
      exact ⟨rfl, trivial, trivial⟩
    · rw [htail]
      exact rep_ins h.rep h0 h.nodup k v
  · intro _
    by_cases h0 : t.off = 0
    · have ht := rep_nil_of_off h.rep h0
      subst ht
      have hr : recs = [] := List.length_eq_zero.1 (by rw [← h.size]; rfl)
      subst hr
      rw [htail]
      rfl
    · rw [Tree.ins_off t h0]
      apply h.root
      intro hr
      subst hr
      have := Tree.size_eq_zero (h.size.trans rfl)
      subst this
      exact h0 rfl
  · rw [Tree.ins_size, h.size]
    simp [putRecs, patch_length]
  · refine (Tree.ins_offs_perm t w.tail k v).nodup_iff.2 (List.nodup_cons.2 ⟨?_, h.nodup⟩)
    intro hmem
    have := rep_offs_lt h.rep _ hmem
    omega

theorem Put_too_large (w : writer) (k v : Bytes) (fuel : Nat)
    (hsz : maxInt64 < w.tail + (40 + k.length + v.length)) :
    ∃ w1, w.Put fuel k v = some (w1, some Error.fileTooLarge) := by
  have hlen := leaf_serialize_length k v
  unfold writer.Put
  rw [show ({ key := k, value := v, leftChild := 0, rightChild := 0 } : node) = leaf k v from rfl]
  have : ¬ w.tail + (leaf k v).serialize.length ≤ maxInt64 := by
    rw [hlen]
    omega
  simp [WriteAt, this]

theorem Put_no_fuel {w : writer} {recs : List node} {t : Tree} (h : Inv w recs t) (k v : Bytes)
    (fuel : Nat) (hsz : w.tail + (40 + k.length + v.length) ≤ maxInt64)
    (hfuel : fuel < t.depth k) :
    w.Put fuel k v = none := by
  have hlen := leaf_serialize_length k v
  have hw1 := WriteAt_ok w.cursor (leaf k v).serialize w.tail
    (by rw [hlen]; exact hsz)
  have hc1 := inv_append_file h k v
  have h3 : w.tail ≠ 3 := by
    intro h3
    obtain ⟨-, ht⟩ := inv_nil h h3
    subst ht
    simp [Tree.depth] at hfuel
  have hroot := inv_root h h3
  have ht0 : t.off ≠ 0 := by omega
  have hrep1 : Rep (recs ++ [leaf k v]) t := rep_append h.rep _
  have hb1 : (magicNumber ++ flat (recs ++ [leaf k v])).length ≤ maxInt64 := by
    have := h.tail
    simp only [List.length_append, flat_append, flat, List.append_nil, hlen, magicNumber,
      List.length_cons, List.length_nil]
    omega
  have hloop := findPosLoop_rep rfl hb1 t hrep1 ht0 k fuel
  rw [if_pos hfuel, hroot] at hloop
  have hfp : writer.findPos fuel (writer.mk (magicNumber ++ flat (recs ++ [leaf k v])) w.tail) k =
      none := by
    simp only [writer.findPos]
    rw [if_neg (by simpa [magicNumber] using h3)]
    exact hloop
  unfold writer.Put
  rw [show ({ key := k, value := v, leftChild := 0, rightChild := 0 } : node) = leaf k v from rfl]
  simp only [hw1, hc1, hfp]
  simp

theorem Put_success {w : writer} {recs : List node} {t : Tree} (h : Inv w recs t) {k v : Bytes}
    {fuel : Nat} {w1 : writer} (hput : w.Put fuel k v = some (w1, none)) :
    w.tail + (40 + k.length + v.length) ≤ maxInt64 ∧ t.depth k ≤ fuel ∧
      w1 = putWriter recs t k v := by
  by_cases hsz : w.tail + (40 + k.length + v.length) ≤ maxInt64
  · by_cases hfuel : t.depth k ≤ fuel
    · have := Put_ok h k v fuel hsz hfuel
      rw [this] at hput
      simp only [Option.some.injEq, Prod.mk.injEq, and_true] at hput
      exact ⟨hsz, hfuel, hput.symm⟩
    · rw [Put_no_fuel h k v fuel hsz (by omega)] at hput
      cases hput
  · obtain ⟨w2, h2⟩ := Put_too_large w k v fuel (by omega)
    rw [h2] at hput
    simp at hput

/-! ### Runs of `Put` -/

theorem storeSize_ge (ops : List (Bytes × Bytes)) : 3 ≤ storeSize ops := by
  induction ops with
  | nil => simp [storeSize]
  | cons kv ops ih =>
    obtain ⟨k, v⟩ := kv
    simp only [storeSize]
    omega

theorem putAll_inv {w : writer} {recs : List node} {t : Tree} (h : Inv w recs t)
    {ops : List (Bytes × Bytes)} {fuel : Nat} {w1 : writer}
    (hput : putAll fuel w ops = some w1) :
    Inv w1 (run recs t ops).1 (run recs t ops).2 := by
  induction ops generalizing w recs t with
  | nil =>
    simp only [putAll, Option.some.injEq] at hput
    subst hput
    exact h
  | cons kv ops ih =>
    obtain ⟨k, v⟩ := kv
    simp only [putAll] at hput
    split at hput
    · rename_i w2 hw2
      obtain ⟨hsz, -, rfl⟩ := Put_success h hw2
      have := ih (inv_put h k v hsz) hput
      rw [h.tail] at this
      exact this
    · cases hput

theorem putAll_total {w : writer} {recs : List node} {t : Tree} (h : Inv w recs t)
    (ops : List (Bytes × Bytes)) (fuel : Nat)
    (hsz : w.tail + storeSize ops ≤ maxInt64 + 3) (hfuel : recs.length + ops.length ≤ fuel) :
    ∃ w1, putAll fuel w ops = some w1 := by
  induction ops generalizing w recs t with
  | nil => exact ⟨w, rfl⟩
  | cons kv ops ih =>
    obtain ⟨k, v⟩ := kv
    simp only [storeSize, List.length_cons] at hsz hfuel
    have h3 := storeSize_ge ops
    have hd : t.depth k ≤ fuel := by
      have := t.depth_le_size k
      have := h.size
      omega
    have hok := Put_ok h k v fuel (by omega) hd
    have hinv := inv_put h k v (by omega)
    simp only [putAll, hok]
    apply ih hinv
    · simp only [putWriter, flat_putRecs_length]
      have := h.tail
      omega
    · simp only [putRecs, List.length_append, patch_length, List.length_cons, List.length_nil]
      omega

theorem Tree.get_ins (t : Tree) (x : Nat) (k v key : Bytes) :
    (t.ins x k v).get key =
      match t.get key with
      | some a => some a
      | none => if key = k then some v else none := by
  induction t with
  | nil =>
    simp only [Tree.ins, Tree.get, Compare_eq_zero_iff]
    split_ifs <;> rfl
  | node off k0 v0 l r ihl ihr =>
    simp only [Tree.ins]
    by_cases hc : Compare k k0 ≤ 0
    · simp only [if_pos hc, Tree.get]
      by_cases h0 : Compare key k0 = 0
      · simp [h0]
      · simp only [if_neg h0]
        by_cases hlt : Compare key k0 < 0
        · simp only [if_pos hlt, ihl]
        · simp only [if_neg hlt]
          have hne : key ≠ k := by
            rintro rfl
            omega
          simp only [if_neg hne]
          cases r.get key <;> rfl
    · simp only [if_neg hc, Tree.get]
      by_cases h0 : Compare key k0 = 0
      · simp [h0]
      · simp only [if_neg h0]
        by_cases hlt : Compare key k0 < 0
        · simp only [if_pos hlt]
          have hne : key ≠ k := by
            rintro rfl
            omega
          simp only [if_neg hne]
          cases l.get key <;> rfl
        · simp only [if_neg hlt, ihr]

theorem run_get (recs : List node) (t : Tree) (ops : List (Bytes × Bytes)) (key : Bytes) :
    (run recs t ops).2.get key =
      match t.get key with
      | some a => some a
      | none => firstValue ops key := by
  induction ops generalizing recs t with
  | nil =>
    simp only [run, firstValue]
    cases t.get key <;> rfl
  | cons kv ops ih =>
    obtain ⟨k, v⟩ := kv
    simp only [run, ih, Tree.get_ins, firstValue]
    cases t.get key with
    | some a => rfl
    | none =>
      simp only
      split_ifs <;> rfl

theorem run_length (recs : List node) (t : Tree) (ops : List (Bytes × Bytes)) :
    (run recs t ops).1.length = recs.length + ops.length := by
  induction ops generalizing recs t with
  | nil => rfl
  | cons kv ops ih =>
    obtain ⟨k, v⟩ := kv
    simp only [run, ih, putRecs, List.length_append, patch_length, List.length_cons,
      List.length_nil]
    omega

/-! ### Lookups in a store built by `Put` -/

theorem OpenReader_inv {w : writer} {recs : List node} {t : Tree} (h : Inv w recs t) :
    OpenReader (some w.Close) = .ok { cursor := w.cursor } := by
  simp [OpenReader, writer.Close, h.file, magicNumber, Compare]

theorem Get_inv {w : writer} {recs : List node} {t : Tree} (h : Inv w recs t)
    (key : Bytes) (fuel : Nat) (hfuel : recs.length ≤ fuel) :
    reader.Get fuel { cursor := w.cursor } key =
      some (match t.get key with
        | some v => .ok v
        | none => .error Error.errKeyNotFound) := by
  have hlen : w.cursor.length = w.tail := by
    rw [h.tail, h.file]
    simp [magicNumber]
    omega
  unfold reader.Get
  by_cases h3 : w.tail = 3
  · obtain ⟨-, ht⟩ := inv_nil h h3
    subst ht
    simp [hlen, h3, magicNumber, Tree.get]
  · have hroot := inv_root h h3
    have hgt : ¬ w.cursor.length ≤ magicNumber.length := by
      have := h.tail
      simp only [magicNumber, List.length_cons, List.length_nil]
      omega
    simp only [if_neg hgt]
    have := getLoop_rep h.file (by rw [hlen]; exact h.bound) t h.rep (by omega) key fuel
    rw [hroot, if_neg (by
      have := t.getDepth_le_size key
      have := h.size
      omega)] at this
    exact this

theorem Get_after_puts {ops : List (Bytes × Bytes)} {fuel0 : Nat} {w : writer}
    (hput : putAll fuel0 newWriter ops = some w) (key : Bytes) (fuel : Nat)
    (hfuel : ops.length ≤ fuel) :
    OpenReader (some w.Close) = .ok { cursor := w.cursor } ∧
      reader.Get fuel { cursor := w.cursor } key =
        some (match firstValue ops key with
          | some v => .ok v
          | none => .error Error.errKeyNotFound) := by
  have hinv := putAll_inv inv_newWriter hput
  refine ⟨OpenReader_inv hinv, ?_⟩
  rw [Get_inv hinv key fuel (by rw [run_length]; simpa using hfuel), run_get]
  rfl

theorem firstValue_of_not_mem {ops : List (Bytes × Bytes)} {key : Bytes}
    (h : key ∉ ops.map Prod.fst) : firstValue ops key = none := by
  induction ops with
  | nil => rfl
  | cons kv ops ih =>
    obtain ⟨k, v⟩ := kv
    simp only [List.map_cons, List.mem_cons, not_or] at h
    simp only [firstValue, if_neg h.1]
    exact ih h.2

theorem firstValue_first {pre post : List (Bytes × Bytes)} {k v : Bytes}
    (h : k ∉ pre.map Prod.fst) : firstValue (pre ++ (k, v) :: post) k = some v := by
  induction pre with
  | nil => simp [firstValue]
  | cons kv pre ih =>
    obtain ⟨k1, v1⟩ := kv
    simp only [List.map_cons, List.mem_cons, not_or] at h
    simp only [List.cons_append, firstValue, if_neg h.1]
    exact ih h.2

theorem firstValue_of_nodup {ops : List (Bytes × Bytes)} (hnd : (ops.map Prod.fst).Nodup)
    {k v : Bytes} (hmem : (k, v) ∈ ops) : firstValue ops k = some v := by
  obtain ⟨pre, post, rfl⟩ := List.append_of_mem hmem
  apply firstValue_first
  simp only [List.map_append, List.map_cons] at hnd
  have := (List.nodup_append.1 hnd).2.2
  intro hk
  exact this hk (List.mem_cons_self _ _)

set_option maxRecDepth 100000 in
theorem testStore_eq : putAll 4 newWriter testOps = some testStore := by
  decide

set_option maxRecDepth 100000 in
theorem dupStore_eq : putAll 2 newWriter dupOps = some dupStore := by
  decide

theorem storeSize_perm {a b : List (Bytes × Bytes)} (h : a.Perm b) : storeSize a = storeSize b := by
  induction h with
  | nil => rfl
  | cons x _ ih =>
    obtain ⟨k, v⟩ := x
    simp only [storeSize, ih]
  | swap x y l =>
    obtain ⟨k, v⟩ := x
    obtain ⟨k1, v1⟩ := y
    simp only [storeSize]
    omega
  | trans _ _ ih1 ih2 => exact ih1.trans ih2

/-! ### The records of a store built by `Put` -/

theorem nodeAt_mem {recs : List node} {base off : Nat} {n : node}
    (h : nodeAt recs base off = some n) : n ∈ recs := by
  induction recs generalizing base with
  | nil => simp [nodeAt] at h
  | cons m ms ih =>
    simp only [nodeAt] at h
    split_ifs at h
    · cases h
      exact List.mem_cons_self _ _
    · exact List.mem_cons_of_mem _ (ih h)

theorem mem_patch {recs : List node} {base p : Nat} {s : Bool} {x : Nat} {n1 : node}
    (h : n1 ∈ patch recs base p s x) : n1 ∈ recs ∨ ∃ n ∈ recs, n1 = n.setChild s x := by
  induction recs generalizing base with
  | nil => simp [patch] at h
  | cons m ms ih =>
    simp only [patch] at h
    split_ifs at h
    · rcases List.mem_cons.1 h with rfl | h1
      · exact Or.inr ⟨m, List.mem_cons_self _ _, rfl⟩
      · exact Or.inl (List.mem_cons_of_mem _ h1)
    · rcases List.mem_cons.1 h with rfl | h1
      · exact Or.inl (List.mem_cons_self _ _)
      · rcases ih h1 with h2 | ⟨n, hn, rfl⟩
        · exact Or.inl (List.mem_cons_of_mem _ h2)
        · exact Or.inr ⟨n, List.mem_cons_of_mem _ hn, rfl⟩

theorem nodeAt_putRecs_old {recs : List node} {o : Nat} {m : node}
    (h : nodeAt recs 3 o = some m) (t : Tree) (k v : Bytes) :
    ∃ m1, nodeAt (putRecs recs t k v) 3 o = some m1 := by
  unfold putRecs
  by_cases ho : o = (t.parent k).1
  · refine ⟨m.setChild (t.parent k).2 (3 + (flat recs).length), nodeAt_append_left ?_ _⟩
    rw [nodeAt_patch, if_pos ho, ← ho, h]
    rfl
  · refine ⟨m, nodeAt_append_left ?_ _⟩
    rw [nodeAt_patch, if_neg ho]
    exact h

theorem nodeAt_putRecs_new (recs : List node) (t : Tree) (k v : Bytes) :
    nodeAt (putRecs recs t k v) 3 (3 + (flat recs).length) = some (leaf k v) := by
  have := nodeAt_append_end (patch recs 3 (t.parent k).1 (t.parent k).2 (3 + (flat recs).length))
    3 (leaf k v)
  rw [flat_patch_length] at this
  exact this

theorem closed_putRecs {recs : List node} (h : Closed recs) (t : Tree) (k v : Bytes) :
    Closed (putRecs recs t k v) := by
  have hold : ∀ c, (c = 0 ∨ ∃ m, nodeAt recs 3 c = some m) →
      (c = 0 ∨ ∃ m, nodeAt (putRecs recs t k v) 3 c = some m) := by
    rintro c (hc | ⟨m, hm⟩)
    · exact Or.inl hc
    · exact Or.inr (nodeAt_putRecs_old hm t k v)
  intro n1 hn1
  rcases List.mem_append.1 hn1 with hp | hl
  · rcases mem_patch hp with hmem | ⟨n, hn, rfl⟩
    · exact ⟨hold _ (h n1 hmem).1, hold _ (h n1 hmem).2⟩
    · cases hs : (t.parent k).2
      · exact ⟨hold _ (h n hn).1, Or.inr ⟨_, nodeAt_putRecs_new recs t k v⟩⟩
      · exact ⟨Or.inr ⟨_, nodeAt_putRecs_new recs t k v⟩, hold _ (h n hn).2⟩
  · rw [List.mem_singleton.1 hl]
    exact ⟨Or.inl rfl, Or.inl rfl⟩

theorem run_closed {recs : List node} (h : Closed recs) (t : Tree)
    (ops : List (Bytes × Bytes)) : Closed (run recs t ops).1 := by
  induction ops generalizing recs t with
  | nil => exact h
  | cons kv ops ih =>
    obtain ⟨k, v⟩ := kv
    exact ih (closed_putRecs h t k v) _

theorem closed_nil : Closed [] := by
  intro n hn
  cases hn

theorem run_kv (recs : List node) (t : Tree) (ops : List (Bytes × Bytes)) :
    (run recs t ops).1.map (fun n => (n.key, n.value)) =
      recs.map (fun n => (n.key, n.value)) ++ ops := by
  induction ops generalizing recs t with
  | nil => simp [run]
  | cons kv ops ih =>
    obtain ⟨k, v⟩ := kv
    simp only [run, ih, putRecs, List.map_append, patch_map_kv, List.map_cons, List.map_nil,
      leaf, List.append_assoc, List.singleton_append]

theorem nodeAt_of_kv {recs : List node} {pre post : List (Bytes × Bytes)} {k v : Bytes}
    (h : recs.map (fun n => (n.key, n.value)) = pre ++ (k, v) :: post) (base : Nat) :
    ∃ n, nodeAt recs (base + 3) (base + storeSize pre) = some n ∧ n.key = k ∧ n.value = v := by
  induction pre generalizing recs base with
  | nil =>
    cases recs with
    | nil => simp at h
    | cons m ms =>
      simp only [List.map_cons, List.nil_append, List.cons.injEq, Prod.mk.injEq] at h
      exact ⟨m, by simp [nodeAt, storeSize], h.1.1, h.1.2⟩
  | cons kv pre ih =>
    obtain ⟨k1, v1⟩ := kv
    cases recs with
    | nil => simp at h
    | cons m ms =>
      simp only [List.map_cons, List.cons_append, List.cons.injEq, Prod.mk.injEq] at h
      obtain ⟨n, hn, hk, hv⟩ := ih h.2 (base + m.size)
      refine ⟨n, ?_, hk, hv⟩
      have h3 := storeSize_ge pre
      simp only [nodeAt, storeSize]
      rw [if_neg (by omega)]
      have e : base + (40 + k1.length + v1.length + storeSize pre) =
          base + m.size + storeSize pre := by
        simp only [node.size, h.1.1, h.1.2]
        omega
      have e2 : base + 3 + m.size = base + m.size + 3 := by omega
      rw [e, e2]
      exact hn

theorem kv_of_nodeAt {recs : List node} {base o : Nat} {n : node}
    (h : nodeAt recs (base + 3) o = some n) :
    ∃ pre post, recs.map (fun n => (n.key, n.value)) = pre ++ (n.key, n.value) :: post ∧
      o = base + storeSize pre := by
  induction recs generalizing base with
  | nil => simp [nodeAt] at h
  | cons m ms ih =>
    simp only [nodeAt] at h
    split_ifs at h with h1
    · cases h
      exact ⟨[], ms.map (fun n => (n.key, n.value)), by simp, by simp [storeSize, h1]⟩
    · have e2 : base + 3 + m.size = base + m.size + 3 := by omega
      rw [e2] at h
      obtain ⟨pre, post, hkv, ho⟩ := ih h
      refine ⟨(m.key, m.value) :: pre, post, by simp [hkv], ?_⟩
      simp only [storeSize, ho, node.size]
      omega

theorem inv_length {w : writer} {recs : List node} {t : Tree} (h : Inv w recs t) :
    w.cursor.length = w.tail := by
  rw [h.tail, h.file]
  simp [magicNumber]
  omega

theorem inv_reads {w : writer} {recs : List node} {t : Tree} (h : Inv w recs t)
    (hc : Closed recs) {o : Nat} {n : node} (hn : nodeAt recs 3 o = some n) :
    Reads w.cursor o n := by
  have hb := h.bound
  have ht := h.tail
  have hm := maxInt64_lt
  have hlt : ∀ c, (c = 0 ∨ ∃ m, nodeAt recs 3 c = some m) → c < 2 ^ 64 := by
    rintro c (rfl | ⟨m, hm1⟩)
    · norm_num
    · have := nodeAt_bounds hm1
      omega
  have hcl := hc n (nodeAt_mem hn)
  exact reads_of_nodeAt h.file (by rw [inv_length h]; exact hb) hn (hlt _ hcl.1) (hlt _ hcl.2)

theorem putAll_built {ops : List (Bytes × Bytes)} {fuel : Nat} {w : writer}
    (hput : putAll fuel newWriter ops = some w) :
    Inv w (run [] .nil ops).1 (run [] .nil ops).2 ∧ Closed (run [] .nil ops).1 ∧
      (run [] .nil ops).1.map (fun n => (n.key, n.value)) = ops :=
  ⟨putAll_inv inv_newWriter hput, run_closed closed_nil _ _, by simp [run_kv]⟩

theorem storeSize_append (a b : List (Bytes × Bytes)) :
    storeSize (a ++ b) + 3 = storeSize a + storeSize b := by
  induction a with
  | nil => simp [storeSize]; omega
  | cons kv a ih =>
    obtain ⟨k, v⟩ := kv
    have e : storeSize ((k, v) :: a ++ b) = 40 + k.length + v.length + storeSize (a ++ b) := rfl
    rw [e]
    simp only [storeSize]
    omega

theorem flat_length_kv {recs : List node} {ops : List (Bytes × Bytes)}
    (h : recs.map (fun n => (n.key, n.value)) = ops) : 3 + (flat recs).length = storeSize ops := by
  induction recs generalizing ops with
  | nil =>
    subst h
    rfl
  | cons m ms ih =>
    subst h
    simp only [flat, List.length_append, m.serialize_length, List.map_cons, storeSize]
    have := ih rfl
    omega

/-! ### The ordering of the tree -/

theorem Tree.mem_keys_ins {t : Tree} {x : Nat} {k v k1 : Bytes}
    (h : k1 ∈ (t.ins x k v).keys) : k1 = k ∨ k1 ∈ t.keys := by
  induction t with
  | nil => simpa [Tree.ins, Tree.keys] using h
  | node off k0 v0 l r ihl ihr =>
    simp only [Tree.ins] at h
    split_ifs at h
    · simp only [Tree.keys, List.mem_cons, List.mem_append] at h ⊢
      rcases h with h | h | h
      · exact Or.inr (Or.inl h)
      · rcases ihl h with h1 | h1
        · exact Or.inl h1
        · exact Or.inr (Or.inr (Or.inl h1))
      · exact Or.inr (Or.inr (Or.inr h))
    · simp only [Tree.keys, List.mem_cons, List.mem_append] at h ⊢
      rcases h with h | h | h
      · exact Or.inr (Or.inl h)
      · exact Or.inr (Or.inr (Or.inl h))
      · rcases ihr h with h1 | h1
        · exact Or.inl h1
        · exact Or.inr (Or.inr (Or.inr h1))

theorem Tree.ordered_ins {t : Tree} (h : t.Ordered) (x : Nat) (k v : Bytes) :
    (t.ins x k v).Ordered := by
  induction t with
  | nil => simp [Tree.ins, Tree.Ordered, Tree.keys]
  | node off k0 v0 l r ihl ihr =>
    obtain ⟨hl, hr, hol, hor⟩ := h
    simp only [Tree.ins]
    split_ifs with hc
    · refine ⟨?_, hr, ihl hol, hor⟩
      intro k1 hk1
      rcases Tree.mem_keys_ins hk1 with rfl | h1
      · exact hc
      · exact hl k1 h1
    · refine ⟨hl, ?_, hol, ihr hor⟩
      intro k1 hk1
      rcases Tree.mem_keys_ins hk1 with rfl | h1
      · omega
      · exact hr k1 h1

theorem run_ordered {t : Tree} (h : t.Ordered) (recs : List node)
    (ops : List (Bytes × Bytes)) : (run recs t ops).2.Ordered := by
  induction ops generalizing recs t with
  | nil => exact h
  | cons kv ops ih =>
    obtain ⟨k, v⟩ := kv
    exact ih (Tree.ordered_ins h _ k v) _

theorem Tree.sub_cases {t s : Tree} (h : s ∈ t.subs) :
    ∃ off k v l r, s = .node off k v l r ∧ k ∈ t.keys := by
  induction t with
  | nil => simp [Tree.subs] at h
  | node off k0 v0 l r ihl ihr =>
    simp only [Tree.subs, List.mem_cons, List.mem_append] at h
    rcases h with rfl | h | h
    · exact ⟨off, k0, v0, l, r, rfl, by simp [Tree.keys]⟩
    · obtain ⟨o, k, v, l1, r1, e, hk⟩ := ihl h
      exact ⟨o, k, v, l1, r1, e, by simp [Tree.keys, hk]⟩
    · obtain ⟨o, k, v, l1, r1, e, hk⟩ := ihr h
      exact ⟨o, k, v, l1, r1, e, by simp [Tree.keys, hk]⟩

theorem rep_sub {recs : List node} {t s : Tree} (h : s ∈ t.subs) (hrep : Rep recs t) :
    Rep recs s := by
  induction t with
  | nil => simp [Tree.subs] at h
  | node off k0 v0 l r ihl ihr =>
    simp only [Tree.subs, List.mem_cons, List.mem_append] at h
    rcases h with rfl | h | h
    · exact hrep
    · exact ihl h hrep.2.1
    · exact ihr h hrep.2.2

theorem Tree.sub_ordered {t s : Tree} (h : s ∈ t.subs) (ho : t.Ordered) : s.Ordered := by
  induction t with
  | nil => simp [Tree.subs] at h
  | node off k0 v0 l r ihl ihr =>
    simp only [Tree.subs, List.mem_cons, List.mem_append] at h
    rcases h with rfl | h | h
    · exact ho
    · exact ihl h ho.2.2.1
    · exact ihr h ho.2.2.2

theorem reach_sub {f : File} {recs : List node} (hf : f = magicNumber ++ flat recs)
    (hb : f.length ≤ maxInt64) {a b : Nat} (h : Reach f a b) :
    ∀ t, Rep recs t → t.off = a → ∃ s ∈ t.subs, s.off = b := by
  induction h with
  | root ha =>
    intro t _ hta
    cases t with
    | nil => exact absurd hta.symm ha
    | node off k v l r => exact ⟨_, by simp [Tree.subs], hta⟩
  | left ha hrec _ ih =>
    intro t hrep hta
    cases t with
    | nil => exact absurd hta.symm ha
    | node off k v l r =>
      simp only [Tree.off] at hta
      subst hta
      have := recordAt_of_reads (rep_reads hf hb hrep)
      rw [this] at hrec
      cases hrec
      obtain ⟨s, hs, hso⟩ := ih l hrep.2.1 rfl
      exact ⟨s, by simp [Tree.subs, hs], hso⟩
  | right ha hrec _ ih =>
    intro t hrep hta
    cases t with
    | nil => exact absurd hta.symm ha
    | node off k v l r =>
      simp only [Tree.off] at hta
      subst hta
      have := recordAt_of_reads (rep_reads hf hb hrep)
      rw [this] at hrec
      cases hrec
      obtain ⟨s, hs, hso⟩ := ih r hrep.2.2 rfl
      exact ⟨s, by simp [Tree.subs, hs], hso⟩

theorem recordAt_header (a : Nat) : recordAt magicNumber a = none := by
  have h : ((List.drop a magicNumber).take 8).length < 8 := by
    simp only [List.length_take, List.length_drop, magicNumber, List.length_cons,
      List.length_nil]
    omega
  unfold recordAt ReadAt
  simp only [h, if_true]
  simp

theorem inv_sub_record {w : writer} {recs : List node} {t : Tree} (h : Inv w recs t)
    {s : Tree} (hrep : Rep recs s) {b : Nat} {m : node} {s1 : Tree} (hs1 : s1 ∈ s.subs)
    (hb : s1.off = b) (hrec : recordAt w.cursor b = some m) :
    ∃ k v l r, s1 = .node b k v l r ∧ m = ⟨k, v, l.off, r.off⟩ ∧ k ∈ s.keys := by
  obtain ⟨o, k, v, l, r, rfl, hk⟩ := Tree.sub_cases hs1
  simp only [Tree.off] at hb
  subst hb
  have := recordAt_of_reads
    (rep_reads h.file (by rw [inv_length h]; exact h.bound) (rep_sub hs1 hrep))
  rw [this] at hrec
  cases hrec
  exact ⟨k, v, l, r, rfl, rfl, hk⟩

theorem ordering_of_inv {w : writer} {recs : List node} {t : Tree} (h : Inv w recs t)
    (ho : t.Ordered) {a : Nat} {n : node} (hreach : Reach w.cursor 3 a)
    (hrec : recordAt w.cursor a = some n) :
    (∀ b m, Reach w.cursor n.leftChild b → recordAt w.cursor b = some m →
        Compare m.key n.key ≤ 0) ∧
      (∀ b m, Reach w.cursor n.rightChild b → recordAt w.cursor b = some m →
        0 < Compare m.key n.key) := by
  have hbound : w.cursor.length ≤ maxInt64 := by rw [inv_length h]; exact h.bound
  by_cases h3 : w.tail = 3
  · obtain ⟨hr, -⟩ := inv_nil h h3
    have hf := h.file
    rw [hr] at hf
    simp only [flat, List.append_nil] at hf
    rw [hf, recordAt_header] at hrec
    cases hrec
  · have hroot := inv_root h h3
    obtain ⟨s, hs, hso⟩ := reach_sub h.file hbound hreach t h.rep hroot
    obtain ⟨k, v, l, r, rfl, rfl, -⟩ := inv_sub_record h h.rep hs hso hrec
    have hrs := rep_sub hs h.rep
    have hos := Tree.sub_ordered hs ho
    constructor
    · intro b m hreach1 hrec1
      obtain ⟨s1, hs1, hso1⟩ := reach_sub h.file hbound hreach1 l hrs.2.1 rfl
      obtain ⟨k1, v1, l1, r1, -, rfl, hk1⟩ := inv_sub_record h hrs.2.1 hs1 hso1 hrec1
      exact hos.1 k1 hk1
    · intro b m hreach1 hrec1
      obtain ⟨s1, hs1, hso1⟩ := reach_sub h.file hbound hreach1 r hrs.2.2 rfl
      obtain ⟨k1, v1, l1, r1, -, rfl, hk1⟩ := inv_sub_record h hrs.2.2 hs1 hso1 hrec1
      exact hos.2.1 k1 hk1

/-! ### The bytes that a `Put` writes -/

theorem slice_append (a b c : Bytes) : slice (a ++ b ++ c) a.length b.length = b := by
  simp [slice, List.append_assoc]

theorem slice_of_eq {f a b c : Bytes} {off len : Nat} (hf : f = a ++ b ++ c)
    (hoff : off = a.length) (hlen : len = b.length) : slice f off len = b := by
  subst hf hoff hlen
  exact slice_append a b c

theorem frame_getElem (a b b1 tl d : Bytes) (hb : b1.length = b.length) (i : Nat)
    (hi : i < a.length ∨ a.length + b.length ≤ i) (hlt : i < (a ++ b ++ tl).length) :
    (a ++ b1 ++ tl ++ d)[i]? = (a ++ b ++ tl)[i]? := by
  simp only [List.append_assoc, List.length_append] at hlt ⊢
  rcases hi with hi | hi
  · rw [List.getElem?_append_left hi, List.getElem?_append_left hi]
  · have e1 : (a ++ (b1 ++ (tl ++ d)))[i]? = tl[i - a.length - b.length]? := by
      rw [List.getElem?_append_right (by omega), List.getElem?_append_right (by omega), hb,
        List.getElem?_append_left (by omega)]
    have e2 : (a ++ (b ++ tl))[i]? = tl[i - a.length - b.length]? := by
      rw [List.getElem?_append_right (by omega), List.getElem?_append_right (by omega)]
    rw [e1, e2]

theorem slot_split {recs : List node} {p : Nat} {n : node} (h : nodeAt recs 3 p = some n)
    (s : Bool) :
    ∃ a b, magicNumber ++ flat recs =
        a ++ putUint64 (if s then n.leftChild else n.rightChild) ++ b ∧
      a.length = n.slotAt p s := by
  obtain ⟨pre, post, h1, h2⟩ := nodeAt_split h
  rw [h1, node.serialize_split]
  cases s
  · refine ⟨magicNumber ++ pre ++ n.front ++ putUint64 n.leftChild, post, ?_, ?_⟩
    · simp [List.append_assoc]
    · simp only [List.length_append, node.front_length, putUint64_length, node.slotAt,
        magicNumber, List.length_cons, List.length_nil]
      simp only [Bool.false_eq_true, if_false]
      omega
  · refine ⟨magicNumber ++ pre ++ n.front, putUint64 n.rightChild ++ post, ?_, ?_⟩
    · simp [List.append_assoc]
    · simp only [List.length_append, node.front_length, node.slotAt,
        magicNumber, List.length_cons, List.length_nil]
      simp only [if_true]
      omega

theorem front_of_nodeAt {recs : List node} {o : Nat} {n : node} (h : nodeAt recs 3 o = some n)
    (more : Bytes) :
    slice (magicNumber ++ flat recs ++ more) o (24 + n.key.length + n.value.length) = n.front := by
  obtain ⟨pre, post, h1, h2⟩ := nodeAt_split h
  apply slice_of_eq (a := magicNumber ++ pre)
    (c := putUint64 n.leftChild ++ putUint64 n.rightChild ++ post ++ more)
  · rw [h1, node.serialize_split]
    simp [List.append_assoc]
  · simp only [List.length_append, magicNumber, List.length_cons, List.length_nil]
    omega
  · rw [node.front_length]

/-- The position of the child field that a `Put` of `k` patches and the bytes
around it: the field holds `0` before and the old tail afterwards, and the new
record follows the old contents. -/
theorem put_bytes {w : writer} {recs : List node} {t : Tree} (h : Inv w recs t)
    (h3 : w.tail ≠ 3) (k v : Bytes) :
    ∃ a b n, nodeAt recs 3 (t.parent k).1 = some n ∧
      t.slot k = n.slotAt (t.parent k).1 (t.parent k).2 ∧
      ((t.parent k).2 = true ↔ Compare k n.key ≤ 0) ∧
      (if (t.parent k).2 then n.leftChild else n.rightChild) = 0 ∧
      w.cursor = a ++ putUint64 0 ++ b ∧
      (putWriter recs t k v).cursor = a ++ putUint64 w.tail ++ b ++ (leaf k v).serialize ∧
      a.length = t.slot k := by
  have hroot := inv_root h h3
  obtain ⟨n, hn, hslot, hzero, hside⟩ := rep_slot h.rep (by omega) k
  obtain ⟨a, b, hab, hlen⟩ := slot_split hn (t.parent k).2
  rw [hzero] at hab
  refine ⟨a, b, n, hn, hslot, hside, hzero, by rw [h.file, hab], ?_, by rw [hlen, hslot]⟩
  have hov := overwrite_flat_patch hn (t.parent k).2 w.tail magicNumber rfl
  rw [hab, ← hlen, overwrite_append a (putUint64 0) (putUint64 w.tail) b
    (by simp [putUint64_length])] at hov
  simp only [putWriter, putRecs, flat_append, flat, List.append_nil]
  rw [← h.tail, ← List.append_assoc, ← hov]

theorem findPos_inv {w : writer} {recs : List node} {t : Tree} (h : Inv w recs t)
    (h3 : w.tail ≠ 3) (k : Bytes) (fuel : Nat) (hfuel : t.depth k ≤ fuel) :
    w.findPos fuel k = some (.ok (t.slot k)) := by
  have hroot := inv_root h h3
  have := findPosLoop_rep h.file (by rw [inv_length h]; exact h.bound) t h.rep (by omega) k fuel
  rw [if_neg (by omega), hroot] at this
  simp only [writer.findPos]
  rw [if_neg (by simpa [magicNumber] using h3)]
  exact this

/-- A record that is in the store before a `Put` is in the store after it, at the
same offset, with the same key and value and with every child field that was
not `0` unchanged. -/
theorem kept_put {w : writer} {recs : List node} {t : Tree} (h : Inv w recs t)
    {o : Nat} {n : node} (hn : nodeAt recs 3 o = some n) (k v : Bytes) :
    ∃ n1, nodeAt (putRecs recs t k v) 3 o = some n1 ∧ n1.key = n.key ∧ n1.value = n.value ∧
      (n.leftChild ≠ 0 → n1.leftChild = n.leftChild) ∧
      (n.rightChild ≠ 0 → n1.rightChild = n.rightChild) := by
  unfold putRecs
  by_cases ho : o = (t.parent k).1
  · have h3 : w.tail ≠ 3 := by
      intro h3
      obtain ⟨hr, -⟩ := inv_nil h h3
      rw [hr] at hn
      simp [nodeAt] at hn
    have hroot := inv_root h h3
    obtain ⟨n0, hn0, -, hzero, -⟩ := rep_slot h.rep (by omega) k
    rw [← ho, hn] at hn0
    cases hn0
    refine ⟨n.setChild (t.parent k).2 (3 + (flat recs).length), nodeAt_append_left ?_ _,
      by simp, by simp, ?_, ?_⟩
    · rw [nodeAt_patch, if_pos ho, ← ho, hn]
      rfl
    · intro hne
      cases hs : (t.parent k).2
      · rfl
      · rw [hs] at hzero
        exact absurd hzero hne
    · intro hne
      cases hs : (t.parent k).2
      · rw [hs] at hzero
        exact absurd hzero hne
      · rfl
  · refine ⟨n, nodeAt_append_left ?_ _, rfl, rfl, fun _ => rfl, fun _ => rfl⟩
    rw [nodeAt_patch, if_neg ho]
    exact hn

theorem kept_putAll {w : writer} {recs : List node} {t : Tree} (h : Inv w recs t)
    {ops : List (Bytes × Bytes)} {fuel : Nat} {w1 : writer}
    (hput : putAll fuel w ops = some w1) {o : Nat} {n : node}
    (hn : nodeAt recs 3 o = some n) :
    ∃ n1, nodeAt (run recs t ops).1 3 o = some n1 ∧ n1.key = n.key ∧ n1.value = n.value ∧
      (n.leftChild ≠ 0 → n1.leftChild = n.leftChild) ∧
      (n.rightChild ≠ 0 → n1.rightChild = n.rightChild) := by
  induction ops generalizing w recs t n with
  | nil => exact ⟨n, hn, rfl, rfl, fun _ => rfl, fun _ => rfl⟩
  | cons kv ops ih =>
    obtain ⟨k, v⟩ := kv
    simp only [putAll] at hput
    split at hput
    · rename_i w2 hw2
      obtain ⟨hsz, -, rfl⟩ := Put_success h hw2
      obtain ⟨n1, hn1, hk1, hv1, hl1, hr1⟩ := kept_put h hn k v
      have hinv := inv_put h k v hsz
      obtain ⟨n2, hn2, hk2, hv2, hl2, hr2⟩ := ih hinv hput hn1
      rw [h.tail] at hn2
      refine ⟨n2, hn2, hk2.trans hk1, hv2.trans hv1, ?_, ?_⟩
      · intro hne
        rw [hl2 (by rw [hl1 hne]; exact hne), hl1 hne]
      · intro hne
        rw [hr2 (by rw [hr1 hne]; exact hne), hr1 hne]
    · cases hput

theorem node.front_eq {n m : node} (hk : m.key = n.key) (hv : m.value = n.value) :
    m.front = n.front := by
  simp [node.front, hk, hv]

set_option maxRecDepth 100000 in
theorem oneStore_eq : putAll 1 newWriter [(str "k", str "a")] = some oneStore := by
  decide

set_option maxRecDepth 100000 in
theorem oneStore_put : oneStore.Put 1 (str "k") (str "b") = some (dupStore, none) := by
  decide

theorem frame_of_inv {w : writer} {recs : List node} {t : Tree} (h : Inv w recs t)
    {ops : List (Bytes × Bytes)} (hkv : recs.map (fun n => (n.key, n.value)) = ops)
    (k v : Bytes) :
    (w.cursor.take 3 = magicNumber ∧ (putWriter recs t k v).cursor.take 3 = magicNumber) ∧
    (∀ pre k0 v0 post, ops = pre ++ (k0, v0) :: post →
      slice w.cursor (storeSize pre) (24 + k0.length + v0.length) =
        putUint64 (32 + k0.length + v0.length) ++
          (putUint64 k0.length ++ (k0 ++ (putUint64 v0.length ++ v0))) ∧
      slice (putWriter recs t k v).cursor (storeSize pre) (24 + k0.length + v0.length) =
        slice w.cursor (storeSize pre) (24 + k0.length + v0.length)) ∧
    ((∀ i, i < w.tail → (putWriter recs t k v).cursor[i]? = w.cursor[i]?) ∨
      ∃ pre k0 v0 post p, ops = pre ++ (k0, v0) :: post ∧
        (p = storeSize pre + 24 + k0.length + v0.length ∨
          p = storeSize pre + 32 + k0.length + v0.length) ∧
        ∀ i, i < w.tail → (i < p ∨ p + 8 ≤ i) →
          (putWriter recs t k v).cursor[i]? = w.cursor[i]?) := by
  refine ⟨⟨?_, ?_⟩, ?_, ?_⟩
  · rw [h.file]
    rfl
  · rfl
  · intro pre k0 v0 post hops
    subst hops
    obtain ⟨n, hn, hk, hv⟩ := nodeAt_of_kv hkv 0
    simp only [Nat.zero_add] at hn
    have e1 := front_of_nodeAt hn []
    rw [List.append_nil, ← h.file, hk, hv] at e1
    obtain ⟨n1, hn1, hk1, hv1, -, -⟩ := kept_put h hn k v
    have e2 := front_of_nodeAt hn1 []
    rw [List.append_nil, hk1, hv1, hk, hv, node.front_eq hk1 hv1] at e2
    refine ⟨?_, ?_⟩
    · rw [e1]
      simp only [node.front, hk, hv]
    · rw [e1]
      exact e2
  · by_cases h3 : w.tail = 3
    · left
      obtain ⟨hr, ht⟩ := inv_nil h h3
      subst hr ht
      intro i hi
      rw [h.file]
      simp only [putWriter, putRecs, patch, flat, List.append_nil, List.nil_append]
      exact List.getElem?_append_left (by simpa [magicNumber, h3] using hi)
    · right
      obtain ⟨a, b, n, hn, hslot, -, -, hw, hw1, ha⟩ := put_bytes h h3 k v
      have hn0 : nodeAt recs (0 + 3) (t.parent k).1 = some n := by simpa using hn
      obtain ⟨pre, post, hsplit, hp⟩ := kv_of_nodeAt hn0
      rw [hkv] at hsplit
      refine ⟨pre, n.key, n.value, post, t.slot k, hsplit, ?_, ?_⟩
      · rw [hslot, hp]
        simp only [node.slotAt]
        cases (t.parent k).2
        · right
          simp only [Bool.false_eq_true, if_false]
          omega
        · left
          simp only [if_true]
          omega
      · intro i hi hout
        rw [hw1, hw]
        apply frame_getElem a (putUint64 0) (putUint64 w.tail) b _ (by simp [putUint64_length])
        · rw [ha, putUint64_length]
          exact hout
        · rw [← hw, inv_length h]
          exact hi

theorem uint64_tail {w : writer} {recs : List node} {t : Tree} (h : Inv w recs t) :
    uint64 (putUint64 w.tail) = w.tail := by
  have hb := h.bound
  have hm := maxInt64_lt
  simpa using uint64_putUint64_of_lt (show w.tail < 2 ^ 64 by omega) []

theorem post_of_inv {w : writer} {recs : List node} {t : Tree} (h : Inv w recs t)
    (hcl : Closed recs) (h3 : w.tail ≠ 3) (k v : Bytes)
    (hsz : w.tail + (40 + k.length + v.length) ≤ maxInt64) (fuel : Nat)
    (hfuel : t.depth k ≤ fuel) :
    slice (putWriter recs t k v).cursor w.tail (40 + k.length + v.length) =
        node.serialize { key := k, value := v, leftChild := 0, rightChild := 0 } ∧
      recordAt (putWriter recs t k v).cursor w.tail =
        some { key := k, value := v, leftChild := 0, rightChild := 0 } ∧
      ∃ pos o parent, w.findPos fuel k = some (.ok pos) ∧
        recordAt w.cursor o = some parent ∧
        pos = (if Compare k parent.key ≤ 0 then o + 24 + parent.key.length + parent.value.length
          else o + 32 + parent.key.length + parent.value.length) ∧
        (if Compare k parent.key ≤ 0 then parent.leftChild else parent.rightChild) = 0 ∧
        slice w.cursor pos 8 = [0, 0, 0, 0, 0, 0, 0, 0] ∧
        slice (overwrite w.cursor
          (node.serialize { key := k, value := v, leftChild := 0, rightChild := 0 }) w.tail)
          pos 8 = [0, 0, 0, 0, 0, 0, 0, 0] ∧
        slice (putWriter recs t k v).cursor pos 8 = putUint64 w.tail ∧
        uint64 (slice (putWriter recs t k v).cursor pos 8) = w.tail := by
  obtain ⟨a, b, n, hn, hslot, hside, hzero, hw, hw1, ha⟩ := put_bytes h h3 k v
  have hlen : (a ++ putUint64 w.tail ++ b).length = w.tail := by
    rw [← inv_length h, hw]
    simp [putUint64_length]
  have hs1 : slice (putWriter recs t k v).cursor (t.slot k) 8 = putUint64 w.tail := by
    apply slice_of_eq (a := a) (c := b ++ (leaf k v).serialize)
    · rw [hw1]
      simp [List.append_assoc]
    · exact ha.symm
    · exact (putUint64_length _).symm
  refine ⟨?_, ?_, t.slot k, (t.parent k).1, n, findPos_inv h h3 k fuel hfuel,
    recordAt_of_reads (inv_reads h hcl hn), ?_, ?_, ?_, ?_, hs1, ?_⟩
  · apply slice_of_eq (a := a ++ putUint64 w.tail ++ b) (c := [])
    · rw [hw1]
      simp [leaf]
    · exact hlen.symm
    · exact (leaf_serialize_length k v).symm
  · have := inv_reads (inv_put h k v hsz) (closed_putRecs hcl t k v)
      (nodeAt_putRecs_new recs t k v)
    rw [← h.tail] at this
    exact recordAt_of_reads this
  · rw [hslot]
    simp only [node.slotAt]
    by_cases hc : Compare k n.key ≤ 0
    · rw [if_pos hc, hside.2 hc]
      simp only [if_true]
      omega
    · have : (t.parent k).2 = false := by
        cases hs : (t.parent k).2
        · rfl
        · exact absurd (hside.1 hs) hc
      rw [if_neg hc, this]
      simp only [Bool.false_eq_true, if_false]
      omega
  · by_cases hc : Compare k n.key ≤ 0
    · rw [if_pos hc]
      rw [hside.2 hc] at hzero
      simpa using hzero
    · have : (t.parent k).2 = false := by
        cases hs : (t.parent k).2
        · rfl
        · exact absurd (hside.1 hs) hc
      rw [if_neg hc]
      rw [this] at hzero
      simpa using hzero
  · exact slice_of_eq (a := a) (c := b) hw ha.symm rfl
  · have e := inv_append_file h k v
    rw [flat_append, ← List.append_assoc, ← h.file, hw] at e
    rw [show ({ key := k, value := v, leftChild := 0, rightChild := 0 } : node) = leaf k v from rfl,
      hw, e]
    exact slice_of_eq (a := a) (b := putUint64 0) (c := b ++ flat [leaf k v])
      (by simp [List.append_assoc]) ha.symm rfl
  · rw [hs1]
    exact uint64_tail h

theorem closed_offsets {recs : List node} (hcl : Closed recs) {ops : List (Bytes × Bytes)}
    (hkv : recs.map (fun n => (n.key, n.value)) = ops) {n : node} (hn : n ∈ recs) :
    (n.leftChild = 0 ∨ ∃ pre1 kv1 post1, ops = pre1 ++ kv1 :: post1 ∧
        n.leftChild = storeSize pre1) ∧
      (n.rightChild = 0 ∨ ∃ pre1 kv1 post1, ops = pre1 ++ kv1 :: post1 ∧
        n.rightChild = storeSize pre1) := by
  have key : ∀ c, (c = 0 ∨ ∃ m, nodeAt recs 3 c = some m) →
      (c = 0 ∨ ∃ pre1 kv1 post1, ops = pre1 ++ kv1 :: post1 ∧ c = storeSize pre1) := by
    rintro c (hc | ⟨m, hm⟩)
    · exact Or.inl hc
    · have hm0 : nodeAt recs (0 + 3) c = some m := by simpa using hm
      obtain ⟨pre1, post1, h1, h2⟩ := kv_of_nodeAt hm0
      rw [hkv] at h1
      exact Or.inr ⟨pre1, _, post1, h1, by simpa using h2⟩
  exact ⟨key _ (hcl n hn).1, key _ (hcl n hn).2⟩

/-! ### Duplicate keys go to the left -/

theorem Tree.mem_offs_ins {t : Tree} {o : Nat} (h : o ∈ t.offs) (x : Nat) (k v : Bytes) :
    o ∈ (t.ins x k v).offs :=
  (Tree.ins_offs_perm t x k v).mem_iff.2 (List.mem_cons_of_mem _ h)

theorem Tree.new_mem_offs_ins (t : Tree) (x : Nat) (k v : Bytes) : x ∈ (t.ins x k v).offs :=
  (Tree.ins_offs_perm t x k v).mem_iff.2 (List.mem_cons_self _ _)

theorem Tree.onPath_ins_self (t : Tree) (o : Nat) (K V : Bytes) : (t.ins o K V).onPath K o := by
  induction t with
  | nil => exact Or.inl ⟨rfl, rfl⟩
  | node off k0 v0 l r ihl ihr =>
    simp only [Tree.ins]
    by_cases hc : Compare K k0 ≤ 0
    · simp only [if_pos hc, Tree.onPath]
      exact Or.inr ihl
    · simp only [if_neg hc, Tree.onPath]
      exact Or.inr ihr

theorem Tree.onPath_ins {t : Tree} {K : Bytes} {o : Nat} (h : t.onPath K o) (x : Nat)
    (k v : Bytes) : (t.ins x k v).onPath K o := by
  induction t with
  | nil => exact absurd h id
  | node off k0 v0 l r ihl ihr =>
    simp only [Tree.onPath] at h
    simp only [Tree.ins]
    split_ifs with hc
    · simp only [Tree.onPath]
      rcases h with h | h
      · exact Or.inl h
      · right
        split_ifs at h ⊢
        · exact ihl h
        · exact h
    · simp only [Tree.onPath]
      rcases h with h | h
      · exact Or.inl h
      · right
        split_ifs at h ⊢
        · exact h
        · exact ihr h

theorem Tree.leftHas_ins_dup {t : Tree} {K : Bytes} {o1 : Nat} (h : t.onPath K o1) (o2 : Nat)
    (V2 : Bytes) : (t.ins o2 K V2).leftHas o1 o2 := by
  induction t with
  | nil => exact absurd h id
  | node off k0 v0 l r ihl ihr =>
    simp only [Tree.onPath] at h
    simp only [Tree.ins]
    rcases h with ⟨rfl, rfl⟩ | h
    · rw [if_pos (by rw [Compare_self])]
      exact Or.inl ⟨rfl, Tree.new_mem_offs_ins l o2 k0 V2⟩
    · by_cases hc : Compare K k0 ≤ 0
      · rw [if_pos hc] at h ⊢
        exact Or.inr (Or.inl (ihl h))
      · rw [if_neg hc] at h ⊢
        exact Or.inr (Or.inr (ihr h))

theorem Tree.leftHas_ins {t : Tree} {o1 o2 : Nat} (h : t.leftHas o1 o2) (x : Nat)
    (k v : Bytes) : (t.ins x k v).leftHas o1 o2 := by
  induction t with
  | nil => exact absurd h id
  | node off k0 v0 l r ihl ihr =>
    simp only [Tree.leftHas] at h
    simp only [Tree.ins]
    split_ifs
    · rcases h with ⟨h1, h2⟩ | h | h
      · exact Or.inl ⟨h1, Tree.mem_offs_ins h2 x k v⟩
      · exact Or.inr (Or.inl (ihl h))
      · exact Or.inr (Or.inr h)
    · rcases h with ⟨h1, h2⟩ | h | h
      · exact Or.inl ⟨h1, h2⟩
      · exact Or.inr (Or.inl h)
      · exact Or.inr (Or.inr (ihr h))

theorem run_onPath {t : Tree} {K : Bytes} {o : Nat} (h : t.onPath K o) (recs : List node)
    (ops : List (Bytes × Bytes)) : (run recs t ops).2.onPath K o := by
  induction ops generalizing recs t with
  | nil => exact h
  | cons kv ops ih =>
    obtain ⟨k, v⟩ := kv
    exact ih (Tree.onPath_ins h _ k v) _

theorem run_leftHas {t : Tree} {o1 o2 : Nat} (h : t.leftHas o1 o2) (recs : List node)
    (ops : List (Bytes × Bytes)) : (run recs t ops).2.leftHas o1 o2 := by
  induction ops generalizing recs t with
  | nil => exact h
  | cons kv ops ih =>
    obtain ⟨k, v⟩ := kv
    exact ih (Tree.leftHas_ins h _ k v) _

theorem run_append (recs : List node) (t : Tree) (x y : List (Bytes × Bytes)) :
    run recs t (x ++ y) = run (run recs t x).1 (run recs t x).2 y := by
  induction x generalizing recs t with
  | nil => rfl
  | cons kv x ih =>
    obtain ⟨k, v⟩ := kv
    exact ih _ _

theorem reach_of_mem_offs {f : File} {recs : List node} (hf : f = magicNumber ++ flat recs)
    (hb : f.length ≤ maxInt64) {t : Tree} (hrep : Rep recs t) {o : Nat} (ho : o ∈ t.offs) :
    Reach f t.off o := by
  induction t with
  | nil => simp [Tree.offs] at ho
  | node off k v l r ihl ihr =>
    have h3 := rep_off_ge hrep
    have hrec := recordAt_of_reads (rep_reads hf hb hrep)
    simp only [Tree.offs, List.mem_cons, List.mem_append] at ho
    rcases ho with rfl | ho | ho
    · exact Reach.root (by simp only [Tree.off]; omega)
    · exact Reach.left (by simp only [Tree.off]; omega) hrec (ihl hrep.2.1 ho)
    · exact Reach.right (by simp only [Tree.off]; omega) hrec (ihr hrep.2.2 ho)

theorem reach_of_leftHas {f : File} {recs : List node} (hf : f = magicNumber ++ flat recs)
    (hb : f.length ≤ maxInt64) {t : Tree} (hrep : Rep recs t) {o1 o2 : Nat}
    (h : t.leftHas o1 o2) :
    ∃ n, nodeAt recs 3 o1 = some n ∧ Reach f n.leftChild o2 := by
  induction t with
  | nil => exact absurd h id
  | node off k v l r ihl ihr =>
    simp only [Tree.leftHas] at h
    rcases h with ⟨rfl, h2⟩ | h | h
    · exact ⟨_, hrep.1, reach_of_mem_offs hf hb hrep.2.1 h2⟩
    · exact ihl hrep.2.1 h
    · exact ihr hrep.2.2 h

theorem run_leftHas_dup (a b c : List (Bytes × Bytes)) (K V1 V2 : Bytes) :
    (run [] .nil (a ++ ((K, V1) :: (b ++ ((K, V2) :: c))))).2.leftHas (storeSize a)
      (storeSize (a ++ ((K, V1) :: b))) := by
  have e1 : 3 + (flat (run [] .nil a).1).length = storeSize a :=
    flat_length_kv (by simp [run_kv])
  have e2 : 3 + (flat (run [] .nil (a ++ ((K, V1) :: b))).1).length =
      storeSize (a ++ ((K, V1) :: b)) := flat_length_kv (by simp [run_kv])
  have hsplit : a ++ ((K, V1) :: (b ++ ((K, V2) :: c))) =
      (a ++ ((K, V1) :: b)) ++ ((K, V2) :: c) := by simp
  rw [hsplit, run_append]
  simp only [run]
  apply run_leftHas
  rw [e2]
  apply Tree.leftHas_ins_dup
  rw [run_append]
  simp only [run]
  apply run_onPath
  rw [e1]
  exact Tree.onPath_ins_self _ _ _ _

/-! ### Opening, failed calls and traversals -/

theorem OpenWriter_ok_magic {f : File} {w : writer} (h : (OpenWriter (some f)).2 = .ok w) :
    f.take 3 = magicNumber ∧ w = { cursor := f, tail := f.length } := by
  rcases f with _ | ⟨a, _ | ⟨b, _ | ⟨c, rest⟩⟩⟩
  · simp [OpenWriter, magicNumber] at h
  · simp [OpenWriter, magicNumber, Compare_eq_zero_iff] at h
  · simp [OpenWriter, magicNumber, Compare_eq_zero_iff] at h
  · simp only [OpenWriter, magicNumber, List.length_cons, List.length_nil, List.take_succ_cons,
      List.take_zero] at h
    simp only [Nat.reduceAdd, OfNat.ofNat_ne_zero, ↓reduceIte, Nat.sub_self, List.replicate_zero,
      List.append_nil, Compare_eq_zero_iff, ne_eq, ite_not] at h
    split_ifs at h with hm
    simp only [Except.ok.injEq] at h
    exact ⟨by simpa [magicNumber] using hm, h.symm⟩

theorem putUint64_bytes {x : Nat} (h : x < 2 ^ 64) :
    putUint64 x = [x % 256, x / 256 % 256, x / 256 ^ 2 % 256, x / 256 ^ 3 % 256,
      x / 256 ^ 4 % 256, x / 256 ^ 5 % 256, x / 256 ^ 6 % 256, x / 256 ^ 7 % 256] := by
  have hx : x % 2 ^ 64 = x := Nat.mod_eq_of_lt h
  rw [putUint64, hx]
  simp [leBytes, Nat.div_div_eq_div_mul]

theorem recordAt_serialize (n : node) (hk : n.key.length < 2 ^ 64)
    (hv : n.value.length < 2 ^ 64) (hl : n.leftChild < 2 ^ 64) (hr : n.rightChild < 2 ^ 64)
    (hs : 32 + n.key.length + n.value.length < 2 ^ 64) (pre post : Bytes) :
    recordAt (pre ++ n.serialize ++ post) pre.length = some n := by
  apply recordAt_of_reads
  refine ⟨?_, ?_, n.deserialize_body hk hv hl hr, hs⟩
  · apply ReadAt_of_eq (a := pre) (c := n.body ++ post)
    · rw [node.serialize_eq]
      simp [List.append_assoc]
    · rfl
    · exact (putUint64_length _).symm
  · apply ReadAt_of_eq (a := pre ++ putUint64 (32 + n.key.length + n.value.length)) (c := post)
    · rw [node.serialize_eq]
      simp [List.append_assoc]
    · simp [putUint64_length]
    · exact n.body_length.symm

theorem size_field_of_inv {w : writer} {recs : List node} {t : Tree} (h : Inv w recs t)
    (hcl : Closed recs) {o : Nat} {n : node} (hn : nodeAt recs 3 o = some n) :
    slice w.cursor o 8 = putUint64 (32 + n.key.length + n.value.length) ∧
      uint64 (slice w.cursor o 8) = 32 + n.key.length + n.value.length := by
  have hr := inv_reads h hcl hn
  have h1 : slice w.cursor o 8 = putUint64 (32 + n.key.length + n.value.length) :=
    congrArg Prod.fst hr.size
  refine ⟨h1, ?_⟩
  rw [h1]
  simpa using uint64_putUint64_of_lt hr.lt []


theorem ReadAt_length_le (f : File) (len off : Nat) : (ReadAt f len off).1.length ≤ len := by
  simp only [ReadAt, List.length_take]
  omega

theorem ReadAt_snd (f : File) (len off : Nat) :
    (ReadAt f len off).2 = if (ReadAt f len off).1.length < len then some Error.eof else none :=
  rfl

/-- The reads of one iteration of the loop of `findPos` at `off`, for any file:
when they succeed and decode to `n` the iteration goes on as the comparison
of the keys says. -/
theorem findPosLoop_of_recordAt {f : File} {off : Nat} {n : node}
    (h : recordAt f off = some n) (key : Bytes) (fuel : Nat) :
    findPosLoop f key (fuel + 1) off =
      if Compare key n.key ≤ 0 then
        if n.leftChild = 0 then some (.ok (off + 8 + (8 + n.key.length + 8 + n.value.length)))
        else findPosLoop f key fuel n.leftChild
      else
        if n.rightChild = 0 then
          some (.ok (off + 8 + (8 + n.key.length + 8 + n.value.length) + 8))
        else findPosLoop f key fuel n.rightChild := by
  unfold recordAt at h
  rw [findPosLoop]
  rcases hr1 : ReadAt f 8 off with ⟨b1, e1⟩
  have he1 := ReadAt_snd f 8 off
  rw [hr1] at he1 h
  simp only at he1 h ⊢
  by_cases hb1 : b1.length < 8
  · rw [if_pos hb1] at he1
    simp [he1] at h
  · rw [if_neg hb1] at he1
    subst he1
    simp only [ne_eq, not_true_eq_false, if_false] at h ⊢
    rw [if_neg hb1]
    rcases hr2 : ReadAt f (uint64 b1) (off + 8) with ⟨b2, e2⟩
    have he2 := ReadAt_snd f (uint64 b1) (off + 8)
    rw [hr2] at he2 h
    simp only at he2 h ⊢
    by_cases hb2 : b2.length < uint64 b1
    · rw [if_pos hb2] at he2
      simp [he2] at h
    · rw [if_neg hb2] at he2
      subst he2
      simp only [ne_eq, not_true_eq_false, if_false] at h ⊢
      rw [if_neg hb2]
      cases hd : node.deserialize b2 with
      | error e => simp [hd] at h
      | ok m =>
        simp only [hd, Option.some.injEq] at h
        subst h
        rfl

theorem findPosLoop_of_recordAt_none {f : File} {off : Nat} (h : recordAt f off = none)
    (key : Bytes) (fuel : Nat) :
    ∃ e, findPosLoop f key (fuel + 1) off = some (.error e) := by
  unfold recordAt at h
  rw [findPosLoop]
  rcases hr1 : ReadAt f 8 off with ⟨b1, e1⟩
  have he1 := ReadAt_snd f 8 off
  rw [hr1] at he1 h
  simp only at he1 h ⊢
  by_cases hb1 : b1.length < 8
  · rw [if_pos hb1] at he1
    subst he1
    exact ⟨Error.eof, by simp⟩
  · rw [if_neg hb1] at he1
    subst he1
    simp only [ne_eq, not_true_eq_false, if_false] at h ⊢
    rw [if_neg hb1]
    rcases hr2 : ReadAt f (uint64 b1) (off + 8) with ⟨b2, e2⟩
    have he2 := ReadAt_snd f (uint64 b1) (off + 8)
    rw [hr2] at he2 h
    simp only at he2 h ⊢
    by_cases hb2 : b2.length < uint64 b1
    · rw [if_pos hb2] at he2
      subst he2
      exact ⟨Error.eof, by simp⟩
    · rw [if_neg hb2] at he2
      subst he2
      simp only [ne_eq, not_true_eq_false, if_false] at h ⊢
      rw [if_neg hb2]
      cases hd : node.deserialize b2 with
      | error e => exact ⟨e, rfl⟩
      | ok m => simp [hd] at h

theorem findPosLoop_ge (f : File) (key : Bytes) (fuel : Nat) :
    ∀ off pos, 1 ≤ off → findPosLoop f key fuel off = some (.ok pos) → 25 ≤ pos := by
  induction fuel with
  | zero =>
    intro off pos _ h
    simp [findPosLoop] at h
  | succ fuel ih =>
    intro off pos hoff h
    cases hrec : recordAt f off with
    | none =>
      obtain ⟨e, he⟩ := findPosLoop_of_recordAt_none hrec key fuel
      rw [he] at h
      simp at h
    | some n =>
      rw [findPosLoop_of_recordAt hrec] at h
      split_ifs at h with h1 h2 h3
      · simp only [Option.some.injEq, Except.ok.injEq] at h
        omega
      · exact ih _ _ (by omega) h
      · simp only [Option.some.injEq, Except.ok.injEq] at h
        omega
      · exact ih _ _ (by omega) h

theorem findPos_ge {w : writer} (h3 : w.tail ≠ 3) {key : Bytes} {fuel pos : Nat}
    (h : w.findPos fuel key = some (.ok pos)) : 25 ≤ pos := by
  simp only [writer.findPos, magicNumber, List.length_cons, List.length_nil] at h
  rw [if_neg (by simpa using h3)] at h
  exact findPosLoop_ge _ _ _ _ _ (by norm_num) h

theorem WriteAt_err (f : File) (b : Bytes) (off : Nat) (hsz : ¬ off + b.length ≤ maxInt64) :
    ∃ c n, WriteAt f b off = (c, n, some Error.fileTooLarge) := by
  unfold WriteAt
  rw [if_neg hsz]
  exact ⟨_, _, rfl⟩

/-- The result of `Put` on any writer, by the outcome of its steps. -/
theorem Put_cases (w : writer) (k v : Bytes) (fuel : Nat) :
    (¬ w.tail + (40 + k.length + v.length) ≤ maxInt64 ∧
      ∃ c, w.Put fuel k v = some ({ cursor := c, tail := w.tail }, some Error.fileTooLarge)) ∨
    (w.tail + (40 + k.length + v.length) ≤ maxInt64 ∧
      ((writer.findPos fuel
          { cursor := overwrite w.cursor (leaf k v).serialize w.tail, tail := w.tail } k = none ∧
        w.Put fuel k v = none) ∨
      (∃ e, writer.findPos fuel
          { cursor := overwrite w.cursor (leaf k v).serialize w.tail, tail := w.tail } k =
            some (.error e) ∧
        w.Put fuel k v = some ((writer.mk (overwrite w.cursor (leaf k v).serialize w.tail)
          (w.tail)), some e)) ∨
      (∃ pos, writer.findPos fuel
          { cursor := overwrite w.cursor (leaf k v).serialize w.tail, tail := w.tail } k =
            some (.ok pos) ∧
        ((pos = 3 ∧ w.Put fuel k v =
            some ((writer.mk (overwrite w.cursor (leaf k v).serialize w.tail)
          (w.tail + (40 + k.length + v.length))), none)) ∨
          (pos ≠ 3 ∧ pos + 8 ≤ maxInt64 ∧ w.Put fuel k v =
            some ((writer.mk (overwrite (overwrite w.cursor (leaf k v).serialize w.tail) (putUint64 w.tail) pos)
          (w.tail + (40 + k.length + v.length))), none)) ∨
          (pos ≠ 3 ∧ ¬ pos + 8 ≤ maxInt64 ∧ ∃ c, w.Put fuel k v =
            some ({ cursor := c, tail := w.tail }, some Error.fileTooLarge)))))) := by
  have hlen := leaf_serialize_length k v
  unfold writer.Put
  rw [show ({ key := k, value := v, leftChild := 0, rightChild := 0 } : node) = leaf k v from rfl]
  by_cases hsz : w.tail + (40 + k.length + v.length) ≤ maxInt64
  · right
    refine ⟨hsz, ?_⟩
    have hw1 := WriteAt_ok w.cursor (leaf k v).serialize w.tail (by rw [hlen]; exact hsz)
    simp only [hw1, ne_eq, not_true_eq_false, if_false, lt_self_iff_false]
    cases hfp : writer.findPos fuel
        (writer.mk (overwrite w.cursor (leaf k v).serialize w.tail) w.tail) k with
    | none => exact Or.inl ⟨rfl, rfl⟩
    | some r =>
      cases r with
      | error e => exact Or.inr (Or.inl ⟨e, rfl, rfl⟩)
      | ok pos =>
        refine Or.inr (Or.inr ⟨pos, rfl, ?_⟩)
        simp only
        by_cases hp : pos = 3
        · left
          refine ⟨hp, ?_⟩
          rw [if_pos (by rw [hp]; rfl), hlen]
        · right
          rw [if_neg (by simpa [magicNumber] using hp)]
          by_cases hsz2 : pos + 8 ≤ maxInt64
          · left
            refine ⟨hp, hsz2, ?_⟩
            have hw2 := WriteAt_ok (overwrite w.cursor (leaf k v).serialize w.tail)
              (putUint64 w.tail) pos (by rw [putUint64_length]; exact hsz2)
            simp only [hw2, ne_eq, not_true_eq_false, if_false, lt_self_iff_false, hlen]
          · right
            refine ⟨hp, hsz2, ?_⟩
            obtain ⟨c2, n2, hw2⟩ := WriteAt_err (overwrite w.cursor (leaf k v).serialize w.tail)
              (putUint64 w.tail) pos (by rw [putUint64_length]; exact hsz2)
            simp only [hw2]
            exact ⟨c2, by simp⟩
  · left
    refine ⟨hsz, ?_⟩
    obtain ⟨c1, n, hw1⟩ := WriteAt_err w.cursor (leaf k v).serialize w.tail
      (by rw [hlen]; exact hsz)
    simp only [hw1]
    exact ⟨c1, by simp⟩

/-- The ways in which a `Put` on any writer returns `nil`: the append succeeded
and the descent found a position; the position `3` ends the call, any other
position is patched with the old tail. -/
theorem Put_nil_cases {w w1 : writer} {k v : Bytes} {fuel : Nat}
    (h : w.Put fuel k v = some (w1, none)) :
    w.tail + (40 + k.length + v.length) ≤ maxInt64 ∧
      w1.tail = w.tail + (40 + k.length + v.length) ∧
      ∃ pos, writer.findPos fuel
          { cursor := overwrite w.cursor (leaf k v).serialize w.tail, tail := w.tail } k =
          some (.ok pos) ∧
        ((pos = 3 ∧ w1.cursor = overwrite w.cursor (leaf k v).serialize w.tail) ∨
          (pos ≠ 3 ∧ w1.cursor =
            overwrite (overwrite w.cursor (leaf k v).serialize w.tail) (putUint64 w.tail) pos)) := by
  rcases Put_cases w k v fuel with ⟨-, c, hc⟩ | ⟨hsz, h1 | h1 | h1⟩
  · rw [hc] at h
    simp at h
  · rw [h1.2] at h
    simp at h
  · obtain ⟨e, -, he⟩ := h1
    rw [he] at h
    simp at h
  · obtain ⟨pos, hfp, h2 | h2 | h2⟩ := h1
    · rw [h2.2] at h
      simp only [Option.some.injEq, Prod.mk.injEq, and_true] at h
      subst h
      exact ⟨hsz, rfl, pos, hfp, Or.inl ⟨h2.1, rfl⟩⟩
    · rw [h2.2.2] at h
      simp only [Option.some.injEq, Prod.mk.injEq, and_true] at h
      subst h
      exact ⟨hsz, rfl, pos, hfp, Or.inr ⟨h2.1, rfl⟩⟩
    · obtain ⟨-, -, c, hc⟩ := h2
      rw [hc] at h
      simp at h

/-- A `Put` on any writer that returns an error leaves the tail as it was. -/
theorem Put_error_tail {w w1 : writer} {k v : Bytes} {fuel : Nat} {e : Error}
    (h : w.Put fuel k v = some (w1, some e)) : w1.tail = w.tail := by
  rcases Put_cases w k v fuel with ⟨-, c, hc⟩ | ⟨hsz, h1 | h1 | h1⟩
  · rw [hc] at h
    simp only [Option.some.injEq, Prod.mk.injEq] at h
    rw [← h.1]
  · rw [h1.2] at h
    simp at h
  · obtain ⟨e1, -, he⟩ := h1
    rw [he] at h
    simp only [Option.some.injEq, Prod.mk.injEq] at h
    rw [← h.1]
  · obtain ⟨pos, hfp, h2 | h2 | h2⟩ := h1
    · rw [h2.2] at h
      simp at h
    · rw [h2.2.2] at h
      simp at h
    · obtain ⟨-, -, c, hc⟩ := h2
      rw [hc] at h
      simp only [Option.some.injEq, Prod.mk.injEq] at h
      rw [← h.1]

theorem OpenWriter_magic {f : File} (hmagic : f.take 3 = magicNumber) :
    OpenWriter (some f) = (some f, .ok { cursor := f, tail := f.length }) := by
  simp only [OpenWriter]
  rw [show magicNumber.length = 3 from rfl, hmagic]
  simp [magicNumber, Compare]

theorem OpenWriter_inv {w : writer} {recs : List node} {t : Tree} (h : Inv w recs t) :
    OpenWriter (some w.Close) = (some w.Close, .ok w) := by
  have hm : w.Close.take 3 = magicNumber := by
    rw [writer.Close, h.file]
    rfl
  rw [OpenWriter_magic hm]
  have : w = { cursor := w.Close, tail := w.Close.length } := by
    cases w
    simp only [writer.Close, writer.mk.injEq, true_and]
    exact (inv_length h).symm
  rw [← this]

theorem putAllReopen_inv {w : writer} {recs : List node} {t : Tree} (h : Inv w recs t)
    (rops : List (Bool × Bytes × Bytes)) (fuel : Nat) :
    putAllReopen fuel w rops = putAll fuel w (rops.map Prod.snd) := by
  induction rops generalizing w recs t with
  | nil => rfl
  | cons x rops ih =>
    obtain ⟨again, k, v⟩ := x
    have h0 : (if again then (OpenWriter (some w.Close)).2 else .ok w) = .ok w := by
      cases again
      · rfl
      · simp [OpenWriter_inv h]
    simp only [putAllReopen, h0, List.map_cons, putAll]
    cases hp : w.Put fuel k v with
    | none => rfl
    | some r =>
      obtain ⟨w1, e⟩ := r
      cases e with
      | some e1 => rfl
      | none =>
        obtain ⟨hsz, -, rfl⟩ := Put_success h hp
        exact ih (inv_put h k v hsz)

set_option maxRecDepth 100000 in
theorem truncWriter_open : OpenWriter (some truncFile) = (some truncFile, .ok truncWriter) :=
  rfl

set_option maxRecDepth 100000 in
theorem truncPatched_eq : truncWriter.Put 1 (str "abc") (str "v") = some (truncPatched, none) := by
  decide

set_option maxRecDepth 100000 in
theorem truncFailed_eq :
    truncWriter.Put 2 (str "zzz") (str "v") = some (truncFailed, some Error.eof) := by
  decide

set_option maxRecDepth 100000 in
theorem truncFailed_put : truncFailed.Put 1 (str "abc") (str "v") = some (truncPatched, none) := by
  decide

set_option maxRecDepth 100000 in
theorem oneStore_findPos : oneStore.findPos 1 (str "k") = some (.ok 29) := by
  rfl

theorem descend_rep {f : File} {recs : List node}
    (hf : f = magicNumber ++ flat recs) (hb : f.length ≤ maxInt64)
    (t : Tree) (hrep : Rep recs t) (ht : t.off ≠ 0) (key : Bytes) :
    ∃ n, nodeAt recs 3 (t.parent key).1 = some n ∧
      ∀ fuel, descend f key fuel t.off =
        if fuel < t.depth key then none else some ((t.parent key).1, n) := by
  induction t with
  | nil => exact absurd rfl ht
  | node off k0 v0 l r ihl ihr =>
    have hrec := recordAt_of_reads (rep_reads hf hb hrep)
    have e : (Tree.node off k0 v0 l r).off = off := rfl
    rw [e]
    simp only [Tree.parent, Tree.depth]
    by_cases hc : Compare key k0 ≤ 0
    · simp only [if_pos hc]
      by_cases hl : l.off = 0
      · simp only [if_pos hl]
        refine ⟨_, hrep.1, ?_⟩
        intro fuel
        cases fuel with
        | zero => simp [descend]
        | succ fuel => simp [descend, hrec, hc, hl]
      · simp only [if_neg hl]
        obtain ⟨n, hn, hd⟩ := ihl hrep.2.1 hl
        refine ⟨n, hn, ?_⟩
        intro fuel
        cases fuel with
        | zero => simp [descend]
        | succ fuel =>
          simp only [descend, hrec, if_pos hc, if_neg hl, hd fuel]
          split_ifs <;> first | rfl | omega
    · simp only [if_neg hc]
      by_cases hr : r.off = 0
      · simp only [if_pos hr]
        refine ⟨_, hrep.1, ?_⟩
        intro fuel
        cases fuel with
        | zero => simp [descend]
        | succ fuel => simp [descend, hrec, hc, hr]
      · simp only [if_neg hr]
        obtain ⟨n, hn, hd⟩ := ihr hrep.2.2 hr
        refine ⟨n, hn, ?_⟩
        intro fuel
        cases fuel with
        | zero => simp [descend]
        | succ fuel =>
          simp only [descend, hrec, if_neg hc, if_neg hr, hd fuel]
          split_ifs <;> first | rfl | omega

theorem child_fields_of_nodeAt {recs : List node} {o : Nat} {n : node}
    (h : nodeAt recs 3 o = some n) :
    slice (magicNumber ++ flat recs) (o + 24 + n.key.length + n.value.length) 8 =
        putUint64 n.leftChild ∧
      slice (magicNumber ++ flat recs) (o + 32 + n.key.length + n.value.length) 8 =
        putUint64 n.rightChild := by
  obtain ⟨a1, b1, h1, l1⟩ := slot_split h true
  obtain ⟨a2, b2, h2, l2⟩ := slot_split h false
  simp only [node.slotAt, if_true, Bool.false_eq_true, if_false] at l1 l2 h1 h2
  constructor
  · exact slice_of_eq h1 (by rw [l1]; omega) (putUint64_length _).symm
  · exact slice_of_eq h2 (by rw [l2]; omega) (putUint64_length _).symm

set_option maxRecDepth 100000 in
theorem helloStore_eq : putAll 1 newWriter [(str "hello", str "world")] = some helloStore := by
  decide

set_option maxRecDepth 100000 in
theorem helloStore_findPos :
    helloStore.findPos 1 (str "hell") = some (.ok 37) ∧
      helloStore.findPos 1 (str "helloo") = some (.ok 45) :=
  ⟨rfl, rfl⟩

theorem nodeAt_append_none {a : List node} {base o : Nat} (h : nodeAt a base o = none)
    (b : List node) : nodeAt (a ++ b) base o = nodeAt b (base + (flat a).length) o := by
  induction a generalizing base with
  | nil => simp [flat]
  | cons m ms ih =>
    simp only [nodeAt] at h
    split_ifs at h with h1
    have := ih h
    simp only [List.cons_append, nodeAt, if_neg h1, flat, List.length_append,
      m.serialize_length_eq_size, List.append_eq] at this ⊢
    rw [this, Nat.add_assoc]

theorem nodeAt_putRecs_inv {recs : List node} {t : Tree} {k v : Bytes} {o : Nat} {n1 : node}
    (h : nodeAt (putRecs recs t k v) 3 o = some n1) :
    (o = 3 + (flat recs).length ∧ n1 = leaf k v) ∨
      ∃ n, nodeAt recs 3 o = some n ∧
        (n1 = n ∨ n1 = n.setChild (t.parent k).2 (3 + (flat recs).length)) := by
  unfold putRecs at h
  cases hp : nodeAt (patch recs 3 (t.parent k).1 (t.parent k).2 (3 + (flat recs).length)) 3 o with
  | none =>
    rw [nodeAt_append_none hp, flat_patch_length] at h
    simp only [nodeAt] at h
    split_ifs at h with h1
    simp only [Option.some.injEq] at h
    exact Or.inl ⟨h1, h.symm⟩
  | some n2 =>
    rw [nodeAt_append_left hp] at h
    cases h
    rw [nodeAt_patch] at hp
    split_ifs at hp with h1
    · cases hn : nodeAt recs 3 (t.parent k).1 with
      | none => simp [hn] at hp
      | some n =>
        rw [hn] at hp
        simp only [Option.map_some', Option.some.injEq] at hp
        exact Or.inr ⟨n, by rw [h1, hn], Or.inr hp.symm⟩
    · exact Or.inr ⟨n1, hp, Or.inl rfl⟩

theorem forward_putRecs {recs : List node} (h : Forward recs) (t : Tree) (k v : Bytes) :
    Forward (putRecs recs t k v) := by
  intro o n1 hn1
  rcases nodeAt_putRecs_inv hn1 with ⟨-, rfl⟩ | ⟨n, hn, rfl | rfl⟩
  · exact ⟨Or.inl rfl, Or.inl rfl⟩
  · exact h o n1 hn
  · have hb := nodeAt_bounds hn
    have hs : 0 < n.size := by unfold node.size; omega
    have hf := h o n hn
    cases (t.parent k).2
    · exact ⟨hf.1, Or.inr (by simp only [node.setChild, Bool.false_eq_true, if_false]; omega)⟩
    · exact ⟨Or.inr (by simp only [node.setChild, if_true]; omega), hf.2⟩

theorem run_forward {recs : List node} (h : Forward recs) (t : Tree)
    (ops : List (Bytes × Bytes)) : Forward (run recs t ops).1 := by
  induction ops generalizing recs t with
  | nil => exact h
  | cons kv ops ih =>
    obtain ⟨k, v⟩ := kv
    exact ih (forward_putRecs h t k v) _

theorem forward_nil : Forward [] := by
  intro o n hn
  simp [nodeAt] at hn

theorem allIn_putRecs {recs : List node} {t : Tree} (h : AllIn recs t) (k v : Bytes) :
    AllIn (putRecs recs t k v) (t.ins (3 + (flat recs).length) k v) := by
  intro o n1 hn1
  rcases nodeAt_putRecs_inv hn1 with ⟨rfl, -⟩ | ⟨n, hn, -⟩
  · exact Tree.new_mem_offs_ins t _ k v
  · exact Tree.mem_offs_ins (h o n hn) _ k v

theorem run_allIn {recs : List node} {t : Tree} (h : AllIn recs t)
    (ops : List (Bytes × Bytes)) : AllIn (run recs t ops).1 (run recs t ops).2 := by
  induction ops generalizing recs t with
  | nil => exact h
  | cons kv ops ih =>
    obtain ⟨k, v⟩ := kv
    exact ih (allIn_putRecs h k v)

theorem allIn_nil : AllIn [] .nil := by
  intro o n hn
  simp [nodeAt] at hn

theorem walk_rep {f : File} {recs : List node} (hf : f = magicNumber ++ flat recs)
    (hb : f.length ≤ maxInt64) (t : Tree) (hrep : Rep recs t) (p : List Bool) :
    walk f p t.off = t.walk p := by
  induction t generalizing p with
  | nil => cases p <;> simp [walk, Tree.walk, Tree.off]
  | node off k v l r ihl ihr =>
    have h3 := rep_off_ge hrep
    have hrec := recordAt_of_reads (rep_reads hf hb hrep)
    have e : (Tree.node off k v l r).off = off := rfl
    have h0 : ¬ off = 0 := by omega
    rw [e]
    cases p with
    | nil => simp [walk, Tree.walk, h0, hrec]
    | cons d ds =>
      simp only [walk, if_neg h0, hrec, Tree.walk]
      cases d
      · simpa using ihr hrep.2.2 ds
      · simpa using ihl hrep.2.1 ds

theorem Tree.walk_mem {t : Tree} {p : List Bool} {o : Nat} (h : t.walk p = some o) :
    o ∈ t.offs := by
  induction t generalizing p with
  | nil => simp [Tree.walk] at h
  | node off k v l r ihl ihr =>
    cases p with
    | nil =>
      simp only [Tree.walk, Option.some.injEq] at h
      simp [Tree.offs, h]
    | cons d ds =>
      simp only [Tree.walk] at h
      cases d
      · have := ihr (by simpa using h)
        simp [Tree.offs, this]
      · have := ihl (by simpa using h)
        simp [Tree.offs, this]

theorem Tree.walk_exists {t : Tree} {o : Nat} (h : o ∈ t.offs) : ∃ p, t.walk p = some o := by
  induction t with
  | nil => simp [Tree.offs] at h
  | node off k v l r ihl ihr =>
    simp only [Tree.offs, List.mem_cons, List.mem_append] at h
    rcases h with rfl | h | h
    · exact ⟨[], rfl⟩
    · obtain ⟨p, hp⟩ := ihl h
      exact ⟨true :: p, by simpa [Tree.walk] using hp⟩
    · obtain ⟨p, hp⟩ := ihr h
      exact ⟨false :: p, by simpa [Tree.walk] using hp⟩

theorem Tree.walk_unique {t : Tree} (hnd : t.offs.Nodup) {p q : List Bool} {o : Nat}
    (hp : t.walk p = some o) (hq : t.walk q = some o) : p = q := by
  induction t generalizing p q with
  | nil => simp [Tree.walk] at hp
  | node off k v l r ihl ihr =>
    simp only [Tree.offs, List.nodup_cons, List.mem_append, not_or, List.nodup_append] at hnd
    obtain ⟨⟨hol, hor⟩, hndl, hndr, hdisj⟩ := hnd
    have hsub : ∀ (d : Bool) (ds : List Bool),
        (Tree.node off k v l r).walk (d :: ds) = some o →
        (d = true ∧ l.walk ds = some o ∧ o ∈ l.offs) ∨
          (d = false ∧ r.walk ds = some o ∧ o ∈ r.offs) := by
      intro d ds h
      simp only [Tree.walk] at h
      cases d
      · exact Or.inr ⟨rfl, by simpa using h, Tree.walk_mem (by simpa using h)⟩
      · exact Or.inl ⟨rfl, by simpa using h, Tree.walk_mem (by simpa using h)⟩
    cases p with
    | nil =>
      simp only [Tree.walk, Option.some.injEq] at hp
      subst hp
      cases q with
      | nil => rfl
      | cons d ds =>
        rcases hsub d ds hq with ⟨-, -, hm⟩ | ⟨-, -, hm⟩
        · exact absurd hm hol
        · exact absurd hm hor
    | cons d ds =>
      cases q with
      | nil =>
        simp only [Tree.walk, Option.some.injEq] at hq
        subst hq
        rcases hsub d ds hp with ⟨-, -, hm⟩ | ⟨-, -, hm⟩
        · exact absurd hm hol
        · exact absurd hm hor
      | cons d1 ds1 =>
        rcases hsub d ds hp with ⟨rfl, h1, hm1⟩ | ⟨rfl, h1, hm1⟩
        · rcases hsub d1 ds1 hq with ⟨rfl, h2, hm2⟩ | ⟨rfl, h2, hm2⟩
          · rw [ihl hndl h1 h2]
          · exact absurd hm2 (fun h => hdisj hm1 h)
        · rcases hsub d1 ds1 hq with ⟨rfl, h2, hm2⟩ | ⟨rfl, h2, hm2⟩
          · exact absurd hm1 (fun h => hdisj hm2 h)
          · rw [ihr hndr h1 h2]

theorem collect_rep {f : File} {recs : List node} (hf : f = magicNumber ++ flat recs)
    (hb : f.length ≤ maxInt64) (t : Tree) (hrep : Rep recs t) (fuel : Nat)
    (hfuel : t.size ≤ fuel) : collect f fuel t.off = t.pairs := by
  induction t generalizing fuel with
  | nil => cases fuel <;> simp [collect, Tree.pairs, Tree.off]
  | node off k v l r ihl ihr =>
    have h3 := rep_off_ge hrep
    have hrec := recordAt_of_reads (rep_reads hf hb hrep)
    have e : (Tree.node off k v l r).off = off := rfl
    have h0 : ¬ off = 0 := by omega
    rw [e]
    simp only [Tree.size] at hfuel
    cases fuel with
    | zero => omega
    | succ fuel =>
      simp only [collect, if_neg h0, hrec, Tree.pairs]
      rw [ihl hrep.2.1 fuel (by omega), ihr hrep.2.2 fuel (by omega)]

theorem Tree.pairs_ins_perm (t : Tree) (x : Nat) (k v : Bytes) :
    (t.ins x k v).pairs.Perm ((k, v) :: t.pairs) := by
  induction t with
  | nil => simp [Tree.ins, Tree.pairs]
  | node off k0 v0 l r ihl ihr =>
    simp only [Tree.ins]
    split_ifs
    · simp only [Tree.pairs]
      refine List.Perm.trans ?_ (List.Perm.swap _ _ _)
      exact List.Perm.cons _ (List.Perm.append_right _ ihl)
    · simp only [Tree.pairs]
      refine List.Perm.trans ?_ (List.Perm.swap _ _ _)
      refine List.Perm.cons _ ?_
      refine List.Perm.trans (List.Perm.append_left _ ihr) ?_
      exact List.perm_middle

theorem run_pairs_perm (recs : List node) (t : Tree) (ops : List (Bytes × Bytes)) :
    (run recs t ops).2.pairs.Perm (t.pairs ++ ops) := by
  induction ops generalizing recs t with
  | nil => simp [run]
  | cons kv ops ih =>
    obtain ⟨k, v⟩ := kv
    simp only [run]
    refine (ih _ _).trans ?_
    refine (List.Perm.append_right _ (Tree.pairs_ins_perm t _ k v)).trans ?_
    exact List.perm_middle.symm

theorem rep_nodeAt_of_mem {recs : List node} {t : Tree} (h : Rep recs t) {o : Nat}
    (ho : o ∈ t.offs) : ∃ n, nodeAt recs 3 o = some n := by
  induction t with
  | nil => simp [Tree.offs] at ho
  | node off k v l r ihl ihr =>
    simp only [Tree.offs, List.mem_cons, List.mem_append] at ho
    rcases ho with rfl | ho | ho
    · exact ⟨_, h.1⟩
    · exact ihl h.2.1 ho
    · exact ihr h.2.2 ho

theorem walk_header (p : List Bool) (o : Nat) : walk magicNumber p o = none := by
  cases p <;> simp [walk, recordAt_header]

/-! ## The properties of the store -/

/-- C1. Order independence: for pairwise distinct keys with values, given as
the list `ops`, and every order `ops'` in which they are inserted with `Put`
into a newly created store (of a size that fits the `int64` offsets), the
`Put` calls succeed and, on a reader opened on the closed file, `Get` returns
for every inserted key exactly the value inserted with it. -/
theorem order_independence (ops ops' : List (Bytes × Bytes)) (hperm : ops'.Perm ops)
    (hnd : (ops.map Prod.fst).Nodup) (hsz : storeSize ops ≤ maxInt64) (fuel : Nat)
    (hfuel : ops.length ≤ fuel) :
    ∃ w, putAll fuel newWriter ops' = some w ∧
      ∃ r, OpenReader (some w.Close) = .ok r ∧
        ∀ kv ∈ ops, r.Get fuel kv.1 = some (.ok kv.2) := by
  have hlen : ops'.length = ops.length := hperm.length_eq
  obtain ⟨w, hw⟩ := putAll_total inv_newWriter ops' fuel
    (by rw [storeSize_perm hperm]; simp only [newWriter]; omega)
    (by simp only [List.length_nil]; omega)
  refine ⟨w, hw, _, (Get_after_puts hw [] fuel (by omega)).1, ?_⟩
  rintro ⟨k, v⟩ hkv
  have hnd' : (ops'.map Prod.fst).Nodup := (hperm.map Prod.fst).nodup_iff.2 hnd
  rw [(Get_after_puts hw k fuel (by omega)).2,
    firstValue_of_nodup hnd' (hperm.mem_iff.2 hkv)]

set_option maxRecDepth 100000 in
/-- The four pairs of `TestBST`, inserted in the order of the test and listed in
the reverse order. -/
theorem order_independence_witness :
    ∃ w, putAll 4 newWriter testOps = some w ∧
      ∃ r, OpenReader (some w.Close) = .ok r ∧
        ∀ kv ∈ testOps.reverse, r.Get 4 kv.1 = some (.ok kv.2) :=
  order_independence testOps.reverse testOps (List.reverse_perm testOps).symm (by decide)
    (by decide) 4 (by decide)

/-- C2, counterexample. After `Put(k, a)` and `Put(k, b)` the pair `(k, b)` was
inserted by a `Put`, yet `Get(k)` returns `a` and not `b`. -/
theorem roundtrip_counterexample :
    putAll 2 newWriter dupOps = some dupStore ∧ (str "k", str "b") ∈ dupOps ∧
      OpenReader (some dupStore.Close) = .ok { cursor := dupStore.cursor } ∧
      reader.Get 2 { cursor := dupStore.cursor } (str "k") = some (.ok (str "a")) ∧
      reader.Get 2 { cursor := dupStore.cursor } (str "k") ≠ some (.ok (str "b")) := by
  have h := Get_after_puts dupStore_eq (str "k") 2 (by decide)
  refine ⟨dupStore_eq, by decide, h.1, h.2, ?_⟩
  rw [h.2]
  intro he
  have hab : str "a" = str "b" := Except.ok.inj (Option.some.inj he)
  revert hab
  decide

/-- C2, amended. Round-trip: for every sequence of successful `Put` calls on a
newly created store and every pair `(k, v)` inserted by a call before which no
call inserted the key `k`, `Get(k)` on a reader opened after `Close` returns
exactly `v`. -/
theorem roundtrip_first_insertion (pre post : List (Bytes × Bytes)) (k v : Bytes)
    (hfirst : k ∉ pre.map Prod.fst) (fuel0 : Nat) (w : writer)
    (hput : putAll fuel0 newWriter (pre ++ (k, v) :: post) = some w) (fuel : Nat)
    (hfuel : (pre ++ (k, v) :: post).length ≤ fuel) :
    ∃ r, OpenReader (some w.Close) = .ok r ∧ r.Get fuel k = some (.ok v) := by
  have h := Get_after_puts hput k fuel hfuel
  refine ⟨_, h.1, ?_⟩
  rw [h.2, firstValue_first hfirst]

set_option maxRecDepth 100000 in
/-- The third pair of `TestBST`, `hell`, in the store of the test. -/
theorem roundtrip_first_insertion_witness :
    ∃ r, OpenReader (some testStore.Close) = .ok r ∧
      r.Get 4 (str "hell") = some (.ok (str "worl")) :=
  roundtrip_first_insertion [(str "hello", str "world"), (str "helloo", str "worldd")]
    [(str "hellooo", str "worlddd")] (str "hell") (str "worl") (by decide) 4 testStore
    testStore_eq 4 (by decide)

/-- C3. Duplicate key shadowing: in a store built by successful `Put` calls in
which `K` is first inserted with `V1` and `Put(K, V2)` is called later, with any
other calls before, between and after, `Get(K)` returns `V1`: the record of the
first call still carries `K` and `V1`, and the record of the later call is
stored as well, in the subtree under the `leftChild` of the first one. -/
theorem duplicate_key_shadowing (a b c : List (Bytes × Bytes)) (K V1 V2 : Bytes)
    (hfirst : K ∉ a.map Prod.fst) (fuel0 : Nat) (w : writer)
    (hput : putAll fuel0 newWriter (a ++ ((K, V1) :: (b ++ ((K, V2) :: c)))) = some w)
    (fuel : Nat) (hfuel : (a ++ ((K, V1) :: (b ++ ((K, V2) :: c)))).length ≤ fuel) :
    (∃ r, OpenReader (some w.Close) = .ok r ∧ r.Get fuel K = some (.ok V1)) ∧
      ∃ n1 n2, recordAt w.cursor (storeSize a) = some n1 ∧ n1.key = K ∧ n1.value = V1 ∧
        recordAt w.cursor (storeSize (a ++ ((K, V1) :: b))) = some n2 ∧
        n2.key = K ∧ n2.value = V2 ∧
        Reach w.cursor n1.leftChild (storeSize (a ++ ((K, V1) :: b))) := by
  have h := Get_after_puts hput K fuel hfuel
  refine ⟨⟨_, h.1, by rw [h.2, firstValue_first hfirst]⟩, ?_⟩
  obtain ⟨hinv, hcl, hkv⟩ := putAll_built hput
  have hbound : w.cursor.length ≤ maxInt64 := by rw [inv_length hinv]; exact hinv.bound
  obtain ⟨n1, hn1, hk1, hv1⟩ := nodeAt_of_kv hkv 0
  have hkv2 : (run [] .nil (a ++ ((K, V1) :: (b ++ ((K, V2) :: c))))).1.map
      (fun n => (n.key, n.value)) = (a ++ ((K, V1) :: b)) ++ ((K, V2) :: c) := by
    rw [hkv]
    simp
  obtain ⟨n2, hn2, hk2, hv2⟩ := nodeAt_of_kv hkv2 0
  simp only [Nat.zero_add] at hn1 hn2
  obtain ⟨n, hn, hreach⟩ := reach_of_leftHas hinv.file hbound hinv.rep
    (run_leftHas_dup a b c K V1 V2)
  rw [hn1] at hn
  cases hn
  exact ⟨n1, n2, recordAt_of_reads (inv_reads hinv hcl hn1), hk1, hv1,
    recordAt_of_reads (inv_reads hinv hcl hn2), hk2, hv2, hreach⟩

set_option maxRecDepth 100000 in
/-- The key `k` inserted with `a` and then with `b`. -/
theorem duplicate_key_shadowing_witness :
    (∃ r, OpenReader (some dupStore.Close) = .ok r ∧
      r.Get 2 (str "k") = some (.ok (str "a"))) ∧
      ∃ n1 n2, recordAt dupStore.cursor (storeSize []) = some n1 ∧ n1.key = str "k" ∧
        n1.value = str "a" ∧
        recordAt dupStore.cursor (storeSize ([] ++ ((str "k", str "a") :: []))) = some n2 ∧
        n2.key = str "k" ∧ n2.value = str "b" ∧
        Reach dupStore.cursor n1.leftChild (storeSize ([] ++ ((str "k", str "a") :: []))) :=
  duplicate_key_shadowing [] [] [] (str "k") (str "a") (str "b") (by decide) 2 dupStore
    dupStore_eq 2 (by decide)

/-- C4. Missing key: in a store built by successful `Put` calls from a newly
created file (no call at all included), `Get` of a key that none of the calls
inserted fails with `errKeyNotFound`. -/
theorem missing_key_not_found (ops : List (Bytes × Bytes)) (key : Bytes)
    (hkey : key ∉ ops.map Prod.fst) (fuel0 : Nat) (w : writer)
    (hput : putAll fuel0 newWriter ops = some w) (fuel : Nat) (hfuel : ops.length ≤ fuel) :
    ∃ r, OpenReader (some w.Close) = .ok r ∧
      r.Get fuel key = some (.error Error.errKeyNotFound) := by
  have h := Get_after_puts hput key fuel hfuel
  refine ⟨_, h.1, ?_⟩
  rw [h.2, firstValue_of_not_mem hkey]

set_option maxRecDepth 100000 in
/-- The key `blah` in the store of `TestBST`. -/
theorem missing_key_not_found_witness :
    ∃ r, OpenReader (some testStore.Close) = .ok r ∧
      r.Get 4 (str "blah") = some (.error Error.errKeyNotFound) :=
  missing_key_not_found testOps (str "blah") (by decide) 4 testStore testStore_eq 4 (by decide)

/-- C5. Tree ordering invariant: in every store reached from a newly created
file by successful `Put` calls (none included), for every record `n` of the
tree, at an offset `a` reached from the root, the key of every record in the
subtree under `n.leftChild` is not greater than `n.key` and the key of every
record in the subtree under `n.rightChild` is greater than `n.key`, in the
order of `bytes.Compare`. -/
theorem tree_ordering_invariant (ops : List (Bytes × Bytes)) (fuel : Nat) (w : writer)
    (hput : putAll fuel newWriter ops = some w) (a : Nat) (n : node)
    (hreach : Reach w.cursor 3 a) (hrec : recordAt w.cursor a = some n) :
    (∀ b m, Reach w.cursor n.leftChild b → recordAt w.cursor b = some m →
        Compare m.key n.key ≤ 0) ∧
      (∀ b m, Reach w.cursor n.rightChild b → recordAt w.cursor b = some m →
        0 < Compare m.key n.key) :=
  ordering_of_inv (putAll_inv inv_newWriter hput) (run_ordered (t := .nil) trivial _ _) hreach hrec

set_option maxRecDepth 100000 in
/-- The root record `hello` of the store of `TestBST`, with its children at the
offsets 105 and 53. -/
theorem tree_ordering_invariant_witness :
    (∀ b m, Reach testStore.cursor 105 b → recordAt testStore.cursor b = some m →
        Compare m.key (str "hello") ≤ 0) ∧
      (∀ b m, Reach testStore.cursor 53 b → recordAt testStore.cursor b = some m →
        0 < Compare m.key (str "hello")) :=
  tree_ordering_invariant testOps 4 testStore testStore_eq 3
    { key := str "hello", value := str "world", leftChild := 105, rightChild := 53 }
    (Reach.root (by decide)) (by decide)

/-- C6. Append-only frame: for a store built by successful `Put` calls from a
newly created file and a further successful `Put`, the three header bytes are
the same before and after, the bytes of `recordSize`, `keyLen`, `key`, `valueLen`
and `value` of every earlier record are the same, and every byte below the old
tail is unchanged except, at most, a run of 8 bytes that is the `leftChild` or
the `rightChild` field of one earlier record. -/
theorem append_only_frame (ops : List (Bytes × Bytes)) (fuel0 : Nat) (w : writer)
    (hput : putAll fuel0 newWriter ops = some w) (k v : Bytes) (fuel : Nat) (w1 : writer)
    (hput1 : w.Put fuel k v = some (w1, none)) :
    (w.cursor.take 3 = magicNumber ∧ w1.cursor.take 3 = magicNumber) ∧
    (∀ pre k0 v0 post, ops = pre ++ (k0, v0) :: post →
      slice w.cursor (storeSize pre) (24 + k0.length + v0.length) =
        putUint64 (32 + k0.length + v0.length) ++
          (putUint64 k0.length ++ (k0 ++ (putUint64 v0.length ++ v0))) ∧
      slice w1.cursor (storeSize pre) (24 + k0.length + v0.length) =
        slice w.cursor (storeSize pre) (24 + k0.length + v0.length)) ∧
    ((∀ i, i < w.tail → w1.cursor[i]? = w.cursor[i]?) ∨
      ∃ pre k0 v0 post p, ops = pre ++ (k0, v0) :: post ∧
        (p = storeSize pre + 24 + k0.length + v0.length ∨
          p = storeSize pre + 32 + k0.length + v0.length) ∧
        ∀ i, i < w.tail → (i < p ∨ p + 8 ≤ i) → w1.cursor[i]? = w.cursor[i]?) := by
  obtain ⟨hinv, -, hkv⟩ := putAll_built hput
  obtain ⟨-, -, rfl⟩ := Put_success hinv hput1
  exact frame_of_inv hinv hkv k v

/-- The key `k` put with `b` into the store that holds `k` with `a`. -/
theorem append_only_frame_witness :
    (oneStore.cursor.take 3 = magicNumber ∧ dupStore.cursor.take 3 = magicNumber) ∧
    (∀ pre k0 v0 post, [(str "k", str "a")] = pre ++ (k0, v0) :: post →
      slice oneStore.cursor (storeSize pre) (24 + k0.length + v0.length) =
        putUint64 (32 + k0.length + v0.length) ++
          (putUint64 k0.length ++ (k0 ++ (putUint64 v0.length ++ v0))) ∧
      slice dupStore.cursor (storeSize pre) (24 + k0.length + v0.length) =
        slice oneStore.cursor (storeSize pre) (24 + k0.length + v0.length)) ∧
    ((∀ i, i < oneStore.tail → dupStore.cursor[i]? = oneStore.cursor[i]?) ∨
      ∃ pre k0 v0 post p, [(str "k", str "a")] = pre ++ (k0, v0) :: post ∧
        (p = storeSize pre + 24 + k0.length + v0.length ∨
          p = storeSize pre + 32 + k0.length + v0.length) ∧
        ∀ i, i < oneStore.tail → (i < p ∨ p + 8 ≤ i) →
          dupStore.cursor[i]? = oneStore.cursor[i]?) :=
  append_only_frame [(str "k", str "a")] 1 oneStore oneStore_eq (str "k") (str "b") 1 dupStore
    oneStore_put

/-- C7. Postcondition of `Put` on a store that is not empty: for a store built
by successful `Put` calls with tail `t > 3`, after a successful `Put(key,
value)` the bytes at `[t, t + 40 + len(key) + len(value))` are the encoding of,
and decode to, the node `(key, value, 0, 0)`, and the child field that the
descent selected, the left field of the insertion parent if `key <= parent.key`
and the right field otherwise, holds the little-endian encoding of `t`. -/
theorem put_postcondition (ops : List (Bytes × Bytes)) (fuel0 : Nat) (w : writer)
    (hput : putAll fuel0 newWriter ops = some w) (htail : 3 < w.tail) (k v : Bytes)
    (fuel : Nat) (w1 : writer) (hput1 : w.Put fuel k v = some (w1, none)) :
    slice w1.cursor w.tail (40 + k.length + v.length) =
        node.serialize { key := k, value := v, leftChild := 0, rightChild := 0 } ∧
      recordAt w1.cursor w.tail =
        some { key := k, value := v, leftChild := 0, rightChild := 0 } ∧
      ∃ pos o parent, w.findPos fuel k = some (.ok pos) ∧
        recordAt w.cursor o = some parent ∧
        pos = (if Compare k parent.key ≤ 0 then o + 24 + parent.key.length + parent.value.length
          else o + 32 + parent.key.length + parent.value.length) ∧
        slice w1.cursor pos 8 = putUint64 w.tail ∧
        uint64 (slice w1.cursor pos 8) = w.tail := by
  obtain ⟨hinv, hcl, -⟩ := putAll_built hput
  obtain ⟨hsz, hfuel, rfl⟩ := Put_success hinv hput1
  obtain ⟨h1, h2, pos, o, parent, h3, h4, h5, -, -, -, h6, h7⟩ :=
    post_of_inv hinv hcl (by omega) k v hsz fuel hfuel
  exact ⟨h1, h2, pos, o, parent, h3, h4, h5, h6, h7⟩

set_option maxRecDepth 100000 in
/-- The key `k` put with `b` into the store that holds `k` with `a`. -/
theorem put_postcondition_witness :
    slice dupStore.cursor oneStore.tail (40 + (str "k").length + (str "b").length) =
        node.serialize { key := str "k", value := str "b", leftChild := 0, rightChild := 0 } ∧
      recordAt dupStore.cursor oneStore.tail =
        some { key := str "k", value := str "b", leftChild := 0, rightChild := 0 } ∧
      ∃ pos o parent, oneStore.findPos 1 (str "k") = some (.ok pos) ∧
        recordAt oneStore.cursor o = some parent ∧
        pos = (if Compare (str "k") parent.key ≤ 0 then
            o + 24 + parent.key.length + parent.value.length
          else o + 32 + parent.key.length + parent.value.length) ∧
        slice dupStore.cursor pos 8 = putUint64 oneStore.tail ∧
        uint64 (slice dupStore.cursor pos 8) = oneStore.tail :=
  put_postcondition [(str "k", str "a")] 1 oneStore oneStore_eq (by decide) (str "k") (str "b")
    1 dupStore oneStore_put

/-- C8. Each child field is patched at most once: for a store built by
successful `Put` calls from a newly created file, the 8 bytes at the position
that `findPos` returns for a further `Put` are all zero in the file before the
call and immediately before the patch, and hold the old tail, an offset that is
not zero, after it; across any further successful `Put` calls every child field
of an earlier record that is not zero keeps its value; and every child field
of every record is zero or the start offset of a record. -/
theorem child_field_patched_once (ops : List (Bytes × Bytes)) (fuel0 : Nat) (w : writer)
    (hput : putAll fuel0 newWriter ops = some w) (k v : Bytes) (fuel : Nat) (w1 : writer)
    (hput1 : w.Put fuel k v = some (w1, none)) (ops2 : List (Bytes × Bytes)) (fuel2 : Nat)
    (w2 : writer) (hput2 : putAll fuel2 w ops2 = some w2) :
    (3 < w.tail → ∃ pos, w.findPos fuel k = some (.ok pos) ∧
      slice w.cursor pos 8 = [0, 0, 0, 0, 0, 0, 0, 0] ∧
      slice (overwrite w.cursor
        (node.serialize { key := k, value := v, leftChild := 0, rightChild := 0 }) w.tail)
        pos 8 = [0, 0, 0, 0, 0, 0, 0, 0] ∧
      slice w1.cursor pos 8 = putUint64 w.tail ∧
      uint64 (slice w1.cursor pos 8) = w.tail ∧ w.tail ≠ 0) ∧
    (∀ pre k0 v0 post, ops = pre ++ (k0, v0) :: post →
      ∃ n n2, recordAt w.cursor (storeSize pre) = some n ∧
        recordAt w2.cursor (storeSize pre) = some n2 ∧
        (n.leftChild ≠ 0 → n2.leftChild = n.leftChild) ∧
        (n.rightChild ≠ 0 → n2.rightChild = n.rightChild)) ∧
    (∀ pre k0 v0 post, ops = pre ++ (k0, v0) :: post →
      ∃ n, recordAt w.cursor (storeSize pre) = some n ∧
        (n.leftChild = 0 ∨ ∃ pre1 kv1 post1, ops = pre1 ++ kv1 :: post1 ∧
          n.leftChild = storeSize pre1) ∧
        (n.rightChild = 0 ∨ ∃ pre1 kv1 post1, ops = pre1 ++ kv1 :: post1 ∧
          n.rightChild = storeSize pre1)) := by
  obtain ⟨hinv, hcl, hkv⟩ := putAll_built hput
  obtain ⟨hsz, hfuel, rfl⟩ := Put_success hinv hput1
  refine ⟨?_, ?_, ?_⟩
  · intro htail
    obtain ⟨-, -, pos, o, parent, h3, -, -, -, h4, h5, h6, h7⟩ :=
      post_of_inv hinv hcl (by omega) k v hsz fuel hfuel
    exact ⟨pos, h3, h4, h5, h6, h7, by omega⟩
  · intro pre k0 v0 post hops
    subst hops
    obtain ⟨n, hn, -, -⟩ := nodeAt_of_kv hkv 0
    simp only [Nat.zero_add] at hn
    obtain ⟨n2, hn2, -, -, hl, hr⟩ := kept_putAll hinv hput2 hn
    exact ⟨n, n2, recordAt_of_reads (inv_reads hinv hcl hn),
      recordAt_of_reads (inv_reads (putAll_inv hinv hput2) (run_closed hcl _ _) hn2), hl, hr⟩
  · intro pre k0 v0 post hops
    obtain ⟨n, hn, -, -⟩ := nodeAt_of_kv (hkv.trans hops) 0
    simp only [Nat.zero_add] at hn
    exact ⟨n, recordAt_of_reads (inv_reads hinv hcl hn),
      closed_offsets hcl hkv (nodeAt_mem hn)⟩

set_option maxRecDepth 100000 in
/-- The key `k` put with `b` into the store that holds `k` with `a`. -/
theorem child_field_patched_once_witness :
    (3 < oneStore.tail → ∃ pos, oneStore.findPos 1 (str "k") = some (.ok pos) ∧
      slice oneStore.cursor pos 8 = [0, 0, 0, 0, 0, 0, 0, 0] ∧
      slice (overwrite oneStore.cursor
        (node.serialize { key := str "k", value := str "b", leftChild := 0, rightChild := 0 })
        oneStore.tail) pos 8 = [0, 0, 0, 0, 0, 0, 0, 0] ∧
      slice dupStore.cursor pos 8 = putUint64 oneStore.tail ∧
      uint64 (slice dupStore.cursor pos 8) = oneStore.tail ∧ oneStore.tail ≠ 0) ∧
    (∀ pre k0 v0 post, [(str "k", str "a")] = pre ++ (k0, v0) :: post →
      ∃ n n2, recordAt oneStore.cursor (storeSize pre) = some n ∧
        recordAt dupStore.cursor (storeSize pre) = some n2 ∧
        (n.leftChild ≠ 0 → n2.leftChild = n.leftChild) ∧
        (n.rightChild ≠ 0 → n2.rightChild = n.rightChild)) ∧
    (∀ pre k0 v0 post, [(str "k", str "a")] = pre ++ (k0, v0) :: post →
      ∃ n, recordAt oneStore.cursor (storeSize pre) = some n ∧
        (n.leftChild = 0 ∨ ∃ pre1 kv1 post1, [(str "k", str "a")] = pre1 ++ kv1 :: post1 ∧
          n.leftChild = storeSize pre1) ∧
        (n.rightChild = 0 ∨ ∃ pre1 kv1 post1, [(str "k", str "a")] = pre1 ++ kv1 :: post1 ∧
          n.rightChild = storeSize pre1)) :=
  child_field_patched_once [(str "k", str "a")] 1 oneStore oneStore_eq (str "k") (str "b") 1
    dupStore oneStore_put [(str "k", str "b")] 1 dupStore (by decide)

/-- C9. Record layout by insertion order: after successful `Put` calls
`(k1,v1), ..., (kn,vn)` on a newly created store the writer's tail and the file
length are `3 + Σ (40 + len(kj) + len(vj))`; the record of every call starts at
that sum taken over the calls before it and decodes to the key and the value
of the call; and a first `Put` leaves the header followed by the fresh leaf
record, nothing being patched. -/
theorem record_layout (ops : List (Bytes × Bytes)) (fuel : Nat) (w : writer)
    (hput : putAll fuel newWriter ops = some w) :
    w.tail = storeSize ops ∧ w.cursor.length = storeSize ops ∧
      (∀ pre k v post, ops = pre ++ (k, v) :: post →
        ∃ n, recordAt w.cursor (storeSize pre) = some n ∧ n.key = k ∧ n.value = v) ∧
      (∀ k v post, ops = (k, v) :: post →
        ∃ w1, newWriter.Put fuel k v = some (w1, none) ∧
          w1.cursor = magicNumber ++
            node.serialize { key := k, value := v, leftChild := 0, rightChild := 0 } ∧
          w1.tail = 3 + (40 + k.length + v.length)) := by
  obtain ⟨hinv, hcl, hkv⟩ := putAll_built hput
  have htail : w.tail = storeSize ops := by rw [hinv.tail, flat_length_kv hkv]
  refine ⟨htail, by rw [inv_length hinv, htail], ?_, ?_⟩
  · intro pre k v post hops
    subst hops
    obtain ⟨n, hn, hk, hv⟩ := nodeAt_of_kv hkv 0
    simp only [Nat.zero_add] at hn
    exact ⟨n, recordAt_of_reads (inv_reads hinv hcl hn), hk, hv⟩
  · intro k v post hops
    subst hops
    simp only [putAll] at hput
    split at hput
    · rename_i w1 hw1
      obtain ⟨-, -, rfl⟩ := Put_success inv_newWriter hw1
      exact ⟨_, hw1, by simp [putWriter, putRecs, patch, flat, leaf],
        by simp [putWriter, putRecs, patch, flat, leaf_serialize_length]⟩
    · cases hput

set_option maxRecDepth 100000 in
/-- The store of `TestBST`: records at the offsets 3, 53, 105 and 153, tail 207. -/
theorem record_layout_witness :
    (testStore.tail = storeSize testOps ∧ testStore.cursor.length = storeSize testOps ∧
      (∀ pre k v post, testOps = pre ++ (k, v) :: post →
        ∃ n, recordAt testStore.cursor (storeSize pre) = some n ∧ n.key = k ∧ n.value = v) ∧
      (∀ k v post, testOps = (k, v) :: post →
        ∃ w1, newWriter.Put 4 k v = some (w1, none) ∧
          w1.cursor = magicNumber ++
            node.serialize { key := k, value := v, leftChild := 0, rightChild := 0 } ∧
          w1.tail = 3 + (40 + k.length + v.length))) ∧
      storeSize testOps = 207 ∧
      (recordAt testStore.cursor 3).map (fun n => (n.key, n.value)) =
        some (str "hello", str "world") ∧
      (recordAt testStore.cursor 53).map (fun n => (n.key, n.value)) =
        some (str "helloo", str "worldd") ∧
      (recordAt testStore.cursor 105).map (fun n => (n.key, n.value)) =
        some (str "hell", str "worl") ∧
      (recordAt testStore.cursor 153).map (fun n => (n.key, n.value)) =
        some (str "hellooo", str "worlddd") :=
  ⟨record_layout testOps 4 testStore testStore_eq, by decide, by decide, by decide, by decide,
    by decide⟩

/-- C10. `OpenWriter` sets up the store: on a path with no file it succeeds,
leaves a file of exactly the three magic bytes and a writer with tail `3`; on
an existing file whose first three bytes are the magic constant it succeeds,
leaves the bytes of the file as they are and sets the tail to the length of
the file. -/
theorem OpenWriter_sets_up (f : File) (hmagic : f.take 3 = magicNumber) :
    OpenWriter none = (some [0xD, 0xB, 0xD], .ok { cursor := [0xD, 0xB, 0xD], tail := 3 }) ∧
      OpenWriter (some f) = (some f, .ok { cursor := f, tail := f.length }) := by
  refine ⟨rfl, ?_⟩
  have hlen : (f.take 3).length = 3 := by rw [hmagic]; rfl
  simp only [OpenWriter]
  rw [show magicNumber.length = 3 from rfl, hmagic]
  simp [magicNumber, Compare]

set_option maxRecDepth 100000 in
/-- The file of the store of `TestBST`, opened again. -/
theorem OpenWriter_sets_up_witness :
    OpenWriter none = (some [0xD, 0xB, 0xD], .ok { cursor := [0xD, 0xB, 0xD], tail := 3 }) ∧
      OpenWriter (some testStore.cursor) =
        (some testStore.cursor, .ok { cursor := testStore.cursor, tail := 207 }) :=
  OpenWriter_sets_up testStore.cursor (by decide)

/-- C11. Format rejection: for an existing file of at least 3 bytes whose first
3 bytes are not the magic constant, `OpenWriter` returns no writer, fails with
`errInvalidMagicNumber` and leaves the file as it is; and for every existing
file, `OpenWriter` returns a writer only if the file begins with the 3 magic
bytes. -/
theorem format_rejection (f : File) :
    (3 ≤ f.length → f.take 3 ≠ [0xD, 0xB, 0xD] →
      OpenWriter (some f) = (some f, .error Error.errInvalidMagicNumber)) ∧
    (∀ w, (OpenWriter (some f)).2 = .ok w → f.take 3 = [0xD, 0xB, 0xD]) := by
  refine ⟨?_, fun w h => (OpenWriter_ok_magic h).1⟩
  intro hlen hne
  rcases f with _ | ⟨a, _ | ⟨b, _ | ⟨c, rest⟩⟩⟩
  · simp at hlen
  · simp at hlen
  · simp at hlen
  · simp only [List.take_succ_cons, List.take_zero] at hne
    simp only [OpenWriter, magicNumber, List.length_cons, List.length_nil, List.take_succ_cons,
      List.take_zero]
    simp only [Nat.reduceAdd, OfNat.ofNat_ne_zero, ↓reduceIte, Nat.sub_self, List.replicate_zero,
      List.append_nil, Compare_eq_zero_iff, ne_eq, ite_not]
    rw [if_neg hne]

set_option maxRecDepth 100000 in
/-- A file of three bytes that are not the magic constant, which is rejected
and left as it is, and the file of the store of `TestBST`, which is opened. -/
theorem format_rejection_witness :
    OpenWriter (some [1, 2, 3]) = (some [1, 2, 3], .error Error.errInvalidMagicNumber) ∧
      testStore.cursor.take 3 = [0xD, 0xB, 0xD] :=
  ⟨(format_rejection [1, 2, 3]).1 (by decide) (by decide),
    (format_rejection testStore.cursor).2 testStore
      (congrArg Prod.snd (OpenWriter_inv (putAll_inv inv_newWriter testStore_eq)))⟩

/-- C12. Node encoding round trip: for every key and value (of lengths that fit
64 bits) and every pair of 64-bit child offsets, `node.serialize` yields
`40 + len(key) + len(value)` bytes laid out as `recordSize keyLen key valueLen
value leftChild rightChild`, every integer in 8 little-endian bytes and
`recordSize = 32 + len(key) + len(value)`; `node.deserialize` applied to the
`recordSize` bytes after the size field returns the same node; and the reads of
a descent at the start of the record in a file decode to that node. -/
theorem node_encoding_round_trip (key value : Bytes) (leftChild rightChild : Nat)
    (hs : 32 + key.length + value.length < 2 ^ 64)
    (hl : leftChild < 2 ^ 64) (hr : rightChild < 2 ^ 64) :
    (node.serialize ⟨key, value, leftChild, rightChild⟩).length =
        40 + key.length + value.length ∧
      node.serialize ⟨key, value, leftChild, rightChild⟩ =
        putUint64 (32 + key.length + value.length) ++ (putUint64 key.length ++ (key ++
          (putUint64 value.length ++ (value ++
            (putUint64 leftChild ++ putUint64 rightChild))))) ∧
      (∀ x, x < 2 ^ 64 →
        putUint64 x = [x % 256, x / 256 % 256, x / 256 ^ 2 % 256, x / 256 ^ 3 % 256,
          x / 256 ^ 4 % 256, x / 256 ^ 5 % 256, x / 256 ^ 6 % 256, x / 256 ^ 7 % 256] ∧
        uint64 (putUint64 x) = x) ∧
      ((node.serialize ⟨key, value, leftChild, rightChild⟩).drop 8).length =
        32 + key.length + value.length ∧
      node.deserialize ((node.serialize ⟨key, value, leftChild, rightChild⟩).drop 8) =
        .ok ⟨key, value, leftChild, rightChild⟩ ∧
      ∀ pre post : Bytes,
        recordAt (pre ++ node.serialize ⟨key, value, leftChild, rightChild⟩ ++ post)
          pre.length = some ⟨key, value, leftChild, rightChild⟩ := by
  have hd : (node.serialize ⟨key, value, leftChild, rightChild⟩).drop 8 =
      node.body ⟨key, value, leftChild, rightChild⟩ := by
    rw [node.serialize_eq]
    exact List.drop_left' (putUint64_length _)
  refine ⟨node.serialize_length _, ?_, ?_, ?_, ?_, ?_⟩
  · rw [node.serialize_eq]
    rfl
  · intro x hx
    exact ⟨putUint64_bytes hx, by simpa using uint64_putUint64_of_lt hx []⟩
  · rw [hd]
    exact node.body_length _
  · rw [hd]
    exact node.deserialize_body _ (by simp only; omega) (by simp only; omega) hl hr
  · intro pre post
    exact recordAt_serialize _ (by simp only; omega) (by simp only; omega) hl hr hs pre post

set_option maxRecDepth 100000 in
/-- The root record of `TestBST`, `hello` and `world` with the children 105 and 53. -/
theorem node_encoding_round_trip_witness :
    (node.serialize ⟨str "hello", str "world", 105, 53⟩).length =
        40 + (str "hello").length + (str "world").length ∧
      node.serialize ⟨str "hello", str "world", 105, 53⟩ =
        putUint64 (32 + (str "hello").length + (str "world").length) ++
          (putUint64 (str "hello").length ++ (str "hello" ++
          (putUint64 (str "world").length ++ (str "world" ++
            (putUint64 105 ++ putUint64 53))))) ∧
      (∀ x, x < 2 ^ 64 →
        putUint64 x = [x % 256, x / 256 % 256, x / 256 ^ 2 % 256, x / 256 ^ 3 % 256,
          x / 256 ^ 4 % 256, x / 256 ^ 5 % 256, x / 256 ^ 6 % 256, x / 256 ^ 7 % 256] ∧
        uint64 (putUint64 x) = x) ∧
      ((node.serialize ⟨str "hello", str "world", 105, 53⟩).drop 8).length =
        32 + (str "hello").length + (str "world").length ∧
      node.deserialize ((node.serialize ⟨str "hello", str "world", 105, 53⟩).drop 8) =
        .ok ⟨str "hello", str "world", 105, 53⟩ ∧
      ∀ pre post : Bytes,
        recordAt (pre ++ node.serialize ⟨str "hello", str "world", 105, 53⟩ ++ post)
          pre.length = some ⟨str "hello", str "world", 105, 53⟩ :=
  node_encoding_round_trip (str "hello") (str "world") 105 53 (by decide) (by decide)
    (by decide)

set_option maxRecDepth 100000 in
/-- C13, counterexample. The first record of the store of `TestBST`, written by
`Put(hello, world)`, holds 42 in its `recordSize` field, which is not
`16 + len(key) + len(value) = 26`. -/
theorem record_size_counterexample :
    putAll 4 newWriter testOps = some testStore ∧
      uint64 (slice testStore.cursor 3 8) = 42 ∧
      uint64 (slice testStore.cursor 3 8) ≠ 16 + (str "hello").length + (str "world").length :=
  ⟨testStore_eq, by decide, by decide⟩

/-- C13, amended. File-format table: for every record written by a `Put(key,
value)` of a sequence of successful `Put` calls on a newly created store, the
value stored in the 8-byte `recordSize` field of the record is
`32 + len(key) + len(value)`: the 16 bytes of the two length fields, the key,
the value and the 16 bytes of the two child fields. -/
theorem record_size_field (pre post : List (Bytes × Bytes)) (k v : Bytes) (fuel : Nat)
    (w : writer) (hput : putAll fuel newWriter (pre ++ (k, v) :: post) = some w) :
    slice w.cursor (storeSize pre) 8 = putUint64 (32 + k.length + v.length) ∧
      uint64 (slice w.cursor (storeSize pre) 8) = 32 + k.length + v.length := by
  obtain ⟨hinv, hcl, hkv⟩ := putAll_built hput
  obtain ⟨n, hn, hk, hv⟩ := nodeAt_of_kv hkv 0
  simp only [Nat.zero_add] at hn
  have := size_field_of_inv hinv hcl hn
  rw [hk, hv] at this
  exact this

set_option maxRecDepth 100000 in
/-- The second record of the store of `TestBST`, `helloo` and `worldd` at offset 53. -/
theorem record_size_field_witness :
    slice testStore.cursor (storeSize [(str "hello", str "world")]) 8 =
        putUint64 (32 + (str "helloo").length + (str "worldd").length) ∧
      uint64 (slice testStore.cursor (storeSize [(str "hello", str "world")]) 8) =
        32 + (str "helloo").length + (str "worldd").length :=
  record_size_field [(str "hello", str "world")]
    [(str "hell", str "worl"), (str "hellooo", str "worlddd")] (str "helloo") (str "worldd") 4
    testStore testStore_eq

set_option maxRecDepth 100000 in
/-- C14, the code at a failing input. The file `truncFile` ends in the middle of
the root record: the 42 bytes that its size field declares do not follow it,
and a descent on the file as it is reports the short read. `Put(abc, v)` on the
writer that `OpenWriter` returns for the file appends the new record first, so
that the reads of the descent succeed: it returns `nil` and patches the
`leftChild` field of the root record, at the offset 37, with the old tail 45. -/
theorem truncated_store_put :
    OpenWriter (some truncFile) = (some truncFile, .ok truncWriter) ∧
      uint64 (slice truncFile 3 8) = 42 ∧ (slice truncFile 11 42).length = 34 ∧
      recordAt truncFile 3 = none ∧
      truncWriter.findPos 1 (str "abc") = some (.error Error.eof) ∧
      truncWriter.Put 1 (str "abc") (str "v") = some (truncPatched, none) ∧
      slice truncWriter.cursor 37 8 = [0, 0, 0, 0, 0, 0, 0, 0] ∧
      slice truncPatched.cursor 37 8 = putUint64 45 :=
  ⟨truncWriter_open, by decide, by decide, by decide, rfl, truncPatched_eq, by decide,
    by decide⟩

/-- C15. `findPos` computes the insertion slot: for a store built by successful
`Put` calls with tail above 3 and every key, the descent of the specification
from the offset 3 stops at a record `P` at an offset `o`, and `findPos` returns
without error `o + 24 + len(P.key) + len(P.value)` when `key <= P.key` and
`o + 32 + len(P.key) + len(P.value)` otherwise; the 8 bytes at these two
positions are the `leftChild` and the `rightChild` field of the record of `P`,
and the field at the returned position holds 0. -/
theorem findPos_insertion_slot (ops : List (Bytes × Bytes)) (fuel0 : Nat) (w : writer)
    (hput : putAll fuel0 newWriter ops = some w) (htail : 3 < w.tail) (key : Bytes)
    (fuel : Nat) (hfuel : ops.length ≤ fuel) :
    ∃ o P, descend w.cursor key fuel 3 = some (o, P) ∧
      w.findPos fuel key = some (.ok
        (if Compare key P.key ≤ 0 then o + 24 + P.key.length + P.value.length
          else o + 32 + P.key.length + P.value.length)) ∧
      slice w.cursor (o + 24 + P.key.length + P.value.length) 8 = putUint64 P.leftChild ∧
      slice w.cursor (o + 32 + P.key.length + P.value.length) 8 = putUint64 P.rightChild ∧
      (if Compare key P.key ≤ 0 then P.leftChild else P.rightChild) = 0 := by
  obtain ⟨hinv, hcl, hkv⟩ := putAll_built hput
  have h3 : w.tail ≠ 3 := by omega
  have hroot := inv_root hinv h3
  have hdepth : (run [] .nil ops).2.depth key ≤ fuel := by
    have := (run [] .nil ops).2.depth_le_size key
    have := hinv.size
    have := run_length [] .nil ops
    simp only [List.length_nil] at this
    omega
  have hb : w.cursor.length ≤ maxInt64 := by rw [inv_length hinv]; exact hinv.bound
  obtain ⟨n, hn, hd⟩ := descend_rep hinv.file hb _ hinv.rep (by omega) key
  obtain ⟨n1, hn1, hslot, hzero, hside⟩ := rep_slot hinv.rep (by omega) key
  rw [hn] at hn1
  cases hn1
  have hf := child_fields_of_nodeAt hn
  rw [← hinv.file] at hf
  refine ⟨_, n, ?_, ?_, hf.1, hf.2, ?_⟩
  · rw [← hroot, hd fuel, if_neg (by omega)]
  · rw [findPos_inv hinv h3 key fuel hdepth, hslot]
    simp only [node.slotAt]
    by_cases hc : Compare key n.key ≤ 0
    · rw [if_pos hc, hside.2 hc]
      simp only [if_true]
      congr 2
    · have : ((run [] .nil ops).2.parent key).2 = false := by
        cases hs : ((run [] .nil ops).2.parent key).2
        · rfl
        · exact absurd (hside.1 hs) hc
      rw [if_neg hc, this]
      simp only [Bool.false_eq_true, if_false]
      congr 2
      omega
  · by_cases hc : Compare key n.key ≤ 0
    · rw [if_pos hc]
      rw [hside.2 hc] at hzero
      simpa using hzero
    · have : ((run [] .nil ops).2.parent key).2 = false := by
        cases hs : ((run [] .nil ops).2.parent key).2
        · rfl
        · exact absurd (hside.1 hs) hc
      rw [if_neg hc]
      rw [this] at hzero
      simpa using hzero

set_option maxRecDepth 100000 in
/-- The root `hello` of the test at the offset 3: the key `hell` gets the
position 37 of its `leftChild` field, the key `helloo` the position 45 of its
`rightChild` field. -/
theorem findPos_insertion_slot_witness :
    (∃ o P, descend helloStore.cursor (str "hell") 1 3 = some (o, P) ∧
      helloStore.findPos 1 (str "hell") = some (.ok
        (if Compare (str "hell") P.key ≤ 0 then o + 24 + P.key.length + P.value.length
          else o + 32 + P.key.length + P.value.length)) ∧
      slice helloStore.cursor (o + 24 + P.key.length + P.value.length) 8 =
        putUint64 P.leftChild ∧
      slice helloStore.cursor (o + 32 + P.key.length + P.value.length) 8 =
        putUint64 P.rightChild ∧
      (if Compare (str "hell") P.key ≤ 0 then P.leftChild else P.rightChild) = 0) ∧
    helloStore.findPos 1 (str "hell") = some (.ok 37) ∧
    helloStore.findPos 1 (str "helloo") = some (.ok 45) :=
  ⟨findPos_insertion_slot [(str "hello", str "world")] 1 helloStore helloStore_eq (by decide)
    (str "hell") 1 (by decide), helloStore_findPos.1, helloStore_findPos.2⟩

/-- C16. The descent terminates: in a store built by successful `Put` calls
from a newly created file, every child field that is not 0, in the record at an
offset `o`, holds the start offset of a record, above `o` and below the tail;
and for every key `findPos` returns a position when it is given fuel for `n`
iterations, one for each record that it visits, `n` being the number of
records of the store. -/
theorem descent_terminates (ops : List (Bytes × Bytes)) (fuel0 : Nat) (w : writer)
    (hput : putAll fuel0 newWriter ops = some w) :
    (∀ pre k v post, ops = pre ++ (k, v) :: post →
      ∃ n, recordAt w.cursor (storeSize pre) = some n ∧
        (n.leftChild ≠ 0 → storeSize pre < n.leftChild ∧ n.leftChild < w.tail ∧
          ∃ pre1 kv1 post1, ops = pre1 ++ kv1 :: post1 ∧ n.leftChild = storeSize pre1) ∧
        (n.rightChild ≠ 0 → storeSize pre < n.rightChild ∧ n.rightChild < w.tail ∧
          ∃ pre1 kv1 post1, ops = pre1 ++ kv1 :: post1 ∧ n.rightChild = storeSize pre1)) ∧
    (∀ key fuel, ops.length ≤ fuel → ∃ pos, w.findPos fuel key = some (.ok pos)) := by
  obtain ⟨hinv, hcl, hkv⟩ := putAll_built hput
  have hfw : Forward (run [] .nil ops).1 := run_forward forward_nil _ _
  have htail : w.tail = storeSize ops := by rw [hinv.tail, flat_length_kv hkv]
  constructor
  · intro pre k v post hops
    obtain ⟨n, hn, -, -⟩ := nodeAt_of_kv (hkv.trans hops) 0
    simp only [Nat.zero_add] at hn
    have hoff := closed_offsets hcl hkv (nodeAt_mem hn)
    have hf := hfw _ _ hn
    have hlt : ∀ c, (∃ pre1 kv1 post1, ops = pre1 ++ kv1 :: post1 ∧ c = storeSize pre1) →
        c < w.tail := by
      rintro c ⟨pre1, ⟨k1, v1⟩, post1, h1, rfl⟩
      rw [htail, h1]
      have e1 := storeSize_append pre1 ((k1, v1) :: post1)
      have e2 := storeSize_ge post1
      have e3 : storeSize ((k1, v1) :: post1) = 40 + k1.length + v1.length + storeSize post1 := rfl
      omega
    refine ⟨n, recordAt_of_reads (inv_reads hinv hcl hn), ?_, ?_⟩
    · intro hne
      rcases hoff.1 with h0 | h1
      · exact absurd h0 hne
      · rcases hf.1 with h0 | h2
        · exact absurd h0 hne
        · exact ⟨h2, hlt _ h1, h1⟩
    · intro hne
      rcases hoff.2 with h0 | h1
      · exact absurd h0 hne
      · rcases hf.2 with h0 | h2
        · exact absurd h0 hne
        · exact ⟨h2, hlt _ h1, h1⟩
  · intro key fuel hfuel
    by_cases h3 : w.tail = 3
    · exact ⟨w.tail, by simp [writer.findPos, h3, magicNumber]⟩
    · have hdepth : (run [] .nil ops).2.depth key ≤ fuel := by
        have := (run [] .nil ops).2.depth_le_size key
        have := hinv.size
        have := run_length [] .nil ops
        simp only [List.length_nil] at this
        omega
      exact ⟨_, findPos_inv hinv h3 key fuel hdepth⟩

set_option maxRecDepth 100000 in
/-- The store of `TestBST`: the record `helloo` at the offset 53, whose
`rightChild` is 153, and the descent for the key `zzz` with fuel 4. -/
theorem descent_terminates_witness :
    (∃ n, recordAt testStore.cursor (storeSize [(str "hello", str "world")]) = some n ∧
        (n.leftChild ≠ 0 → storeSize [(str "hello", str "world")] < n.leftChild ∧
          n.leftChild < testStore.tail ∧
          ∃ pre1 kv1 post1, testOps = pre1 ++ kv1 :: post1 ∧ n.leftChild = storeSize pre1) ∧
        (n.rightChild ≠ 0 → storeSize [(str "hello", str "world")] < n.rightChild ∧
          n.rightChild < testStore.tail ∧
          ∃ pre1 kv1 post1, testOps = pre1 ++ kv1 :: post1 ∧ n.rightChild = storeSize pre1)) ∧
    (∃ pos, testStore.findPos 4 (str "zzz") = some (.ok pos)) :=
  ⟨(descent_terminates testOps 4 testStore testStore_eq).1 [(str "hello", str "world")]
      (str "helloo") (str "worldd") [(str "hell", str "worl"), (str "hellooo", str "worlddd")]
      rfl,
    (descent_terminates testOps 4 testStore testStore_eq).2 (str "zzz") 4 (by decide)⟩

/-- C17. No record is lost: after any sequence of successful `Put` calls on a
fresh store, the records reached from the root offset 3 along child fields are
exactly the records written, one at the offset of each call; each of them is
reached along exactly one path; and the pairs of key and value collected from
the tree are the pairs put, as a multiset. -/
theorem no_record_lost (ops : List (Bytes × Bytes)) (fuel0 : Nat) (w : writer)
    (hput : putAll fuel0 newWriter ops = some w) :
    (∀ o, (∃ p, walk w.cursor p 3 = some o) ↔
      ∃ pre kv post, ops = pre ++ kv :: post ∧ o = storeSize pre) ∧
    (∀ pre k v post, ops = pre ++ (k, v) :: post →
      ∃ n, recordAt w.cursor (storeSize pre) = some n ∧ n.key = k ∧ n.value = v ∧
        ∃ p, walk w.cursor p 3 = some (storeSize pre) ∧
          ∀ q, walk w.cursor q 3 = some (storeSize pre) → q = p) ∧
    (∀ fuel, ops.length ≤ fuel → (collect w.cursor fuel 3).Perm ops) := by
  obtain ⟨hinv, hcl, hkv⟩ := putAll_built hput
  have hall : AllIn (run [] .nil ops).1 (run [] .nil ops).2 := run_allIn allIn_nil ops
  have hb : w.cursor.length ≤ maxInt64 := by rw [inv_length hinv]; exact hinv.bound
  have hperm : (run [] .nil ops).2.pairs.Perm ops := by
    simpa [Tree.pairs] using run_pairs_perm [] .nil ops
  have hsize := hinv.size
  have hlen := run_length [] .nil ops
  simp only [List.length_nil] at hlen
  by_cases h3 : w.tail = 3
  · have hnil : ops = [] := by
      have ht := hinv.tail
      have e := flat_length_kv hkv
      cases ops with
      | nil => rfl
      | cons kv ops =>
        obtain ⟨k, v⟩ := kv
        have := storeSize_ge ops
        simp only [storeSize] at e
        omega
    subst hnil
    have hfile : w.cursor = magicNumber := by
      have := hinv.file
      simpa [run, flat] using this
    rw [hfile]
    refine ⟨?_, ?_, ?_⟩
    · intro o
      simp [walk_header]
    · intro pre k v post h
      simp at h
    · intro fuel _
      cases fuel <;> simp [collect, recordAt_header]
  · have hroot := inv_root hinv h3
    have hw : ∀ p, walk w.cursor p 3 = (run [] .nil ops).2.walk p := by
      intro p
      rw [← hroot]
      exact walk_rep hinv.file hb _ hinv.rep p
    refine ⟨?_, ?_, ?_⟩
    · intro o
      constructor
      · rintro ⟨p, hp⟩
        rw [hw] at hp
        obtain ⟨n, hn⟩ := rep_nodeAt_of_mem hinv.rep (Tree.walk_mem hp)
        obtain ⟨pre, post, h1, h2⟩ := kv_of_nodeAt (show nodeAt _ (0 + 3) o = some n from hn)
        exact ⟨pre, _, post, hkv.symm.trans h1, by simpa using h2⟩
      · rintro ⟨pre, ⟨k, v⟩, post, hops, rfl⟩
        obtain ⟨n, hn, -, -⟩ := nodeAt_of_kv (hkv.trans hops) 0
        simp only [Nat.zero_add] at hn
        obtain ⟨p, hp⟩ := Tree.walk_exists (hall _ _ hn)
        exact ⟨p, by rw [hw]; exact hp⟩
    · intro pre k v post hops
      obtain ⟨n, hn, hk, hv⟩ := nodeAt_of_kv (hkv.trans hops) 0
      simp only [Nat.zero_add] at hn
      obtain ⟨p, hp⟩ := Tree.walk_exists (hall _ _ hn)
      refine ⟨n, recordAt_of_reads (inv_reads hinv hcl hn), hk, hv, p, by rw [hw]; exact hp, ?_⟩
      intro q hq
      rw [hw] at hq
      exact Tree.walk_unique hinv.nodup hq hp
    · intro fuel hfuel
      rw [← hroot, collect_rep hinv.file hb _ hinv.rep fuel (by omega)]
      exact hperm

set_option maxRecDepth 100000 in
/-- The store of `TestBST`: the record of the second call is reached from the
root along its `rightChild` field and along no other path, and a traversal
with fuel 4 collects the four pairs. -/
theorem no_record_lost_witness :
    putAll 4 newWriter testOps = some testStore ∧
    (∃ n, recordAt testStore.cursor (storeSize [(str "hello", str "world")]) = some n ∧
        n.key = str "helloo" ∧ n.value = str "worldd" ∧
        ∃ p, walk testStore.cursor p 3 = some (storeSize [(str "hello", str "world")]) ∧
          ∀ q, walk testStore.cursor q 3 = some (storeSize [(str "hello", str "world")]) →
            q = p) ∧
    (collect testStore.cursor 4 3).Perm testOps :=
  ⟨rfl, (no_record_lost testOps 4 testStore rfl).2.1 [(str "hello", str "world")]
      (str "helloo") (str "worldd") _ rfl,
    (no_record_lost testOps 4 testStore rfl).2.2 4 (by decide)⟩

/-- C18. The root test in `Put` is exact: for every writer `findPos` returns
the value 3 if and only if the tail is 3; when the tail is not 3 a position
that `findPos` returns is at least 25; so a `Put` that returns `nil` has
written only the new record when the tail was 3, and has also patched the
position that `findPos` returned, which is at least 25, when it was not. -/
theorem root_test_exact (w : writer) (key : Bytes) (fuel : Nat) :
    (w.findPos fuel key = some (.ok 3) ↔ w.tail = 3) ∧
    (∀ pos, w.tail ≠ 3 → w.findPos fuel key = some (.ok pos) → 25 ≤ pos) ∧
    (∀ value w1, w.Put fuel key value = some (w1, none) →
      (w.tail = 3 →
        w1.cursor = overwrite w.cursor (node.serialize ⟨key, value, 0, 0⟩) w.tail) ∧
      (w.tail ≠ 3 → ∃ pos, 25 ≤ pos ∧
        writer.findPos fuel
          (writer.mk (overwrite w.cursor (node.serialize ⟨key, value, 0, 0⟩) w.tail) w.tail)
          key = some (.ok pos) ∧
        w1.cursor = overwrite (overwrite w.cursor (node.serialize ⟨key, value, 0, 0⟩) w.tail)
          (putUint64 w.tail) pos)) := by
  have hiff : ∀ w0 : writer, (w0.findPos fuel key = some (.ok 3) ↔ w0.tail = 3) := by
    intro w0
    constructor
    · intro h
      by_contra h3
      have := findPos_ge h3 h
      omega
    · intro h3
      simp [writer.findPos, h3, magicNumber]
  refine ⟨hiff w, fun pos h3 h => findPos_ge h3 h, ?_⟩
  intro value w1 hput
  obtain ⟨-, -, pos, hfp, hcase⟩ := Put_nil_cases hput
  constructor
  · intro h3
    rcases hcase with ⟨-, hc⟩ | ⟨hp, -⟩
    · exact hc
    · have := (hiff _).2 (show (writer.mk (overwrite w.cursor (leaf key value).serialize w.tail)
        w.tail).tail = 3 from h3)
      rw [hfp] at this
      simp only [Option.some.injEq, Except.ok.injEq] at this
      exact absurd this hp
  · intro h3
    have hge := findPos_ge (w := writer.mk (overwrite w.cursor (leaf key value).serialize w.tail)
      w.tail) h3 hfp
    rcases hcase with ⟨hp, -⟩ | ⟨-, hc⟩
    · omega
    · exact ⟨pos, hge, hfp, hc⟩

set_option maxRecDepth 100000 in
/-- The empty store, where `findPos` returns 3, and the store that holds `k`
with `a`, where it returns 29 and `Put(k, b)` patches that position. -/
theorem root_test_exact_witness :
    newWriter.findPos 1 (str "k") = some (.ok 3) ∧ 25 ≤ 29 ∧
      ∃ pos, 25 ≤ pos ∧
        writer.findPos 1
          (writer.mk (overwrite oneStore.cursor
            (node.serialize ⟨str "k", str "b", 0, 0⟩) oneStore.tail) oneStore.tail)
          (str "k") = some (.ok pos) ∧
        dupStore.cursor = overwrite (overwrite oneStore.cursor
          (node.serialize ⟨str "k", str "b", 0, 0⟩) oneStore.tail)
          (putUint64 oneStore.tail) pos :=
  ⟨(root_test_exact newWriter (str "k") 1).1.2 rfl,
    (root_test_exact oneStore (str "k") 1).2.1 29 (by decide) oneStore_findPos,
    ((root_test_exact oneStore (str "k") 1).2.2 (str "b") dupStore oneStore_put).2 (by decide)⟩

/-- C19. A failed `Put` does not advance the tail: for every writer, key and
value, when `Put` returns an error the tail is the same as before the call;
unless the error is that of a write beyond the largest offset, the file then
holds the bytes of the new record at that tail; and a later `Put` that returns
`nil` writes its record at the same offset and ends with the tail that much
further. -/
theorem failed_put_keeps_tail (w : writer) (k v : Bytes) (fuel : Nat) (w1 : writer) (e : Error)
    (hfail : w.Put fuel k v = some (w1, some e)) :
    w1.tail = w.tail ∧
    (e ≠ Error.fileTooLarge →
      w1.cursor = overwrite w.cursor (node.serialize ⟨k, v, 0, 0⟩) w.tail) ∧
    (∀ k2 v2 fuel2 w2, w1.Put fuel2 k2 v2 = some (w2, none) →
      w2.tail = w.tail + (40 + k2.length + v2.length) ∧
      (w2.cursor = overwrite w1.cursor (node.serialize ⟨k2, v2, 0, 0⟩) w.tail ∨
        ∃ pos, w2.cursor = overwrite (overwrite w1.cursor (node.serialize ⟨k2, v2, 0, 0⟩) w.tail)
          (putUint64 w.tail) pos)) := by
  have htail := Put_error_tail hfail
  refine ⟨htail, ?_, ?_⟩
  · intro hne
    rcases Put_cases w k v fuel with ⟨-, c, hc⟩ | ⟨-, h1 | h1 | h1⟩
    · rw [hc] at hfail
      simp only [Option.some.injEq, Prod.mk.injEq] at hfail
      exact absurd hfail.2.symm hne
    · rw [h1.2] at hfail
      simp at hfail
    · obtain ⟨e1, -, he⟩ := h1
      rw [he] at hfail
      simp only [Option.some.injEq, Prod.mk.injEq] at hfail
      rw [← hfail.1]
      rfl
    · obtain ⟨pos, -, h2 | h2 | h2⟩ := h1
      · rw [h2.2] at hfail
        simp at hfail
      · rw [h2.2.2] at hfail
        simp at hfail
      · obtain ⟨-, -, c, hc⟩ := h2
        rw [hc] at hfail
        simp only [Option.some.injEq, Prod.mk.injEq] at hfail
        exact absurd hfail.2.symm hne
  · intro k2 v2 fuel2 w2 hput
    obtain ⟨-, ht, pos, -, hcase⟩ := Put_nil_cases hput
    rw [htail] at ht hcase
    refine ⟨ht, ?_⟩
    rcases hcase with ⟨-, hc⟩ | ⟨-, hc⟩
    · exact Or.inl hc
    · exact Or.inr ⟨pos, hc⟩

set_option maxRecDepth 100000 in
/-- The failed `Put(zzz, v)` on the truncated store, which leaves the tail at 45
and the bytes of its record in the file, and the `Put(abc, v)` after it. -/
theorem failed_put_keeps_tail_witness :
    truncFailed.tail = truncWriter.tail ∧
    (Error.eof ≠ Error.fileTooLarge →
      truncFailed.cursor =
        overwrite truncWriter.cursor (node.serialize ⟨str "zzz", str "v", 0, 0⟩)
          truncWriter.tail) ∧
    (∀ k2 v2 fuel2 w2, truncFailed.Put fuel2 k2 v2 = some (w2, none) →
      w2.tail = truncWriter.tail + (40 + k2.length + v2.length) ∧
      (w2.cursor = overwrite truncFailed.cursor (node.serialize ⟨k2, v2, 0, 0⟩)
          truncWriter.tail ∨
        ∃ pos, w2.cursor = overwrite (overwrite truncFailed.cursor
          (node.serialize ⟨k2, v2, 0, 0⟩) truncWriter.tail) (putUint64 truncWriter.tail) pos)) :=
  failed_put_keeps_tail truncWriter (str "zzz") (str "v") 2 truncFailed Error.eof truncFailed_eq

/-- C20. Reopening is transparent: after every sequence of successful `Put`
calls on a newly created store the tail of the writer is the length of the
file, and `OpenWriter` on the closed file returns that same writer and leaves
the file as it is; so a run in which the writer is closed and the file opened
again before any of the calls gives the same result, and with it the same
final file, as the run with a single writer. -/
theorem reopening_transparent (rops : List (Bool × Bytes × Bytes)) (fuel : Nat) :
    (∀ w, putAll fuel newWriter (rops.map Prod.snd) = some w →
      w.tail = w.cursor.length ∧ OpenWriter (some w.Close) = (some w.Close, .ok w)) ∧
    putAllReopen fuel newWriter rops = putAll fuel newWriter (rops.map Prod.snd) := by
  refine ⟨?_, putAllReopen_inv inv_newWriter rops fuel⟩
  intro w hput
  have hinv := putAll_inv inv_newWriter hput
  exact ⟨(inv_length hinv).symm, OpenWriter_inv hinv⟩

set_option maxRecDepth 100000 in
/-- The four `Put` calls of `TestBST`, with the file opened again before the
second and the fourth. -/
theorem reopening_transparent_witness :
    (testStore.tail = testStore.cursor.length ∧
      OpenWriter (some testStore.Close) = (some testStore.Close, .ok testStore)) ∧
    putAllReopen 4 newWriter
      [(false, str "hello", str "world"), (true, str "helloo", str "worldd"),
        (false, str "hell", str "worl"), (true, str "hellooo", str "worlddd")] =
      some testStore :=
  ⟨(reopening_transparent
      [(false, str "hello", str "world"), (true, str "helloo", str "worldd"),
        (false, str "hell", str "worl"), (true, str "hellooo", str "worlddd")] 4).1 testStore
      testStore_eq,
    ((reopening_transparent
      [(false, str "hello", str "world"), (true, str "helloo", str "worldd"),
        (false, str "hell", str "worl"), (true, str "hellooo", str "worlddd")] 4).2).trans
      testStore_eq⟩

end diskbst
